import Mathlib

/-!
Verification of the outline-tree engine (treeUtils.ts and the persisted-file
API routes) of the locus_modern repository.

Strings are modelled as `List Char`.  JavaScript arrays of nodes are
`List Node`; in-place mutation through aliased sibling arrays is modelled by
functional rebuilding at the located position (the `locate`/`plug` pair below
mirrors `findParentContext` plus the subsequent `splice` calls).
-/

namespace Locus

/-- The scalar fields of a tree node (`TreeNodeData` minus `children`). -/
structure NodeInfo where
  id : Nat
  text : List Char
  indent : Int
  closed : Bool
  ol : Bool
deriving DecidableEq, Repr

/-- `TreeNodeData`: a node together with its ordered children. -/
inductive Node where
  | mk (info : NodeInfo) (children : List Node)
deriving Repr

def Node.info : Node → NodeInfo
  | .mk i _ => i

def Node.children : Node → List Node
  | .mk _ c => c

def Node.id (n : Node) : Nat := n.info.id

def Node.text (n : Node) : List Char := n.info.text

def Node.indent (n : Node) : Int := n.info.indent

def Node.closed (n : Node) : Bool := n.info.closed

def Node.ol (n : Node) : Bool := n.info.ol

@[simp] theorem Node.info_mk (i : NodeInfo) (c : List Node) : (Node.mk i c).info = i := rfl

@[simp] theorem Node.children_mk (i : NodeInfo) (c : List Node) : (Node.mk i c).children = c := rfl

@[simp] theorem Node.id_mk (i : NodeInfo) (c : List Node) : (Node.mk i c).id = i.id := rfl

@[simp] theorem Node.text_mk (i : NodeInfo) (c : List Node) : (Node.mk i c).text = i.text := rfl

@[simp] theorem Node.indent_mk (i : NodeInfo) (c : List Node) : (Node.mk i c).indent = i.indent := rfl

@[simp] theorem Node.closed_mk (i : NodeInfo) (c : List Node) : (Node.mk i c).closed = i.closed := rfl

theorem Node.ext_iff (a b : Node) : a = b ↔ a.info = b.info ∧ a.children = b.children := by
  cases a; cases b
  constructor
  · intro h; cases h; exact ⟨rfl, rfl⟩
  · intro h
    obtain ⟨h1, h2⟩ := h
    simp [Node.info, Node.children] at h1 h2
    rw [h1, h2]

mutual

/-- Boolean equality on nodes (children compared pointwise). -/
def nbeq : Node → Node → Bool
  | .mk i cs, .mk j ds => i == j && fbeq cs ds

/-- Boolean equality on forests. -/
def fbeq : List Node → List Node → Bool
  | [], [] => true
  | a :: as, b :: bs => nbeq a b && fbeq as bs
  | _, _ => false

end

mutual

theorem nbeq_iff : ∀ a b : Node, nbeq a b = true ↔ a = b
  | .mk i cs, .mk j ds => by
    have h := fbeq_iff cs ds
    constructor
    · intro h2
      simp [nbeq, h] at h2
      rw [h2.1, h2.2]
    · intro h2
      cases h2
      simp [nbeq, h]

theorem fbeq_iff : ∀ as bs : List Node, fbeq as bs = true ↔ as = bs
  | [], [] => by simp [fbeq]
  | [], _ :: _ => by simp [fbeq]
  | _ :: _, [] => by simp [fbeq]
  | a :: as, b :: bs => by
    have h1 := nbeq_iff a b
    have h2 := fbeq_iff as bs
    constructor
    · intro h
      simp [fbeq, h1, h2] at h
      rw [h.1, h.2]
    · intro h
      cases h
      simp [fbeq, h1, h2]

end

instance : DecidableEq Node := fun a b => decidable_of_iff _ (nbeq_iff a b)

mutual

/-- `cloneTree` from treeUtils.ts: deep copy of a forest. -/
def cloneTree : List Node → List Node
  | [] => []
  | n :: ns => cloneNode n :: cloneTree ns

/-- One node of `cloneTree`'s map. -/
def cloneNode : Node → Node
  | .mk info cs => .mk info (cloneTree cs)

end

mutual

theorem cloneTree_eq : ∀ ns : List Node, cloneTree ns = ns
  | [] => rfl
  | n :: ns => by rw [cloneTree, cloneNode_eq n, cloneTree_eq ns]

theorem cloneNode_eq : ∀ n : Node, cloneNode n = n
  | .mk info cs => by rw [cloneNode, cloneTree_eq cs]

end

mutual

/-- `updateIndent` from treeUtils.ts: add `d` to the indent of a node and all
its descendants. -/
def shiftNode (d : Int) : Node → Node
  | .mk info cs => .mk { info with indent := info.indent + d } (shiftForest d cs)

/-- `updateIndent` mapped over a forest. -/
def shiftForest (d : Int) : List Node → List Node
  | [] => []
  | n :: ns => shiftNode d n :: shiftForest d ns

end

/-- `countAllNodes` from treeUtils.ts. -/
def countAllNodes : List Node → Nat
  | [] => 0
  | .mk _ cs :: ns => 1 + countAllNodes cs + countAllNodes ns

/-- All ids of a forest in pre-order (root id, descendant ids, later siblings). -/
def idsF : List Node → List Nat
  | [] => []
  | .mk info cs :: ns => info.id :: (idsF cs ++ idsF ns)

/-- All texts of a forest in pre-order. -/
def textsF : List Node → List (List Char)
  | [] => []
  | .mk info cs :: ns => info.text :: (textsF cs ++ textsF ns)

/-- The id-max walk inside `nextId` from treeUtils.ts. -/
def maxIdWalk : List Node → Nat → Nat
  | [], m => m
  | .mk info cs :: ns, m => maxIdWalk ns (maxIdWalk cs (Nat.max m info.id))

/-- `nextId` from treeUtils.ts: one more than the largest id in the tree. -/
def nextId (nodes : List Node) : Nat := maxIdWalk nodes 0 + 1

/-- `findNode` from treeUtils.ts: first node with the given id in pre-order. -/
def findNode : List Node → Nat → Option Node
  | [], _ => none
  | .mk info cs :: ns, i =>
    if info.id = i then some (.mk info cs)
    else
      match findNode cs i with
      | some m => some m
      | none => findNode ns i

/-- One step of the surrounding context of a sibling list: the siblings before
the descended-into node, that node's scalar fields, and the siblings after. -/
structure Frame where
  pre : List Node
  info : NodeInfo
  post : List Node
deriving DecidableEq

/-- The result of locating a node: the chain of frames from the root sibling
list down to the sibling list holding the node (outermost first), and the
node's position inside that list.  This is `findParentContext` plus enough
information to rebuild the tree after a splice. -/
structure Ctx where
  path : List Frame
  pre : List Node
  node : Node
  post : List Node
deriving DecidableEq

/-- Rebuild the tree, placing sibling list `l` at the hole described by the
frame chain. -/
def plug : List Frame → List Node → List Node
  | [], l => l
  | f :: fs, l => f.pre ++ Node.mk f.info (plug fs l) :: f.post

/-- Prepend nodes in front of a context at its outermost level. -/
def extendPre (qs : List Node) (c : Ctx) : Ctx :=
  match c.path with
  | [] => ⟨[], qs ++ c.pre, c.node, c.post⟩
  | f :: fs => ⟨⟨qs ++ f.pre, f.info, f.post⟩ :: fs, c.pre, c.node, c.post⟩

/-- `findParentContext` from treeUtils.ts, kept as a full context: scan the
sibling list left to right; at each node first compare its id, then search its
subtree, then move on.  Returns the context of the first match in pre-order. -/
def locate : List Node → Nat → Option Ctx
  | [], _ => none
  | .mk info cs :: ns, i =>
    if info.id = i then some ⟨[], [], .mk info cs, ns⟩
    else
      match locate cs i with
      | some c => some ⟨⟨[], info, ns⟩ :: c.path, c.pre, c.node, c.post⟩
      | none =>
        match locate ns i with
        | some c => some (extendPre [.mk info cs] c)
        | none => none

/-- The parent's scalar fields at a context (`ctx.parent` in the source),
`none` when the node sits in the top-level list. -/
def Ctx.parentInfo (c : Ctx) : Option NodeInfo := (c.path.getLast?).map Frame.info

/-- The sibling index of the located node (`ctx.index` in the source). -/
def Ctx.index (c : Ctx) : Nat := c.pre.length

/-- Does the forest contain a node with this id (anywhere)? -/
def forestHasId : List Node → Nat → Bool
  | [], _ => false
  | .mk info cs :: ns, i => info.id == i || forestHasId cs i || forestHasId ns i

/-- `isAncestor` from treeUtils.ts: is `nId` inside the subtree below the first
node whose id is `aId`? -/
def isAncestor (nodes : List Node) (aId nId : Nat) : Bool :=
  match findNode nodes aId with
  | none => false
  | some a => forestHasId a.children nId

/-- `findNode` followed by an in-place update of the found node: rewrite the
first node with the given id in pre-order.  `none` when the id is absent. -/
def modifyAtId : List Node → Nat → (Node → Node) → Option (List Node)
  | [], _, _ => none
  | .mk info cs :: ns, i, f =>
    if info.id = i then some (f (.mk info cs) :: ns)
    else
      match modifyAtId cs i f with
      | some cs2 => some (.mk info cs2 :: ns)
      | none =>
        match modifyAtId ns i f with
        | some l => some (.mk info cs :: l)
        | none => none

/-- `indentNode` from treeUtils.ts: the node becomes the last child of its
previous sibling, its whole subtree is shifted one level deeper, and the new
parent is expanded.  Fails without a previous sibling or when the id is
absent. -/
def indentNode (nodes : List Node) (i : Nat) : Option (List Node) :=
  match locate (cloneTree nodes) i with
  | none => none
  | some c =>
    match c.pre.getLast? with
    | none => none
    | some prev =>
      some (plug c.path (c.pre.dropLast ++
        Node.mk { prev.info with closed := false }
          (prev.children ++ [shiftNode 1 c.node]) :: c.post))

/-- `outdentNode` from treeUtils.ts.  The following siblings are shifted one
level deeper and appended as children of the node, then the whole node subtree
(including them) is shifted one level shallower; the node and its former
following siblings are spliced out of the parent's child list, and the node is
re-inserted right after the parent (the source re-runs `findParentContext` on
the already-spliced tree for that insertion, mirrored here by the second
`locate`).  Fails for a top-level or absent id. -/
def outdentNode (nodes : List Node) (i : Nat) : Option (List Node) :=
  match locate (cloneTree nodes) i with
  | none => none
  | some c =>
    match c.path.getLast? with
    | none => none
    | some pf =>
      let moved := shiftNode (-1)
        (Node.mk c.node.info (c.node.children ++ c.post.map (shiftNode 1)))
      let t1 := plug c.path.dropLast (pf.pre ++ Node.mk pf.info c.pre :: pf.post)
      match locate t1 pf.info.id with
      | some c2 => some (plug c2.path (c2.pre ++ c2.node :: moved :: c2.post))
      | none => none
      -- the source's fallback scan of the top list is unreachable: the parent
      -- is still present in `t1`, so the second search always succeeds

/-- The ancestor walk of `moveNode` (used when a shallower `targetIndent` is
requested): follow parents while the current node is deeper than the request.
The source walks aliased parent pointers; the walk is fuelled here, with fuel
at least the tree's node count it performs the same steps. -/
def walkUp (t1 : List Node) (ti : Int) : Nat → Nat → Node → Nat × Node
  | 0, cid, cur => (cid, cur)
  | fuel + 1, cid, cur =>
    if ti < cur.indent then
      match locate t1 cid with
      | some c =>
        match c.path.getLast? with
        | some pf => walkUp t1 ti fuel pf.info.id (Node.mk pf.info (c.pre ++ c.node :: c.post))
        | none => (cid, cur)
      | none => (cid, cur)
    else (cid, cur)

/-- Resolution of the effective target for `moveNode`'s before/after modes:
when a `targetIndent` shallower than the target is supplied and an ancestor
with exactly that indent exists, that ancestor becomes the target. -/
def resolveIndent (t1 : List Node) (targetId : Nat) (tiOpt : Option Int) : Nat :=
  match tiOpt with
  | none => targetId
  | some ti =>
    match findNode t1 targetId with
    | none => targetId
    | some tn =>
      if ti < tn.indent then
        let r := walkUp t1 ti (countAllNodes t1) targetId tn
        if r.2.indent = ti then r.1 else targetId
      else targetId

/-- The `mode` argument of `moveNode`. -/
inductive Mode where
  | before
  | after
  | child
deriving DecidableEq

/-- `moveNode` from treeUtils.ts: relocate the dragged subtree before/after the
target or as its last child, rebasing indents by one common delta.  Fails when
the drag and target ids coincide, when the target lies inside the dragged
subtree, or when an id does not resolve. -/
def moveNode (nodes : List Node) (dragId targetId : Nat) (mode : Mode)
    (targetIndent : Option Int) : Option (List Node) :=
  if dragId = targetId then none
  else if isAncestor nodes dragId targetId then none
  else
    match locate (cloneTree nodes) dragId with
    | none => none
    | some dc =>
      let dragNode := dc.node
      let t1 := plug dc.path (dc.pre ++ dc.post)
      match mode with
      | .child =>
        match findNode t1 targetId with
        | none => none
        | some target =>
          modifyAtId t1 targetId (fun n => .mk { n.info with closed := false }
            (n.children ++ [shiftNode (target.indent + 1 - dragNode.indent) dragNode]))
      | .before =>
        match locate t1 (resolveIndent t1 targetId targetIndent) with
        | none => none
        | some tc =>
          some (plug tc.path (tc.pre ++
            shiftNode (tc.node.indent - dragNode.indent) dragNode :: tc.node :: tc.post))
      | .after =>
        match locate t1 (resolveIndent t1 targetId targetIndent) with
        | none => none
        | some tc =>
          some (plug tc.path (tc.pre ++ tc.node ::
            shiftNode (tc.node.indent - dragNode.indent) dragNode :: tc.post))

mutual

/-- `reassignIds` from treeUtils.ts: give the subtree fresh consecutive ids in
pre-order, returning the next unused id. -/
def reassignIds : Node → Nat → Node × Nat
  | .mk info cs, k =>
    let r := reassignForest cs (k + 1)
    (.mk { info with id := k } r.1, r.2)

/-- `reassignIds` over a list of children. -/
def reassignForest : List Node → Nat → List Node × Nat
  | [], k => ([], k)
  | n :: ns, k =>
    let r := reassignIds n k
    let r2 := reassignForest ns r.2
    (r.1 :: r2.1, r2.2)

end

/-- The clone/rebase/renumber loop inside `pasteNodes`. -/
def pasteClones : List Node → Int → Nat → List Node × Nat
  | [], _, k => ([], k)
  | n :: ns, tind, k =>
    let clone := shiftNode (tind - n.indent) (cloneNode n)
    let r := reassignIds clone k
    let rest := pasteClones ns tind r.2
    (r.1 :: rest.1, rest.2)

/-- `pasteNodes` from treeUtils.ts: splice rebased, renumbered copies of the
clipboard entries right after the target.  With an empty clipboard the input
list itself is returned; with an unresolvable target the (cloned) tree is
returned unchanged. -/
def pasteNodes (nodes : List Node) (targetId : Nat) (copied : List Node)
    (startId : Nat) : List Node :=
  if copied.isEmpty then nodes
  else
    let tree := cloneTree nodes
    match locate tree targetId with
    | none => tree
    | some c =>
      plug c.path (c.pre ++ c.node :: ((pasteClones copied c.node.indent startId).1 ++ c.post))

/-- `pasteNode` from treeUtils.ts. -/
def pasteNode (nodes : List Node) (targetId : Nat) (copied : Node) (startId : Nat) : List Node :=
  pasteNodes nodes targetId [copied] startId

/-- `mergeNodes` from treeUtils.ts: concatenate the texts onto the target, move
the source's children onto the target (rebased one level below the target,
expanding it), splice the source out, and return the new tree with the join
point `targetText.length`. -/
def mergeNodes (nodes : List Node) (targetId sourceId : Nat)
    (targetText sourceText : List Char) : Option (List Node × Nat) :=
  let tree := cloneTree nodes
  let joinPoint := targetText.length
  match findNode tree targetId with
  | none => none
  | some target0 =>
    match modifyAtId tree targetId
        (fun n => .mk { n.info with text := targetText ++ sourceText } n.children) with
    | none => none
    | some t1 =>
      match findNode t1 sourceId with
      | none => none
      | some src =>
        let step := if src.children.isEmpty then some t1
          else modifyAtId t1 targetId (fun n => .mk { n.info with closed := false }
            (n.children ++ src.children.map (fun ch =>
              shiftNode (target0.indent + 1 - ch.indent) ch)))
        match step with
        | none => none
        | some t2 =>
          match locate t2 sourceId with
          | none => none
          | some sc => some (plug sc.path (sc.pre ++ sc.post), joinPoint)

/-- `addChildNode` from treeUtils.ts: append a fresh empty child under the
parent and expand it.  When the parent id does not resolve the cloned tree is
returned unchanged together with the never-inserted node value. -/
def addChildNode (nodes : List Node) (parentId newId : Nat) : List Node × Node :=
  let tree := cloneTree nodes
  match findNode tree parentId with
  | none => (tree, .mk ⟨newId, [], 1, false, false⟩ [])
  | some parent =>
    let newNode : Node := .mk ⟨newId, [], parent.indent + 1, false, false⟩ []
    match modifyAtId tree parentId
        (fun n => .mk { n.info with closed := false } (n.children ++ [newNode])) with
    | some t2 => (t2, newNode)
    | none => (tree, newNode)

/-- `addSiblingNode` from treeUtils.ts: insert a fresh empty node right after
the given sibling, at the sibling's indent.  `none` when the id is absent. -/
def addSiblingNode (nodes : List Node) (siblingId newId : Nat) : Option (List Node × Node) :=
  match locate (cloneTree nodes) siblingId with
  | none => none
  | some c =>
    let newNode : Node := .mk ⟨newId, [], c.node.indent, false, false⟩ []
    some (plug c.path (c.pre ++ c.node :: newNode :: c.post), newNode)

/-- `copyNode` from treeUtils.ts: deep copy of the subtree at the id. -/
def copyNode (nodes : List Node) (i : Nat) : Option Node := (findNode nodes i).map cloneNode

/-! ### The indent invariant -/

/-- All roots of the list have this exact indent. -/
def rootsAt (d : Int) (l : List Node) : Bool := l.all (fun n => n.indent == d)

/-- The parent–child indent invariant: every child's indent is its parent's
plus one (nothing is required of the roots of the list itself). -/
def forestInv : List Node → Bool
  | [] => true
  | .mk info cs :: ns => rootsAt (info.indent + 1) cs && forestInv cs && forestInv ns

/-- All top-level nodes share one indent value (the second half of the spec's
invariant). -/
def topUniform : List Node → Bool
  | [] => true
  | n :: ns => rootsAt n.indent ns

/-- An optional requirement on the indent of every root of a list. -/
def rootsReq : Option Int → List Node → Bool
  | none, _ => true
  | some r, l => rootsAt r l

/-- An optional requirement on one node's indent. -/
def infoAt : Option Int → NodeInfo → Bool
  | none, _ => true
  | some r, info => info.indent == r

/-- The invariant of a sibling list under an optional required root indent. -/
def okAt (rOpt : Option Int) (l : List Node) : Bool := forestInv l && rootsReq rOpt l

/-- The invariant of the surroundings recorded in a frame chain. -/
def pathOkR : Option Int → List Frame → Bool
  | _, [] => true
  | rOpt, f :: fs =>
    okAt rOpt f.pre && okAt rOpt f.post && infoAt rOpt f.info &&
      pathOkR (some (f.info.indent + 1)) fs

/-- The root-indent requirement that a frame chain imposes on the sibling list
sitting in its hole. -/
def lastReq : Option Int → List Frame → Option Int
  | rOpt, [] => rOpt
  | _, f :: fs => lastReq (some (f.info.indent + 1)) fs

theorem rootsAt_append (d : Int) (a b : List Node) :
    rootsAt d (a ++ b) = (rootsAt d a && rootsAt d b) := by
  simp [rootsAt, List.all_append]

theorem forestInv_append : ∀ a b : List Node,
    forestInv (a ++ b) = (forestInv a && forestInv b)
  | [], b => by simp [forestInv]
  | .mk info cs :: a, b => by
    rw [List.cons_append, forestInv, forestInv, forestInv_append a b]
    simp [Bool.and_assoc]

theorem okAt_append (rOpt : Option Int) (a b : List Node) :
    okAt rOpt (a ++ b) = true ↔ (okAt rOpt a = true ∧ okAt rOpt b = true) := by
  cases rOpt <;> simp [okAt, rootsReq, forestInv_append, rootsAt_append] <;> tauto

theorem okAt_nil (rOpt : Option Int) : okAt rOpt [] = true := by
  cases rOpt <;> simp [okAt, rootsReq, forestInv, rootsAt]

theorem okAt_cons (rOpt : Option Int) (info : NodeInfo) (cs ns : List Node) :
    okAt rOpt (Node.mk info cs :: ns) = true ↔
      (okAt (some (info.indent + 1)) cs = true ∧ infoAt rOpt info = true ∧
        okAt rOpt ns = true) := by
  cases rOpt <;> simp [okAt, rootsReq, forestInv, infoAt, rootsAt] <;> tauto

theorem okAt_plug : ∀ (p : List Frame) (rOpt : Option Int) (l : List Node),
    okAt rOpt (plug p l) = true ↔
      (pathOkR rOpt p = true ∧ okAt (lastReq rOpt p) l = true)
  | [], rOpt, l => by simp [plug, pathOkR, lastReq]
  | f :: fs, rOpt, l => by
    have ih := okAt_plug fs (some (f.info.indent + 1)) l
    rw [plug]
    rw [okAt_append]
    rw [okAt_cons]
    simp [pathOkR, lastReq, ih]
    tauto

theorem rootsAt_shift (d x : Int) : ∀ l : List Node,
    rootsAt (x + d) (shiftForest d l) = rootsAt x l
  | [] => by simp [shiftForest, rootsAt]
  | .mk info cs :: ns => by
    have ih := rootsAt_shift d x ns
    simp only [shiftForest, shiftNode, rootsAt, List.all_cons, Node.indent_mk] at ih ⊢
    have hbe : (info.indent + d == x + d) = (info.indent == x) := by
      cases hb : info.indent == x
      · simp only [beq_eq_false_iff_ne, ne_eq] at hb ⊢
        omega
      · simp only [beq_iff_eq] at hb ⊢
        omega
    rw [hbe, ih]

theorem forestInv_shift (d : Int) : ∀ l : List Node,
    forestInv (shiftForest d l) = forestInv l
  | [] => by simp [shiftForest]
  | .mk info cs :: ns => by
    rw [shiftForest, shiftNode, forestInv, forestInv,
      forestInv_shift d cs, forestInv_shift d ns]
    have : info.indent + d + 1 = (info.indent + 1) + d := by omega
    rw [this, rootsAt_shift d (info.indent + 1) cs]

/-! ### Basic lemmas about the traversal functions -/

theorem idsF_append : ∀ a b : List Node, idsF (a ++ b) = idsF a ++ idsF b
  | [], _ => by simp [idsF]
  | .mk info cs :: a, b => by
    rw [List.cons_append, idsF, idsF, idsF_append a b]
    simp [List.append_assoc]

theorem countAllNodes_append : ∀ a b : List Node,
    countAllNodes (a ++ b) = countAllNodes a + countAllNodes b
  | [], _ => by simp [countAllNodes]
  | .mk info cs :: a, b => by
    rw [List.cons_append, countAllNodes, countAllNodes, countAllNodes_append a b]
    omega

theorem forestHasId_iff : ∀ (l : List Node) (i : Nat), forestHasId l i = true ↔ i ∈ idsF l
  | [], i => by simp [forestHasId, idsF]
  | .mk info cs :: ns, i => by
    have h1 := forestHasId_iff cs i
    have h2 := forestHasId_iff ns i
    rw [forestHasId, idsF]
    simp only [List.mem_cons, List.mem_append, ← h1, ← h2, Bool.or_eq_true, beq_iff_eq]
    constructor
    · rintro ((h | h) | h)
      · exact Or.inl h.symm
      · exact Or.inr (Or.inl h)
      · exact Or.inr (Or.inr h)
    · rintro (h | h | h)
      · exact Or.inl (Or.inl h.symm)
      · exact Or.inl (Or.inr h)
      · exact Or.inr h

theorem forestHasId_false_iff (l : List Node) (i : Nat) :
    forestHasId l i = false ↔ i ∉ idsF l := by
  rw [← forestHasId_iff]
  constructor
  · intro h h2; rw [h] at h2; cases h2
  · intro h
    cases hb : forestHasId l i
    · rfl
    · exact absurd hb h

/-! ### Lemmas about `plug`, `extendPre` and `locate` -/

/-- Ids that occur, in pre-order, strictly before the hole of a frame chain. -/
def pathPreIds : List Frame → List Nat
  | [] => []
  | f :: fs => idsF f.pre ++ f.info.id :: pathPreIds fs

/-- Ids contributed after the hole by a frame chain. -/
def pathPostIds : List Frame → List Nat
  | [] => []
  | f :: fs => pathPostIds fs ++ idsF f.post

/-- Node count contributed by the frames themselves. -/
def pathCount : List Frame → Nat
  | [] => 0
  | f :: fs => countAllNodes f.pre + countAllNodes f.post + 1 + pathCount fs

theorem idsF_plug : ∀ (p : List Frame) (l : List Node),
    idsF (plug p l) = pathPreIds p ++ idsF l ++ pathPostIds p
  | [], l => by simp [plug, pathPreIds, pathPostIds]
  | f :: fs, l => by
    rw [plug, idsF_append, idsF, idsF_plug fs l]
    simp [pathPreIds, pathPostIds, List.append_assoc]

theorem countAllNodes_plug : ∀ (p : List Frame) (l : List Node),
    countAllNodes (plug p l) = pathCount p + countAllNodes l
  | [], l => by simp [plug, pathCount]
  | f :: fs, l => by
    rw [plug, countAllNodes_append, countAllNodes, countAllNodes_plug fs l, pathCount]
    omega

@[simp] theorem extendPre_node (qs : List Node) (c : Ctx) : (extendPre qs c).node = c.node := by
  cases c with
  | mk path pre node post => cases path <;> simp [extendPre]

@[simp] theorem extendPre_nil (c : Ctx) : extendPre [] c = c := by
  cases c with
  | mk path pre node post => cases path <;> simp [extendPre]

theorem extendPre_comp (a b : List Node) (c : Ctx) :
    extendPre a (extendPre b c) = extendPre (a ++ b) c := by
  cases c with
  | mk path pre node post => cases path <;> simp [extendPre, List.append_assoc]

theorem locate_node_id : ∀ (l : List Node) (i : Nat) (c : Ctx),
    locate l i = some c → c.node.id = i
  | [], i, c => by intro h; simp [locate] at h
  | .mk info cs :: ns, i, c => by
    intro h
    by_cases hid : info.id = i
    · simp [locate, hid] at h
      rw [← h]
      simp [hid]
    · rcases h1 : locate cs i with _ | c1
      · rcases h2 : locate ns i with _ | c2
        · simp [locate, hid, h1, h2] at h
        · simp [locate, hid, h1, h2] at h
          have hi := locate_node_id ns i c2 h2
          rw [← h]
          simp [hi]
      · simp [locate, hid, h1] at h
        have hi := locate_node_id cs i c1 h1
        rw [← h]
        simp [hi]

theorem locate_isSome : ∀ (l : List Node) (i : Nat), (locate l i).isSome = forestHasId l i
  | [], i => by simp [locate, forestHasId]
  | .mk info cs :: ns, i => by
    by_cases hid : info.id = i
    · simp [locate, forestHasId, hid]
    · have h1 := locate_isSome cs i
      have h2 := locate_isSome ns i
      rcases hc : locate cs i with _ | c1
      · rcases hn : locate ns i with _ | c2
        · have e1 : forestHasId cs i = false := by rw [← h1, hc]; rfl
          have e2 : forestHasId ns i = false := by rw [← h2, hn]; rfl
          simp [locate, forestHasId, hid, hc, hn, e1, e2]
        · have e1 : forestHasId cs i = false := by rw [← h1, hc]; rfl
          have e2 : forestHasId ns i = true := by rw [← h2, hn]; rfl
          simp [locate, forestHasId, hid, hc, hn, e1, e2]
      · have e1 : forestHasId cs i = true := by rw [← h1, hc]; rfl
        simp [locate, forestHasId, hid, hc, e1]

theorem locate_eq_none_iff (l : List Node) (i : Nat) :
    locate l i = none ↔ forestHasId l i = false := by
  have h := locate_isSome l i
  rcases hc : locate l i with _ | c
  · rw [hc] at h; simp at h
    simp [h.symm]
  · rw [hc] at h; simp at h
    simp [h.symm]

theorem findNode_eq_locate : ∀ (l : List Node) (i : Nat),
    findNode l i = (locate l i).map Ctx.node
  | [], i => by simp [findNode, locate]
  | .mk info cs :: ns, i => by
    by_cases hid : info.id = i
    · simp [findNode, locate, hid]
    · have h1 := findNode_eq_locate cs i
      have h2 := findNode_eq_locate ns i
      rcases hc : locate cs i with _ | c1
      · rcases hn : locate ns i with _ | c2
        · rw [hc] at h1; rw [hn] at h2
          simp at h1 h2
          simp [findNode, locate, hid, hc, hn, h1, h2]
        · rw [hc] at h1; rw [hn] at h2
          simp at h1 h2
          simp [findNode, locate, hid, hc, hn, h1, h2]
      · rw [hc] at h1
        simp at h1
        simp [findNode, locate, hid, hc, h1]

theorem locate_append_skip : ∀ (qs rest : List Node) (i : Nat),
    forestHasId qs i = false →
    locate (qs ++ rest) i = (locate rest i).map (extendPre qs)
  | [], rest, i => by
    intro _
    rcases hr : locate rest i with _ | c <;> simp [hr]
  | .mk info cs :: qs, rest, i => by
    intro h
    rw [forestHasId] at h
    simp only [Bool.or_eq_false_iff] at h
    obtain ⟨⟨hid, hcs⟩, hqs⟩ := h
    have hid2 : ¬ info.id = i := by
      intro he; rw [he] at hid; simp at hid
    have hcs2 : locate cs i = none := (locate_eq_none_iff cs i).mpr hcs
    have ih := locate_append_skip qs rest i hqs
    rw [List.cons_append]
    rcases hr : locate rest i with _ | c
    · rw [hr] at ih
      simp at ih
      simp [locate, hid2, hcs2, ih, hr]
    · rw [hr] at ih
      simp at ih
      simp [locate, hid2, hcs2, ih, hr, extendPre_comp]

theorem locate_plug : ∀ (p : List Frame) (pre : List Node) (x : Node) (post : List Node),
    (∀ f ∈ p, ¬ f.info.id = x.id ∧ forestHasId f.pre x.id = false) →
    forestHasId pre x.id = false →
    locate (plug p (pre ++ x :: post)) x.id = some ⟨p, pre, x, post⟩
  | [], pre, x, post => by
    intro _ hpre
    rw [plug, locate_append_skip pre (x :: post) x.id hpre]
    cases x with
    | mk info cs => simp [locate, extendPre]
  | f :: fs, pre, x, post => by
    intro hp hpre
    have hf := hp f (List.mem_cons_self f fs)
    have hfs : ∀ g ∈ fs, ¬ g.info.id = x.id ∧ forestHasId g.pre x.id = false :=
      fun g hg => hp g (List.mem_cons_of_mem f hg)
    have ih := locate_plug fs pre x post hfs hpre
    rw [plug, locate_append_skip f.pre _ x.id hf.2]
    simp only [locate, hf.1, if_false, ih]
    cases f with
    | mk fpre finfo fpost => simp [extendPre]

@[simp] theorem extendPre_post (qs : List Node) (c : Ctx) : (extendPre qs c).post = c.post := by
  cases c with
  | mk path pre node post => cases path <;> simp [extendPre]

theorem plug_extendPre_tail (qs : List Node) (c : Ctx) (T : List Node) :
    plug (extendPre qs c).path ((extendPre qs c).pre ++ T) = qs ++ plug c.path (c.pre ++ T) := by
  cases c with
  | mk path pre node post => cases path <;> simp [extendPre, plug, List.append_assoc]

theorem modifyAtId_eq : ∀ (l : List Node) (i : Nat) (f : Node → Node),
    modifyAtId l i f = (locate l i).map (fun c => plug c.path (c.pre ++ f c.node :: c.post))
  | [], i, f => by simp [modifyAtId, locate]
  | .mk info cs :: ns, i, f => by
    by_cases hid : info.id = i
    · simp [modifyAtId, locate, hid, plug]
    · have h1 := modifyAtId_eq cs i f
      have h2 := modifyAtId_eq ns i f
      rcases hc : locate cs i with _ | c1
      · rcases hn : locate ns i with _ | c2
        · rw [hc] at h1; rw [hn] at h2
          simp at h1 h2
          simp [modifyAtId, locate, hid, hc, hn, h1, h2]
        · rw [hc] at h1; rw [hn] at h2
          simp at h1 h2
          have hp := plug_extendPre_tail [Node.mk info cs] c2 (f c2.node :: c2.post)
          simp [modifyAtId, locate, hid, hc, hn, h1, h2, hp]
      · rw [hc] at h1
        simp at h1
        simp [modifyAtId, locate, hid, hc, h1, plug]

theorem countAllNodes_shift (d : Int) : ∀ l : List Node,
    countAllNodes (shiftForest d l) = countAllNodes l
  | [] => by simp [shiftForest, countAllNodes]
  | .mk info cs :: ns => by
    rw [shiftForest, shiftNode, countAllNodes, countAllNodes,
      countAllNodes_shift d cs, countAllNodes_shift d ns]

theorem idsF_shift (d : Int) : ∀ l : List Node, idsF (shiftForest d l) = idsF l
  | [] => by simp [shiftForest, idsF]
  | .mk info cs :: ns => by
    rw [shiftForest, shiftNode, idsF, idsF, idsF_shift d cs, idsF_shift d ns]

theorem Node.eta : ∀ n : Node, Node.mk n.info n.children = n
  | .mk _ _ => rfl

theorem plug_append : ∀ (p q : List Frame) (l : List Node),
    plug (p ++ q) l = plug p (plug q l)
  | [], q, l => by simp [plug]
  | f :: fs, q, l => by rw [List.cons_append, plug, plug, plug_append fs q l]

theorem shiftForest_comp (a b : Int) : ∀ l : List Node,
    shiftForest a (shiftForest b l) = shiftForest (b + a) l
  | [] => by simp [shiftForest]
  | .mk info cs :: ns => by
    rw [shiftForest, shiftNode, shiftForest, shiftNode, shiftForest,
      shiftForest_comp a b cs, shiftForest_comp a b ns, shiftNode]
    have : info.indent + b + a = info.indent + (b + a) := by omega
    rw [this]

theorem shiftForest_zero : ∀ l : List Node, shiftForest 0 l = l
  | [] => rfl
  | .mk info cs :: ns => by
    rw [shiftForest, shiftNode, shiftForest_zero cs, shiftForest_zero ns]
    simp

theorem shiftNode_comp (a b : Int) (n : Node) :
    shiftNode a (shiftNode b n) = shiftNode (b + a) n := by
  have h := shiftForest_comp a b [n]
  simp [shiftForest] at h
  exact h

theorem shiftNode_zero (n : Node) : shiftNode 0 n = n := by
  have h := shiftForest_zero [n]
  simp [shiftForest] at h
  exact h

theorem info_id_mem_pathPreIds : ∀ (p : List Frame) (f : Frame),
    f ∈ p → f.info.id ∈ pathPreIds p
  | [], f => by intro h; cases h
  | g :: gs, f => by
    intro h
    rcases List.mem_cons.mp h with h | h
    · rw [h, pathPreIds]
      simp
    · rw [pathPreIds]
      have := info_id_mem_pathPreIds gs f h
      simp [this]

theorem pre_ids_mem_pathPreIds : ∀ (p : List Frame) (f : Frame) (a : Nat),
    f ∈ p → a ∈ idsF f.pre → a ∈ pathPreIds p
  | [], f, a => by intro h; cases h
  | g :: gs, f, a => by
    intro h hm
    rcases List.mem_cons.mp h with h | h
    · rw [h] at hm
      rw [pathPreIds]
      simp [hm]
    · rw [pathPreIds]
      have := pre_ids_mem_pathPreIds gs f a h hm
      simp [this]

theorem nodup_mid {A B M C : List Nat} {a : Nat}
    (h : ((A ++ (B ++ a :: M)) ++ C).Nodup) : a ∉ A ∧ a ∉ B := by
  rw [List.nodup_iff_count_le_one] at h
  have hc := h a
  simp [List.count_append, List.count_cons] at hc
  constructor
  · intro hm
    have : 0 < A.count a := List.count_pos_iff.mpr hm
    omega
  · intro hm
    have : 0 < B.count a := List.count_pos_iff.mpr hm
    omega

/-- From uniqueness of ids, a sibling-list decomposition of the tree gives
exactly the side conditions that `locate_plug` needs. -/
theorem nodup_locate_conds (p : List Frame) (pre : List Node) (x : Node) (post : List Node)
    (h : (idsF (plug p (pre ++ x :: post))).Nodup) :
    (∀ f ∈ p, ¬ f.info.id = x.id ∧ forestHasId f.pre x.id = false) ∧
      forestHasId pre x.id = false := by
  rw [idsF_plug, idsF_append] at h
  cases x with
  | mk xi xcs =>
    rw [idsF] at h
    obtain ⟨hA, hB⟩ := nodup_mid h
    refine ⟨fun f hf => ⟨?_, ?_⟩, ?_⟩
    · intro he
      simp only [Node.id_mk] at he
      exact hA (he ▸ info_id_mem_pathPreIds p f hf)
    · rw [forestHasId_false_iff]
      intro hm
      exact hA (pre_ids_mem_pathPreIds p f _ hf hm)
    · rw [forestHasId_false_iff]
      simpa using hB

theorem locate_reconstruct : ∀ (l : List Node) (i : Nat) (c : Ctx),
    locate l i = some c → plug c.path (c.pre ++ c.node :: c.post) = l
  | [], i, c => by intro h; simp [locate] at h
  | .mk info cs :: ns, i, c => by
    intro h
    by_cases hid : info.id = i
    · simp [locate, hid] at h
      rw [← h]
      simp [plug]
    · rcases h1 : locate cs i with _ | c1
      · rcases h2 : locate ns i with _ | c2
        · simp [locate, hid, h1, h2] at h
        · simp [locate, hid, h1, h2] at h
          have ih := locate_reconstruct ns i c2 h2
          rw [← h]
          cases c2 with
          | mk path pre node post =>
            cases path with
            | nil => simp [extendPre, plug] at ih ⊢; rw [ih]
            | cons f fs => simp [extendPre, plug] at ih ⊢; rw [ih]
      · simp [locate, hid, h1] at h
        have ih := locate_reconstruct cs i c1 h1
        rw [← h]
        simp [plug, ih]

/-! ### Unique occurrence of ids -/

/-- Every node of a forest, in pre-order. -/
def allNodesF : List Node → List Node
  | [] => []
  | .mk info cs :: ns => .mk info cs :: (allNodesF cs ++ allNodesF ns)

/-- `descId` names a node lying strictly below a node named `ancId`: the
spec-level notion of descendant. -/
def IsDescendantIn (t : List Node) (ancId descId : Nat) : Prop :=
  ∃ n ∈ allNodesF t, n.id = ancId ∧ descId ∈ idsF n.children

instance (t : List Node) (a d : Nat) : Decidable (IsDescendantIn t a d) := by
  unfold IsDescendantIn
  infer_instance

theorem mem_allNodesF_id : ∀ (t : List Node) (n : Node), n ∈ allNodesF t → n.id ∈ idsF t
  | [], n => by intro h; rw [allNodesF] at h; cases h
  | .mk info cs :: ns, n => by
    intro h
    rw [allNodesF] at h
    rw [idsF]
    rcases List.mem_cons.mp h with h | h
    · rw [h]
      simp
    · rcases List.mem_append.mp h with h | h
      · have := mem_allNodesF_id cs n h
        simp [this]
      · have := mem_allNodesF_id ns n h
        simp [this]

theorem findNode_of_mem : ∀ (t : List Node) (n : Node),
    (idsF t).Nodup → n ∈ allNodesF t → findNode t n.id = some n
  | [], n => by intro _ h; rw [allNodesF] at h; cases h
  | .mk info cs :: ns, n => by
    intro hnd h
    rw [idsF, List.nodup_cons, List.nodup_append] at hnd
    obtain ⟨hnotin, hndcs, hndns, hdisj⟩ := hnd
    rw [allNodesF] at h
    rcases List.mem_cons.mp h with h | h
    · rw [h]
      simp [findNode]
    · rcases List.mem_append.mp h with h | h
      · have hmem := mem_allNodesF_id cs n h
        have hne : ¬ info.id = n.id := by
          intro he
          exact hnotin (by rw [he]; exact List.mem_append_left _ hmem)
        have ih := findNode_of_mem cs n hndcs h
        simp [findNode, hne, ih]
      · have hmem := mem_allNodesF_id ns n h
        have hne : ¬ info.id = n.id := by
          intro he
          exact hnotin (by rw [he]; exact List.mem_append_right _ hmem)
        have hnotcs : findNode cs n.id = none := by
          rw [findNode_eq_locate]
          rw [(locate_eq_none_iff cs n.id).mpr]
          · rfl
          · rw [forestHasId_false_iff]
            intro hc
            exact hdisj hc hmem
        have ih := findNode_of_mem ns n hndns h
        simp [findNode, hne, hnotcs, ih]

theorem isAncestor_of_descendant (t : List Node) (a d : Nat)
    (hnd : (idsF t).Nodup) (h : IsDescendantIn t a d) : isAncestor t a d = true := by
  obtain ⟨n, hmem, hid, hd⟩ := h
  have hf := findNode_of_mem t n hnd hmem
  rw [hid] at hf
  rw [isAncestor, hf]
  exact (forestHasId_iff n.children d).mpr hd

/-! ### Claim C5: moveNode cycle prevention -/

/-- C5.  `moveNode` fails (returns the `null` sentinel, modelled as `none`)
whenever the dragged and target ids coincide, or — in a tree with unique ids —
whenever the target is a descendant of the dragged node in the tree as it
stood before the move; in particular `move(id, id, child)` and any move of a
node into its own descendant fail. -/
theorem C5_move_guards (t : List Node) (dragId targetId : Nat) (mode : Mode)
    (tio : Option Int) :
    (dragId = targetId → moveNode t dragId targetId mode tio = none) ∧
    ((idsF t).Nodup → IsDescendantIn t dragId targetId →
      moveNode t dragId targetId mode tio = none) := by
  constructor
  · intro h
    simp [moveNode, h]
  · intro hnd hdesc
    have ha := isAncestor_of_descendant t dragId targetId hnd hdesc
    by_cases hdt : dragId = targetId
    · simp [moveNode, hdt]
    · simp [moveNode, hdt, ha]

/-- Witness for C5 on a concrete tree: moving a node onto itself and moving a
node into its own descendant both fail. -/
theorem C5_move_guards_witness :
    (moveNode [Node.mk ⟨1, [], 1, false, false⟩ [Node.mk ⟨2, [], 2, false, false⟩ []]]
        1 1 Mode.child none = none) ∧
    (moveNode [Node.mk ⟨1, [], 1, false, false⟩ [Node.mk ⟨2, [], 2, false, false⟩ []]]
        1 2 Mode.child none = none) := by
  constructor
  · exact (C5_move_guards _ 1 1 Mode.child none).1 rfl
  · refine (C5_move_guards
      [Node.mk ⟨1, [], 1, false, false⟩ [Node.mk ⟨2, [], 2, false, false⟩ []]]
      1 2 Mode.child none).2 ?_ ?_
    · simp only [idsF]
      decide
    · refine ⟨Node.mk ⟨1, [], 1, false, false⟩ [Node.mk ⟨2, [], 2, false, false⟩ []],
        ?_, rfl, ?_⟩
      · simp [allNodesF]
      · simp [idsF]

/-! ### Claim C7: behaviour on unresolvable ids -/

theorem locate_of_findNode_none {t : List Node} {i : Nat} (h : findNode t i = none) :
    locate t i = none := by
  rcases hc : locate t i with _ | c
  · rfl
  · rw [findNode_eq_locate, hc] at h
    simp at h

/-- C7, counterexample.  With an unresolvable parent/target id, `addChildNode`
and `pasteNodes` do not return a failure sentinel: they return the unchanged
tree in the same shape as a successful result (nothing inserted). -/
theorem C7_counterexample :
    addChildNode [Node.mk ⟨1, [], 1, false, false⟩ []] 99 7 =
      ([Node.mk ⟨1, [], 1, false, false⟩ []], Node.mk ⟨7, [], 1, false, false⟩ []) ∧
    pasteNodes [Node.mk ⟨1, [], 1, false, false⟩ []] 99
        [Node.mk ⟨3, [], 1, false, false⟩ []] 5 =
      [Node.mk ⟨1, [], 1, false, false⟩ []] := by
  constructor
  · simp [addChildNode, cloneTree, cloneNode, findNode]
  · simp [pasteNodes, cloneTree, cloneNode, locate]

/-- C7, amended.  On an unresolvable id the id-taking structural operations
return the `null` sentinel (`none`) — except `addChildNode`, which returns the
unchanged tree paired with the never-inserted node value, and `pasteNodes`,
which returns the unchanged tree, neither distinguishable from a successful
result by shape. -/
theorem C7_amended (t : List Node) (i : Nat) (h : findNode t i = none) :
    (∀ k, addSiblingNode t i k = none) ∧
    indentNode t i = none ∧
    outdentNode t i = none ∧
    (∀ s tt st, mergeNodes t i s tt st = none) ∧
    (∀ x mode tio, ¬ i = x → moveNode t i x mode tio = none) ∧
    copyNode t i = none ∧
    (∀ k, addChildNode t i k = (t, Node.mk ⟨k, [], 1, false, false⟩ [])) ∧
    (∀ copied s, pasteNodes t i copied s = t) := by
  have hloc : locate t i = none := locate_of_findNode_none h
  refine ⟨?_, ?_, ?_, ?_, ?_, ?_, ?_, ?_⟩
  · intro k
    simp [addSiblingNode, cloneTree_eq, hloc]
  · simp [indentNode, cloneTree_eq, hloc]
  · simp [outdentNode, cloneTree_eq, hloc]
  · intro s tt st
    simp [mergeNodes, cloneTree_eq, h]
  · intro x mode tio hne
    simp [moveNode, hne, isAncestor, h, cloneTree_eq, hloc]
  · simp [copyNode, h]
  · intro k
    simp [addChildNode, cloneTree_eq, h]
  · intro copied s
    rcases copied with _ | ⟨c0, cs⟩
    · simp [pasteNodes]
    · simp [pasteNodes, cloneTree_eq, hloc]

/-- Witness for C7's amended statement at a concrete tree and id. -/
theorem C7_amended_witness :
    indentNode [Node.mk ⟨1, [], 1, false, false⟩ []] 42 = none ∧
    pasteNodes [Node.mk ⟨1, [], 1, false, false⟩ []] 42
        [Node.mk ⟨3, [], 1, false, false⟩ []] 5 =
      [Node.mk ⟨1, [], 1, false, false⟩ []] := by
  have h := C7_amended [Node.mk ⟨1, [], 1, false, false⟩ []] 42 (by simp [findNode])
  exact ⟨h.2.1, h.2.2.2.2.2.2.2 _ 5⟩

/-! ### The persisted-format escapes (api/tree route files) -/

/-- The literal left-brace character. -/
def lbrace : Char := Char.ofNat 123

/-- The literal right-brace character. -/
def rbrace : Char := Char.ofNat 125

/-- The space placeholder token of the persisted format. -/
def tokS : List Char := ['%', lbrace, 's', rbrace]

/-- The newline placeholder token of the persisted format. -/
def tokN : List Char := ['%', lbrace, 'n', rbrace]

/-- A global single-character regex replacement (`replace(/c/g, rep)`). -/
def replaceChar (c : Char) (rep : List Char) : List Char → List Char
  | [] => []
  | x :: xs => (if x = c then rep else [x]) ++ replaceChar c rep xs

/-- A global fixed-string regex replacement: scan left to right, replacing
each non-overlapping occurrence of `pat`, never rescanning a replacement. -/
def replaceSubstr (pat rep : List Char) : List Char → List Char
  | [] => []
  | x :: xs =>
    if h : ¬ pat = [] ∧ pat.isPrefixOf (x :: xs) then
      rep ++ replaceSubstr pat rep (List.drop pat.length (x :: xs))
    else
      x :: replaceSubstr pat rep xs
termination_by s => s.length
decreasing_by
  · simp only [List.length_drop, List.length_cons]
    cases pat with
    | nil => exact absurd rfl h.1
    | cons p ps => simp; omega
  · simp

/-- `encode` from the tree API route: spaces then newlines become placeholder
tokens. -/
def encode (t : List Char) : List Char := replaceChar '\n' tokN (replaceChar ' ' tokS t)

/-- `decode` from the tree API route: newline placeholders then space
placeholders are expanded back. -/
def decode (t : List Char) : List Char :=
  replaceSubstr tokS [' '] (replaceSubstr tokN ['\n'] t)

/-- Does `pat` occur as a contiguous substring? -/
def hasSubstr (pat : List Char) : List Char → Bool
  | [] => pat.isEmpty
  | x :: xs => pat.isPrefixOf (x :: xs) || hasSubstr pat xs

/-- Both escape passes fused into one character scan. -/
def encodeJoint : List Char → List Char
  | [] => []
  | c :: cs => (if c = ' ' then tokS else if c = '\n' then tokN else [c]) ++ encodeJoint cs

/-- The first decode pass undone: only spaces still replaced. -/
def spaceOnly : List Char → List Char
  | [] => []
  | c :: cs => (if c = ' ' then tokS else [c]) ++ spaceOnly cs

theorem replaceChar_append (c : Char) (rep : List Char) :
    ∀ a b : List Char, replaceChar c rep (a ++ b) = replaceChar c rep a ++ replaceChar c rep b
  | [], b => by simp [replaceChar]
  | x :: xs, b => by
    rw [List.cons_append, replaceChar, replaceChar, replaceChar_append c rep xs b,
      List.append_assoc]

theorem encode_eq_joint : ∀ t : List Char, encode t = encodeJoint t
  | [] => by simp [encode, replaceChar, encodeJoint]
  | c :: cs => by
    have ih := encode_eq_joint cs
    rw [encode] at ih
    rw [encode, replaceChar, replaceChar_append, encodeJoint, ih]
    by_cases hsp : c = ' '
    · rw [if_pos hsp, if_pos hsp]
      have hts : replaceChar '\n' tokN tokS = tokS := by
        simp [replaceChar, tokS, lbrace, rbrace]
      rw [hts]
    · rw [if_neg hsp, if_neg hsp]
      by_cases hnl : c = '\n'
      · rw [if_pos hnl]
        simp [replaceChar, hnl]
      · rw [if_neg hnl]
        simp [replaceChar, hnl]

theorem encodeJoint_head : ∀ (cs : List Char) (x : Char) (xs : List Char),
    encodeJoint cs = x :: xs → ¬ x = '%' → ∃ cs2, cs = x :: cs2 ∧ encodeJoint cs2 = xs
  | [], x, xs => by intro h; rw [encodeJoint] at h; cases h
  | c :: cs, x, xs => by
    intro h hx
    rw [encodeJoint] at h
    by_cases hsp : c = ' '
    · rw [if_pos hsp] at h
      simp [tokS] at h
      exact absurd h.1.symm hx
    · rw [if_neg hsp] at h
      by_cases hnl : c = '\n'
      · rw [if_pos hnl] at h
        simp [tokN] at h
        exact absurd h.1.symm hx
      · rw [if_neg hnl] at h
        simp at h
        exact ⟨cs, by rw [h.1], h.2⟩

theorem spaceOnly_head : ∀ (cs : List Char) (x : Char) (xs : List Char),
    spaceOnly cs = x :: xs → ¬ x = '%' → ∃ cs2, cs = x :: cs2 ∧ spaceOnly cs2 = xs
  | [], x, xs => by intro h; rw [spaceOnly] at h; cases h
  | c :: cs, x, xs => by
    intro h hx
    rw [spaceOnly] at h
    by_cases hsp : c = ' '
    · rw [if_pos hsp] at h
      simp [tokS] at h
      exact absurd h.1.symm hx
    · rw [if_neg hsp] at h
      simp at h
      exact ⟨cs, by rw [h.1], h.2⟩

theorem hasSubstr_tail {pat : List Char} {c : Char} {cs : List Char}
    (h : hasSubstr pat (c :: cs) = false) : hasSubstr pat cs = false := by
  rw [hasSubstr, Bool.or_eq_false_iff] at h
  exact h.2

theorem hasSubstr_not_prefixOf {pat : List Char} {c : Char} {cs : List Char}
    (h : hasSubstr pat (c :: cs) = false) : pat.isPrefixOf (c :: cs) = false := by
  rw [hasSubstr, Bool.or_eq_false_iff] at h
  exact h.1

theorem isPrefixOf_cons_false {a b : Char} (as bs : List Char) (h : (a == b) = false) :
    List.isPrefixOf (a :: as) (b :: bs) = false := by
  simp only [List.isPrefixOf, h, Bool.false_and]

theorem isPrefixOf_cons_decomp {a : Char} {pat s : List Char} {b : Char}
    (h : List.isPrefixOf (a :: pat) (b :: s) = true) :
    a = b ∧ List.isPrefixOf pat s = true := by
  simp only [List.isPrefixOf, Bool.and_eq_true, beq_iff_eq] at h
  exact h

/-- Scanning the newline-token pass over a space token replaces nothing. -/
theorem replaceSubstr_tokN_tokS (X : List Char) :
    replaceSubstr tokN ['\n'] (tokS ++ X) = tokS ++ replaceSubstr tokN ['\n'] X := by
  rw [show tokS ++ X = '%' :: lbrace :: 's' :: rbrace :: X by simp [tokS]]
  rw [replaceSubstr]
  rw [dif_neg (by
    intro hc
    have h2 := hc.2
    rw [show tokN = '%' :: lbrace :: 'n' :: rbrace :: [] from by simp [tokN]] at h2
    obtain ⟨-, h2⟩ := isPrefixOf_cons_decomp h2
    obtain ⟨-, h2⟩ := isPrefixOf_cons_decomp h2
    rw [isPrefixOf_cons_false _ _ (by decide)] at h2
    cases h2)]
  rw [replaceSubstr]
  rw [dif_neg (by
    intro hc
    have h2 := hc.2
    rw [show tokN = '%' :: lbrace :: 'n' :: rbrace :: [] from by simp [tokN],
      isPrefixOf_cons_false _ _ (by decide)] at h2
    cases h2)]
  rw [replaceSubstr]
  rw [dif_neg (by
    intro hc
    have h2 := hc.2
    rw [show tokN = '%' :: lbrace :: 'n' :: rbrace :: [] from by simp [tokN],
      isPrefixOf_cons_false _ _ (by decide)] at h2
    cases h2)]
  rw [replaceSubstr]
  rw [dif_neg (by
    intro hc
    have h2 := hc.2
    rw [show tokN = '%' :: lbrace :: 'n' :: rbrace :: [] from by simp [tokN],
      isPrefixOf_cons_false _ _ (by decide)] at h2
    cases h2)]
  simp [tokS]

theorem decode_pass1 : ∀ t : List Char, hasSubstr tokN t = false →
    replaceSubstr tokN ['\n'] (encodeJoint t) = spaceOnly t
  | [] => by intro _; simp [encodeJoint, spaceOnly, replaceSubstr]
  | c :: cs => by
    intro h
    have ih := decode_pass1 cs (hasSubstr_tail h)
    rw [encodeJoint, spaceOnly]
    by_cases hsp : c = ' '
    · rw [if_pos hsp, if_pos hsp, replaceSubstr_tokN_tokS, ih]
    · rw [if_neg hsp, if_neg hsp]
      by_cases hnl : c = '\n'
      · rw [if_pos hnl]
        rw [show tokN ++ encodeJoint cs =
          '%' :: lbrace :: 'n' :: rbrace :: encodeJoint cs by simp [tokN]]
        rw [replaceSubstr]
        rw [dif_pos ⟨by simp [tokN], by
          rw [show ('%' :: lbrace :: 'n' :: rbrace :: encodeJoint cs) =
            tokN ++ encodeJoint cs by simp [tokN]]
          exact List.isPrefixOf_iff_prefix.mpr (List.prefix_append _ _)⟩]
        rw [show List.drop tokN.length ('%' :: lbrace :: 'n' :: rbrace :: encodeJoint cs) =
          encodeJoint cs by simp [tokN]]
        rw [ih, hnl]
      · rw [if_neg hnl, List.singleton_append]
        have hpre : tokN.isPrefixOf (c :: encodeJoint cs) = false := by
          by_cases hpc : c = '%'
          · subst hpc
            cases hp : tokN.isPrefixOf ('%' :: encodeJoint cs)
            · rfl
            · exfalso
              rw [show tokN = '%' :: lbrace :: 'n' :: rbrace :: [] from by simp [tokN]] at hp
              obtain ⟨-, hp⟩ := isPrefixOf_cons_decomp hp
              rcases hq : encodeJoint cs with _ | ⟨x1, r1⟩
              · rw [hq] at hp; simp [List.isPrefixOf] at hp
              · rw [hq] at hp
                obtain ⟨he1, hp⟩ := isPrefixOf_cons_decomp hp
                obtain ⟨cs2, hcs2, hE2⟩ := encodeJoint_head cs x1 r1 hq (by
                  rw [← he1]; decide)
                rcases hq2 : r1 with _ | ⟨x2, r2⟩
                · rw [hq2] at hp; simp [List.isPrefixOf] at hp
                · rw [hq2] at hp
                  obtain ⟨he2, hp⟩ := isPrefixOf_cons_decomp hp
                  rw [hq2] at hE2
                  obtain ⟨cs3, hcs3, hE3⟩ := encodeJoint_head cs2 x2 r2 hE2 (by
                    rw [← he2]; decide)
                  rcases hq3 : r2 with _ | ⟨x3, r3⟩
                  · rw [hq3] at hp; simp [List.isPrefixOf] at hp
                  · rw [hq3] at hp
                    obtain ⟨he3, -⟩ := isPrefixOf_cons_decomp hp
                    rw [hq3] at hE3
                    obtain ⟨cs4, hcs4, -⟩ := encodeJoint_head cs3 x3 r3 hE3 (by
                      rw [← he3]; decide)
                    have hfin := hasSubstr_not_prefixOf h
                    rw [hcs2, hcs3, hcs4, ← he1, ← he2, ← he3] at hfin
                    rw [show tokN = '%' :: lbrace :: 'n' :: rbrace :: [] from by
                      simp [tokN]] at hfin
                    simp [List.isPrefixOf] at hfin
          · rw [show tokN = '%' :: lbrace :: 'n' :: rbrace :: [] from by simp [tokN]]
            exact isPrefixOf_cons_false _ _ (by
              simp only [beq_eq_false_iff_ne, ne_eq]
              intro he
              exact hpc he.symm)
        rw [replaceSubstr]
        rw [dif_neg (by intro hc2; rw [hpre] at hc2; exact absurd hc2.2 (by simp))]
        rw [ih]
        simp

theorem decode_pass2 : ∀ t : List Char, hasSubstr tokS t = false →
    replaceSubstr tokS [' '] (spaceOnly t) = t
  | [] => by intro _; simp [spaceOnly, replaceSubstr]
  | c :: cs => by
    intro h
    have ih := decode_pass2 cs (hasSubstr_tail h)
    rw [spaceOnly]
    by_cases hsp : c = ' '
    · rw [if_pos hsp]
      rw [show tokS ++ spaceOnly cs =
        '%' :: lbrace :: 's' :: rbrace :: spaceOnly cs by simp [tokS]]
      rw [replaceSubstr]
      rw [dif_pos ⟨by simp [tokS], by
        rw [show ('%' :: lbrace :: 's' :: rbrace :: spaceOnly cs) =
          tokS ++ spaceOnly cs by simp [tokS]]
        exact List.isPrefixOf_iff_prefix.mpr (List.prefix_append _ _)⟩]
      rw [show List.drop tokS.length ('%' :: lbrace :: 's' :: rbrace :: spaceOnly cs) =
        spaceOnly cs by simp [tokS]]
      rw [ih, hsp]
      simp
    · rw [if_neg hsp, List.singleton_append]
      have hpre : tokS.isPrefixOf (c :: spaceOnly cs) = false := by
        by_cases hpc : c = '%'
        · subst hpc
          cases hp : tokS.isPrefixOf ('%' :: spaceOnly cs)
          · rfl
          · exfalso
            rw [show tokS = '%' :: lbrace :: 's' :: rbrace :: [] from by simp [tokS]] at hp
            obtain ⟨-, hp⟩ := isPrefixOf_cons_decomp hp
            rcases hq : spaceOnly cs with _ | ⟨x1, r1⟩
            · rw [hq] at hp; simp [List.isPrefixOf] at hp
            · rw [hq] at hp
              obtain ⟨he1, hp⟩ := isPrefixOf_cons_decomp hp
              obtain ⟨cs2, hcs2, hE2⟩ := spaceOnly_head cs x1 r1 hq (by
                rw [← he1]; decide)
              rcases hq2 : r1 with _ | ⟨x2, r2⟩
              · rw [hq2] at hp; simp [List.isPrefixOf] at hp
              · rw [hq2] at hp
                obtain ⟨he2, hp⟩ := isPrefixOf_cons_decomp hp
                rw [hq2] at hE2
                obtain ⟨cs3, hcs3, hE3⟩ := spaceOnly_head cs2 x2 r2 hE2 (by
                  rw [← he2]; decide)
                rcases hq3 : r2 with _ | ⟨x3, r3⟩
                · rw [hq3] at hp; simp [List.isPrefixOf] at hp
                · rw [hq3] at hp
                  obtain ⟨he3, -⟩ := isPrefixOf_cons_decomp hp
                  rw [hq3] at hE3
                  obtain ⟨cs4, hcs4, -⟩ := spaceOnly_head cs3 x3 r3 hE3 (by
                    rw [← he3]; decide)
                  have hfin := hasSubstr_not_prefixOf h
                  rw [hcs2, hcs3, hcs4, ← he1, ← he2, ← he3] at hfin
                  rw [show tokS = '%' :: lbrace :: 's' :: rbrace :: [] from by
                    simp [tokS]] at hfin
                  simp [List.isPrefixOf] at hfin
        · rw [show tokS = '%' :: lbrace :: 's' :: rbrace :: [] from by simp [tokS]]
          exact isPrefixOf_cons_false _ _ (by
            simp only [beq_eq_false_iff_ne, ne_eq]
            intro he
            exact hpc he.symm)
      rw [replaceSubstr]
      rw [dif_neg (by intro hc2; rw [hpre] at hc2; exact absurd hc2.2 (by simp))]
      rw [ih]

/-- C10.  For every string free of both placeholder tokens, the persisted
escaping round-trips exactly (`decode (encode t) = t`); and the restriction is
needed, because a string consisting of the space placeholder itself comes back
as a bare space. -/
theorem C10_escape_roundtrip :
    (∀ t : List Char, hasSubstr tokS t = false → hasSubstr tokN t = false →
      decode (encode t) = t) ∧
    ¬ decode (encode tokS) = tokS := by
  constructor
  · intro t hs hn
    rw [decode, encode_eq_joint, decode_pass1 t hn, decode_pass2 t hs]
  · intro h
    rw [decode, encode_eq_joint] at h
    rw [show encodeJoint tokS = tokS by simp [encodeJoint, tokS, lbrace, rbrace]] at h
    have h0 : replaceSubstr tokN ['\n'] tokS = tokS := by
      have hh := replaceSubstr_tokN_tokS []
      simp [replaceSubstr] at hh
      exact hh
    rw [h0] at h
    rw [show replaceSubstr tokS [' '] tokS = [' '] from by
      rw [show tokS = '%' :: lbrace :: 's' :: rbrace :: [] from by simp [tokS]]
      rw [replaceSubstr]
      rw [dif_pos ⟨by simp, by simp [List.isPrefixOf]⟩]
      simp [replaceSubstr]] at h
    simp [tokS] at h

/-- Witness for C10 on a concrete token-free string. -/
theorem C10_escape_roundtrip_witness :
    decode (encode ['a', ' ', 'b', '\n', 'c']) = ['a', ' ', 'b', '\n', 'c'] := by
  refine C10_escape_roundtrip.1 _ ?_ ?_
  · simp [hasSubstr, tokS, List.isPrefixOf, lbrace, rbrace]
  · simp [hasSubstr, tokN, List.isPrefixOf, lbrace, rbrace]

/-! ### Claim C6: the persisted-file parser (`parseMemo`) -/

/-- One line of the persisted file after the marker scan
(the flat records inside `parseMemo`). -/
structure FlatNode where
  id : Nat
  text : List Char
  indent : Nat
  closed : Bool
  ol : Bool
deriving DecidableEq, Repr

/-- ASCII whitespace as matched by the JavaScript `trimStart`. -/
def isWsChar (c : Char) : Bool :=
  c = ' ' || c = '\t' || c = '\n' || c = '\r' || c = Char.ofNat 11 || c = Char.ofNat 12

/-- `content.split("\n")`. -/
def splitNl : List Char → List (List Char)
  | [] => [[]]
  | c :: cs =>
    match splitNl cs with
    | [] => [[c]]
    | l :: ls => if c = '\n' then [] :: l :: ls else (c :: l) :: ls

/-- The collapsed-marker line payload of the persisted format. -/
def closeTok : List Char := ['!', lbrace, 'c', 'l', 'o', 's', 'e', rbrace]

/-- The ordered-list-marker line payload of the persisted format. -/
def olTok : List Char := ['!', lbrace, 'o', 'l', rbrace]

/-- The line scan of `parseMemo`: marker lines update the most recently pushed
node, every other line pushes a decoded flat node whose indent is its leading
whitespace length.  The accumulator is kept reversed. -/
def scanLines : List (List Char) → Nat → List FlatNode → List FlatNode
  | [], _, acc => acc.reverse
  | line :: rest, ctr, acc =>
    let trimmed := line.dropWhile isWsChar
    if trimmed = closeTok then
      scanLines rest ctr (match acc with | [] => [] | f :: fs => { f with closed := true } :: fs)
    else if trimmed = olTok then
      scanLines rest ctr (match acc with | [] => [] | f :: fs => { f with ol := true } :: fs)
    else
      scanLines rest (ctr + 1)
        (⟨ctr, decode trimmed, line.length - trimmed.length, false, false⟩ :: acc)

/-- `buildTree` inside `parseMemo` (tree API route): collect children with
indent exactly `parentIndent + 1`; a line that is deeper than that is stepped
over.  The structurally recursive fuel stands for the source's index bound;
with fuel at least the list length the behaviour coincides with the source
loop. -/
def buildTreeMemo : Nat → List FlatNode → Nat → List Node × List FlatNode
  | 0, flat, _ => ([], flat)
  | _ + 1, [], _ => ([], [])
  | fuel + 1, f :: rest, parentIndent =>
    if f.indent ≤ parentIndent then ([], f :: rest)
    else if f.indent = parentIndent + 1 then
      let r := buildTreeMemo fuel rest f.indent
      let r2 := buildTreeMemo fuel r.2 parentIndent
      (Node.mk ⟨f.id, f.text, (f.indent : Int), f.closed, f.ol⟩ r.1 :: r2.1, r2.2)
    else
      buildTreeMemo fuel rest parentIndent

/-- `parseMemo` from the tree API route (the variant that materializes the
root node): drop empty lines, scan markers, then build the root's subtree
from the remaining flat nodes. -/
def parseMemo (content : List Char) : List Node :=
  let lines := (splitNl content).filter (fun l => !l.isEmpty)
  let flat := scanLines lines 0 []
  match flat with
  | [] => []
  | root :: rest =>
    let r := buildTreeMemo rest.length rest root.indent
    [Node.mk ⟨root.id, root.text, (root.indent : Int), root.closed, root.ol⟩ r.1]

/-- A persisted file whose third line jumps two levels deeper:
`r` / ` a` / `   b`. -/
def gapInput : List Char := ['r', '\n', ' ', 'a', '\n', ' ', ' ', ' ', 'b']

theorem buildTreeMemo_sub : ∀ (fuel : Nat) (flat : List FlatNode) (pIn : Nat),
    List.Sublist
      (textsF (buildTreeMemo fuel flat pIn).1 ++
        ((buildTreeMemo fuel flat pIn).2).map FlatNode.text)
      (flat.map FlatNode.text)
  | 0, flat, pIn => by simp [buildTreeMemo, textsF]
  | fuel + 1, [], pIn => by simp [buildTreeMemo, textsF]
  | fuel + 1, f :: rest, pIn => by
    by_cases h1 : f.indent ≤ pIn
    · simp [buildTreeMemo, h1, textsF]
    · by_cases h2 : f.indent = pIn + 1
      · have ih1 := buildTreeMemo_sub fuel rest f.indent
        have ih2 := buildTreeMemo_sub fuel (buildTreeMemo fuel rest f.indent).2 pIn
        simp only [buildTreeMemo, if_neg h1, if_pos h2, textsF, List.map_cons]
        refine List.Sublist.cons₂ _ ?_
        simp only [List.append_eq]
        rw [List.append_assoc]
        exact ((ih2.append_left (textsF (buildTreeMemo fuel rest f.indent).1)).trans ih1)
      · have ih := buildTreeMemo_sub fuel rest pIn
        simp only [buildTreeMemo, if_neg h1, if_neg h2, List.map_cons]
        exact ih.cons _

/-- C6, counterexample.  On the gap input the node of the over-indented line
`b` is not absorbed anywhere: it is silently dropped, so the parsed tree holds
only `r` and `a`. -/
theorem C6_counterexample :
    parseMemo gapInput =
      [Node.mk ⟨0, ['r'], 0, false, false⟩ [Node.mk ⟨1, ['a'], 1, false, false⟩ []]] ∧
    ¬ ['b'] ∈ textsF (parseMemo gapInput) := by
  have h : parseMemo gapInput =
      [Node.mk ⟨0, ['r'], 0, false, false⟩ [Node.mk ⟨1, ['a'], 1, false, false⟩ []]] := by
    simp [parseMemo, gapInput, splitNl, scanLines, buildTreeMemo, decode, replaceSubstr,
      isWsChar, closeTok, olTok, lbrace, rbrace, tokN, tokS, List.isPrefixOf]
  refine ⟨h, ?_⟩
  rw [h]
  simp [textsF]

/-- C6, amended.  The parser never fails: every parsed node's text is the
decoded payload of one of the kept input lines, in order (a sublist); but a
line whose indent exceeds the open context's indent plus one is silently
dropped by `buildTree` rather than absorbed as a child. -/
theorem C6_amended :
    (∀ content : List Char,
      List.Sublist (textsF (parseMemo content))
        ((scanLines ((splitNl content).filter (fun l => !l.isEmpty)) 0 []).map
          FlatNode.text)) ∧
    (∀ (fuel : Nat) (f : FlatNode) (rest : List FlatNode) (pIn : Nat),
      pIn + 1 < f.indent →
      buildTreeMemo (fuel + 1) (f :: rest) pIn = buildTreeMemo fuel rest pIn) := by
  constructor
  · intro content
    rcases hf : scanLines ((splitNl content).filter (fun l => !l.isEmpty)) 0 [] with
      _ | ⟨root, rest⟩
    · simp [parseMemo, hf, textsF]
    · simp only [parseMemo, hf, List.map_cons, textsF]
      have h := buildTreeMemo_sub rest.length rest root.indent
      have h2 : List.Sublist (textsF (buildTreeMemo rest.length rest root.indent).1)
          (rest.map FlatNode.text) :=
        (List.sublist_append_left _ _).trans h
      simp only [List.append_nil]
      exact h2.cons₂ _
  · intro fuel f rest pIn hgap
    have h1 : ¬ f.indent ≤ pIn := by omega
    have h2 : ¬ f.indent = pIn + 1 := by omega
    simp only [buildTreeMemo, if_neg h1, if_neg h2]

/-- Witness for C6's amended statement: the sublist property on the gap input,
and a concrete dropped line. -/
theorem C6_amended_witness :
    List.Sublist (textsF (parseMemo gapInput))
      ((scanLines ((splitNl gapInput).filter (fun l => !l.isEmpty)) 0 []).map
        FlatNode.text) ∧
    (0 + 1 < 3 ∧
      buildTreeMemo 1 [⟨1, ['b'], 3, false, false⟩] 0 = buildTreeMemo 0 [] 0) := by
  refine ⟨C6_amended.1 gapInput, by decide, C6_amended.2 0 ⟨1, ['b'], 3, false, false⟩ [] 0 (by decide)⟩

/-! ### Claim C8: copy/paste grows the tree by the copied size with fresh ids -/

theorem idsF_cons (n : Node) (ns : List Node) : idsF (n :: ns) = idsF [n] ++ idsF ns := by
  cases n with
  | mk info cs => simp [idsF]

theorem countAllNodes_cons (n : Node) (ns : List Node) :
    countAllNodes (n :: ns) = countAllNodes [n] + countAllNodes ns := by
  cases n with
  | mk info cs =>
    simp only [countAllNodes]
    omega

theorem idsF_length : ∀ l : List Node, (idsF l).length = countAllNodes l
  | [] => by simp [idsF, countAllNodes]
  | .mk info cs :: ns => by
    rw [idsF, countAllNodes]
    simp [idsF_length cs, idsF_length ns]
    omega

theorem maxIdWalk_ge : ∀ (l : List Node) (m : Nat), m ≤ maxIdWalk l m
  | [], m => by
    rw [maxIdWalk]
  | .mk info cs :: ns, m => by
    rw [maxIdWalk]
    exact le_trans (le_trans (Nat.le_max_left m info.id) (maxIdWalk_ge cs _)) (maxIdWalk_ge ns _)

theorem maxIdWalk_mem : ∀ (l : List Node) (m : Nat) (j : Nat), j ∈ idsF l → j ≤ maxIdWalk l m
  | [], m, j => by intro h; rw [idsF] at h; cases h
  | .mk info cs :: ns, m, j => by
    intro h
    rw [idsF] at h
    rw [maxIdWalk]
    rcases List.mem_cons.mp h with h | h
    · rw [h]
      exact le_trans (le_trans (Nat.le_max_right m info.id) (maxIdWalk_ge cs _)) (maxIdWalk_ge ns _)
    · rcases List.mem_append.mp h with h | h
      · exact le_trans (maxIdWalk_mem cs _ j h) (maxIdWalk_ge ns _)
      · exact maxIdWalk_mem ns _ j h

theorem nextId_gt (l : List Node) (j : Nat) (h : j ∈ idsF l) : j < nextId l := by
  rw [nextId]
  have := maxIdWalk_mem l 0 j h
  omega

mutual

theorem reassignIds_spec : ∀ (n : Node) (k : Nat),
    idsF [(reassignIds n k).1] = List.range' k (countAllNodes [n]) ∧
    (reassignIds n k).2 = k + countAllNodes [n]
  | .mk info cs, k => by
    have h := reassignForest_spec cs (k + 1)
    rw [reassignIds]
    simp only [idsF, countAllNodes, List.append_nil, Nat.add_zero] at h ⊢
    rw [h.1, h.2]
    constructor
    · rw [Nat.add_comm 1 (countAllNodes cs), List.range'_succ]
    · omega

theorem reassignForest_spec : ∀ (l : List Node) (k : Nat),
    idsF (reassignForest l k).1 = List.range' k (countAllNodes l) ∧
    (reassignForest l k).2 = k + countAllNodes l
  | [], k => by simp [reassignForest, idsF, countAllNodes]
  | n :: ns, k => by
    have h1 := reassignIds_spec n k
    simp only [reassignForest]
    rw [idsF_cons, countAllNodes_cons, h1.1, h1.2]
    have h2 := reassignForest_spec ns (k + countAllNodes [n])
    rw [h2.1, h2.2]
    constructor
    · rw [List.range'_append_1, Nat.add_comm (countAllNodes ns) (countAllNodes [n])]
    · omega

end

theorem pasteClones_spec : ∀ (copied : List Node) (tind : Int) (k : Nat),
    idsF (pasteClones copied tind k).1 = List.range' k (countAllNodes copied) ∧
    countAllNodes (pasteClones copied tind k).1 = countAllNodes copied ∧
    (pasteClones copied tind k).2 = k + countAllNodes copied
  | [], tind, k => by simp [pasteClones, idsF, countAllNodes]
  | n :: ns, tind, k => by
    have hcount : countAllNodes [shiftNode (tind - n.indent) (cloneNode n)] = countAllNodes [n] := by
      rw [show [shiftNode (tind - n.indent) (cloneNode n)] =
        shiftForest (tind - n.indent) [cloneNode n] by rw [shiftForest, shiftForest]]
      rw [countAllNodes_shift, cloneNode_eq]
    have h1 := reassignIds_spec (shiftNode (tind - n.indent) (cloneNode n)) k
    rw [hcount] at h1
    simp only [pasteClones]
    have h2 := pasteClones_spec ns tind (k + countAllNodes [n])
    have hlen : countAllNodes [(reassignIds (shiftNode (tind - n.indent) (cloneNode n)) k).1] =
        countAllNodes [n] := by
      rw [← idsF_length, h1.1, List.length_range']
    refine ⟨?_, ?_, ?_⟩
    · rw [idsF_cons, h1.1, h1.2, h2.1, List.range'_append_1]
      conv_rhs => rw [countAllNodes_cons]
      rw [Nat.add_comm (countAllNodes ns) (countAllNodes [n])]
    · rw [countAllNodes_cons, hlen, h1.2, h2.2.1]
      conv_rhs => rw [countAllNodes_cons]
    · rw [h1.2, h2.2.2]
      conv_rhs => rw [countAllNodes_cons]
      omega

theorem countAllNodes_mid (pre : List Node) (x : Node) (post : List Node) :
    countAllNodes (pre ++ x :: post) =
      countAllNodes pre + countAllNodes [x] + countAllNodes post := by
  rw [countAllNodes_append]
  conv_lhs => rw [countAllNodes_cons]
  omega

theorem idsF_mid (pre : List Node) (x : Node) (post : List Node) :
    idsF (pre ++ x :: post) = idsF pre ++ (idsF [x] ++ idsF post) := by
  rw [idsF_append]
  conv_lhs => rw [idsF_cons]

/-- A small sample tree shared by the concrete witnesses. -/
def sampleT : List Node :=
  [Node.mk ⟨1, ['a'], 1, false, false⟩ [Node.mk ⟨2, ['b'], 2, false, false⟩ []]]

/-- C8.  Copying a subtree and pasting it after a resolvable target with the
`nextId` seed grows the total node count by exactly the copied subtree's size,
and every id in the new tree is either a pre-existing id or at least `nextId`,
while every pre-existing id is below `nextId` — so the pasted ids are disjoint
from all pre-existing ones. -/
theorem C8_copy_paste (t : List Node) (srcId tgtId : Nat) (c : Node)
    (hc : copyNode t srcId = some c) (ht : forestHasId t tgtId = true) :
    countAllNodes (pasteNode t tgtId c (nextId t)) =
      countAllNodes t + countAllNodes [c] ∧
    (∀ j, j ∈ idsF (pasteNode t tgtId c (nextId t)) → j ∈ idsF t ∨ nextId t ≤ j) ∧
    (∀ j, j ∈ idsF t → j < nextId t) := by
  rcases hl : locate t tgtId with _ | ctx
  · rw [locate_eq_none_iff] at hl
    rw [ht] at hl
    cases hl
  · have hrec := locate_reconstruct t tgtId ctx hl
    have hpaste : pasteNode t tgtId c (nextId t) =
        plug ctx.path (ctx.pre ++ ctx.node ::
          ((pasteClones [c] ctx.node.indent (nextId t)).1 ++ ctx.post)) := by
      rw [pasteNode, pasteNodes]
      rw [if_neg (by simp)]
      simp only [cloneTree_eq, hl]
    have hspec := pasteClones_spec [c] ctx.node.indent (nextId t)
    refine ⟨?_, ?_, fun j hj => nextId_gt t j hj⟩
    · rw [hpaste, countAllNodes_plug, countAllNodes_mid, countAllNodes_append, hspec.2.1]
      conv_rhs => rw [← hrec, countAllNodes_plug, countAllNodes_mid]
      omega
    · have hsub : ∀ x, x ∈ idsF (pasteNode t tgtId c (nextId t)) →
          x ∈ pathPreIds ctx.path ∨ x ∈ idsF ctx.pre ∨ x ∈ idsF [ctx.node] ∨
          x ∈ List.range' (nextId t) (countAllNodes [c]) ∨ x ∈ idsF ctx.post ∨
          x ∈ pathPostIds ctx.path := by
        intro x hx
        rw [hpaste, idsF_plug, idsF_mid, idsF_append, hspec.1] at hx
        simp only [List.mem_append] at hx
        tauto
      have hback : ∀ x, x ∈ pathPreIds ctx.path ∨ x ∈ idsF ctx.pre ∨ x ∈ idsF [ctx.node] ∨
          x ∈ idsF ctx.post ∨ x ∈ pathPostIds ctx.path → x ∈ idsF t := by
        intro x hx
        rw [← hrec, idsF_plug, idsF_mid]
        simp only [List.mem_append]
        tauto
      intro j hj
      rcases hsub j hj with h | h | h | h | h | h
      · exact Or.inl (hback j (by tauto))
      · exact Or.inl (hback j (by tauto))
      · exact Or.inl (hback j (by tauto))
      · exact Or.inr (List.mem_range'_1.mp h).1
      · exact Or.inl (hback j (by tauto))
      · exact Or.inl (hback j (by tauto))

/-- Witness for C8 on the sample tree: copy node 2, paste after node 1. -/
theorem C8_copy_paste_witness :
    countAllNodes (pasteNode sampleT 1 (Node.mk ⟨2, ['b'], 2, false, false⟩ []) (nextId sampleT)) =
      countAllNodes sampleT + countAllNodes [Node.mk ⟨2, ['b'], 2, false, false⟩ []] ∧
    (∀ j, j ∈ idsF (pasteNode sampleT 1 (Node.mk ⟨2, ['b'], 2, false, false⟩ []) (nextId sampleT)) →
      j ∈ idsF sampleT ∨ nextId sampleT ≤ j) ∧
    (∀ j, j ∈ idsF sampleT → j < nextId sampleT) := by
  refine C8_copy_paste sampleT 2 1 (Node.mk ⟨2, ['b'], 2, false, false⟩ []) ?_ ?_
  · simp [copyNode, sampleT, findNode, cloneNode, cloneTree]
  · simp [forestHasId, sampleT]

/-! ### Characterizing indent and outdent -/

theorem shiftNode_id (d : Int) (n : Node) : (shiftNode d n).id = n.id := by
  cases n with
  | mk info cs => rw [shiftNode]; simp

theorem shiftForest_eq_map (d : Int) : ∀ l : List Node, shiftForest d l = l.map (shiftNode d)
  | [] => by rw [shiftForest]; simp
  | n :: ns => by rw [shiftForest, shiftForest_eq_map d ns]; simp

theorem conds_of_notmem (p : List Frame) (a : Nat) (hap : a ∉ pathPreIds p) :
    ∀ f ∈ p, ¬ f.info.id = a ∧ forestHasId f.pre a = false := by
  intro f hf
  constructor
  · intro he
    exact hap (he ▸ info_id_mem_pathPreIds p f hf)
  · rw [forestHasId_false_iff]
    intro hm
    exact hap (pre_ids_mem_pathPreIds p f a hf hm)

theorem nodup_plug_decomp (p : List Frame) (l : List Node)
    (h : (idsF (plug p l)).Nodup) :
    (idsF l).Nodup ∧ ∀ a ∈ idsF l, a ∉ pathPreIds p := by
  rw [idsF_plug] at h
  constructor
  · exact h.of_append_left.of_append_right
  · intro a hal hap
    exact absurd hal (List.disjoint_of_nodup_append h.of_append_left hap)

/-- All the id-disjointness facts needed to trace indent-then-outdent, for a
node `x` whose sibling list is `pre2 ++ [prev]` before it. -/
theorem indent_nodup_facts (path : List Frame) (pre2 : List Node) (prev x : Node)
    (post : List Node)
    (h : (idsF (plug path ((pre2 ++ [prev]) ++ x :: post))).Nodup) :
    x.id ∉ pathPreIds path ∧ prev.id ∉ pathPreIds path ∧
    x.id ∉ idsF pre2 ∧ ¬ x.id = prev.id ∧ x.id ∉ idsF prev.children ∧
    prev.id ∉ idsF pre2 := by
  obtain ⟨hin, hout⟩ := nodup_plug_decomp _ _ h
  have hxmem : x.id ∈ idsF ((pre2 ++ [prev]) ++ x :: post) := by
    rw [idsF_append, idsF_cons]
    simp only [List.mem_append]
    right; left
    cases x with
    | mk xi xcs => rw [idsF]; simp
  have hpmem : prev.id ∈ idsF ((pre2 ++ [prev]) ++ x :: post) := by
    rw [idsF_append, idsF_append]
    simp only [List.mem_append]
    left; right
    cases prev with
    | mk pinfo pcs => rw [idsF]; simp
  have hxpre : x.id ∉ idsF (pre2 ++ [prev]) := by
    rw [idsF_append] at hin
    intro hm
    refine absurd ?_ (List.disjoint_of_nodup_append hin hm)
    rw [idsF_cons]
    simp only [List.mem_append]
    left
    cases x with
    | mk xi xcs => rw [idsF]; simp
  have hper2 : prev.id ∉ idsF pre2 := by
    rw [idsF_append] at hin
    have hpre : (idsF (pre2 ++ [prev])).Nodup := hin.of_append_left
    rw [idsF_append] at hpre
    intro hm
    refine absurd ?_ (List.disjoint_of_nodup_append hpre hm)
    cases prev with
    | mk pinfo pcs => rw [idsF]; simp
  refine ⟨hout _ hxmem, hout _ hpmem, ?_, ?_, ?_, hper2⟩
  · intro hm
    exact hxpre (by rw [idsF_append]; exact List.mem_append_left _ hm)
  · intro he
    refine hxpre ?_
    rw [idsF_append]
    refine List.mem_append_right _ ?_
    cases prev with
    | mk pinfo pcs =>
      rw [idsF]
      simp at he ⊢
      simp [he]
  · intro hm
    refine hxpre ?_
    rw [idsF_append]
    refine List.mem_append_right _ ?_
    cases prev with
    | mk pinfo pcs =>
      rw [idsF]
      simp only [Node.children_mk] at hm
      simp [hm]

/-- The successful case of `indentNode`, fully characterized: the previous
sibling absorbs the node as its last child, the node's subtree moves one level
deeper, the new parent is expanded, and everything else is untouched. -/
theorem indentNode_eq (t : List Node) (i : Nat) (c : Ctx) (hl : locate t i = some c)
    (prev : Node) (pre2 : List Node) (hpre : c.pre = pre2 ++ [prev]) :
    indentNode t i = some (plug c.path (pre2 ++
      Node.mk { prev.info with closed := false }
        (prev.children ++ [shiftNode 1 c.node]) :: c.post)) := by
  rw [indentNode, cloneTree_eq, hl]
  simp only [hpre, List.getLast?_concat, List.dropLast_concat]

theorem shiftForest_append (d : Int) : ∀ a b : List Node,
    shiftForest d (a ++ b) = shiftForest d a ++ shiftForest d b
  | [], b => by rw [shiftForest]; simp
  | n :: ns, b => by
    rw [List.cons_append, shiftForest, shiftForest, shiftForest_append d ns b, List.cons_append]

theorem outdent_facts (path2 : List Frame) (pf : Frame) (pre : List Node) (x : Node)
    (post : List Node)
    (h : (idsF (plug (path2 ++ [pf]) (pre ++ x :: post))).Nodup) :
    pf.info.id ∉ pathPreIds path2 ∧ pf.info.id ∉ idsF pf.pre := by
  rw [plug_append] at h
  rw [show plug [pf] (pre ++ x :: post) =
    pf.pre ++ Node.mk pf.info (pre ++ x :: post) :: pf.post by simp [plug]] at h
  obtain ⟨hin, hout⟩ := nodup_plug_decomp _ _ h
  have hmem : pf.info.id ∈ idsF (pf.pre ++ Node.mk pf.info (pre ++ x :: post) :: pf.post) := by
    rw [idsF_append, idsF]
    simp
  refine ⟨hout _ hmem, ?_⟩
  rw [idsF_append] at hin
  intro hm
  refine absurd ?_ (List.disjoint_of_nodup_append hin hm)
  rw [idsF]
  simp

/-- The successful case of `outdentNode`, fully characterized under unique
ids: the former parent keeps only the siblings before the node, and the node —
its subtree one level shallower, with its former following siblings appended
as children at their unchanged indents — is inserted right after the former
parent. -/
theorem outdentNode_eq (t : List Node) (i : Nat) (c : Ctx) (hl : locate t i = some c)
    (hnd : (idsF t).Nodup) (pf : Frame) (path2 : List Frame) (hpath : c.path = path2 ++ [pf]) :
    outdentNode t i = some (plug path2 (pf.pre ++
      Node.mk pf.info c.pre ::
      Node.mk { c.node.info with indent := c.node.indent - 1 }
        (shiftForest (-1) c.node.children ++ c.post) :: pf.post)) := by
  have hrec := locate_reconstruct t i c hl
  rw [hpath] at hrec
  have hfacts : pf.info.id ∉ pathPreIds path2 ∧ pf.info.id ∉ idsF pf.pre := by
    apply outdent_facts path2 pf c.pre c.node c.post
    rw [hrec]
    exact hnd
  have hloc2 : locate (plug path2 (pf.pre ++ Node.mk pf.info c.pre :: pf.post)) pf.info.id =
      some ⟨path2, pf.pre, Node.mk pf.info c.pre, pf.post⟩ := by
    have hc := locate_plug path2 pf.pre (Node.mk pf.info c.pre) pf.post
      (by
        intro f hf
        exact conds_of_notmem path2 pf.info.id hfacts.1 f hf)
      (by
        rw [forestHasId_false_iff]
        simpa using hfacts.2)
    simpa using hc
  rw [outdentNode, cloneTree_eq, hl]
  simp only [hpath, List.getLast?_concat, List.dropLast_concat, hloc2]
  have hmoved : shiftNode (-1) (Node.mk c.node.info (c.node.children ++ c.post.map (shiftNode 1))) =
      Node.mk { c.node.info with indent := c.node.indent - 1 }
        (shiftForest (-1) c.node.children ++ c.post) := by
    rw [shiftNode, shiftForest_append, ← shiftForest_eq_map, shiftForest_comp]
    rw [show (1 : Int) + (-1) = 0 by omega, shiftForest_zero]
    rw [show c.node.info.indent + (-1) = c.node.indent - 1 by
      rw [Node.indent]; omega]
  rw [hmoved]

/-- C3, counterexample.  Outdenting `a` in `r(1){a(2), b(2)}` makes `b` a
child of `a`, but `b`'s indent stays 2 (its prior value): it is first raised
to 3 and then lowered together with the whole outdented subtree, so it does
not end at "prior depth plus one" (3). -/
theorem C3_counterexample :
    outdentNode
        [Node.mk ⟨1, ['r'], 1, false, false⟩
          [Node.mk ⟨2, ['a'], 2, false, false⟩ [], Node.mk ⟨3, ['b'], 2, false, false⟩ []]] 2 =
      some [Node.mk ⟨1, ['r'], 1, false, false⟩ [],
        Node.mk ⟨2, ['a'], 1, false, false⟩ [Node.mk ⟨3, ['b'], 2, false, false⟩ []]] ∧
    (findNode [Node.mk ⟨1, ['r'], 1, false, false⟩ [],
        Node.mk ⟨2, ['a'], 1, false, false⟩ [Node.mk ⟨3, ['b'], 2, false, false⟩ []]] 3).map
      Node.indent = some 2 ∧
    ¬ ((2 : Int) = 2 + 1) := by
  refine ⟨?_, ?_, by omega⟩
  · simp [outdentNode, cloneTree, cloneNode, locate, extendPre, plug, shiftNode, shiftForest,
      Node.id, Node.info, Node.children]
  · simp [findNode, Node.indent]

/-- C3, amended.  For a top-level id `outdentNode` fails; for a nested node it
removes the following siblings from the sibling list and appends them, in
original order and with indents (and subtrees) unchanged, as new children of
the node; it decreases the node's own indent and its original children's
indents by 1; and it reinserts the node immediately after its former parent in
that parent's own sibling list. -/
theorem C3_outdent (t : List Node) (i : Nat) (c : Ctx) (hnd : (idsF t).Nodup)
    (hl : locate t i = some c) :
    (c.path = [] → outdentNode t i = none) ∧
    (∀ path2 pf, c.path = path2 ++ [pf] →
      outdentNode t i = some (plug path2 (pf.pre ++
        Node.mk pf.info c.pre ::
        Node.mk { c.node.info with indent := c.node.indent - 1 }
          (shiftForest (-1) c.node.children ++ c.post) :: pf.post))) := by
  constructor
  · intro hz
    rw [outdentNode, cloneTree_eq, hl]
    simp [hz]
  · intro path2 pf hpath
    exact outdentNode_eq t i c hl hnd pf path2 hpath

/-- Witness for C3's amended statement on the concrete tree `r(1){a(2), b(2)}`:
outdenting the nested node `a` and failing on the top-level node `r`. -/
theorem C3_outdent_witness :
    outdentNode
        [Node.mk ⟨1, ['r'], 1, false, false⟩
          [Node.mk ⟨2, ['a'], 2, false, false⟩ [], Node.mk ⟨3, ['b'], 2, false, false⟩ []]] 1 =
      none ∧
    outdentNode
        [Node.mk ⟨1, ['r'], 1, false, false⟩
          [Node.mk ⟨2, ['a'], 2, false, false⟩ [], Node.mk ⟨3, ['b'], 2, false, false⟩ []]] 2 =
      some (plug []
        ([] ++ Node.mk ⟨1, ['r'], 1, false, false⟩ [] ::
          Node.mk ⟨2, ['a'], 2 - 1, false, false⟩
            (shiftForest (-1) [] ++ [Node.mk ⟨3, ['b'], 2, false, false⟩ []]) :: [])) := by
  constructor
  · refine (C3_outdent _ 1 ⟨[], [],
      Node.mk ⟨1, ['r'], 1, false, false⟩
        [Node.mk ⟨2, ['a'], 2, false, false⟩ [], Node.mk ⟨3, ['b'], 2, false, false⟩ []], []⟩
      ?_ ?_).1 rfl
    · simp only [idsF]
      decide
    · simp [locate, Node.id]
  · refine (C3_outdent _ 2 ⟨[⟨[], ⟨1, ['r'], 1, false, false⟩, []⟩], [],
      Node.mk ⟨2, ['a'], 2, false, false⟩ [], [Node.mk ⟨3, ['b'], 2, false, false⟩ []]⟩
      ?_ ?_).2 [] ⟨[], ⟨1, ['r'], 1, false, false⟩, []⟩ rfl
    · simp only [idsF]
      decide
    · simp [locate, extendPre, Node.id]

/-! ### Claim C9: indent then outdent restores parent, index and indent -/

/-- C9.  In a tree with unique ids, indenting a node that has a previous
sibling and then immediately outdenting it puts the node back in its original
sibling list (same frame chain, hence same parent), at its original sibling
index, as exactly its original value (in particular with its original
indent). -/
theorem C9_indent_outdent (t : List Node) (i : Nat) (c : Ctx) (hnd : (idsF t).Nodup)
    (hl : locate t i = some c) (prev : Node) (pre2 : List Node)
    (hpre : c.pre = pre2 ++ [prev]) :
    ∃ t1 t2 c2, indentNode t i = some t1 ∧ outdentNode t1 i = some t2 ∧
      locate t2 i = some c2 ∧ c2.path = c.path ∧ c2.index = c.index ∧ c2.node = c.node := by
  have hrec := locate_reconstruct t i c hl
  have hxid : c.node.id = i := locate_node_id t i c hl
  rw [hpre] at hrec
  have hfacts := indent_nodup_facts c.path pre2 prev c.node c.post (by rw [hrec]; exact hnd)
  obtain ⟨hx_path, hp_path, hx_pre2, hx_prev, hx_prevch, hp_pre2⟩ := hfacts
  refine ⟨plug c.path (pre2 ++ Node.mk { prev.info with closed := false }
            (prev.children ++ [shiftNode 1 c.node]) :: c.post),
          plug c.path (pre2 ++ Node.mk { prev.info with closed := false } prev.children ::
            c.node :: c.post),
          ⟨c.path, pre2 ++ [Node.mk { prev.info with closed := false } prev.children],
            c.node, c.post⟩,
          indentNode_eq t i c hl prev pre2 hpre, ?_, ?_, rfl, ?_, rfl⟩
  · -- outdent of the indented tree
    have ht1 : plug c.path (pre2 ++ Node.mk { prev.info with closed := false }
          (prev.children ++ [shiftNode 1 c.node]) :: c.post) =
        plug (c.path ++ [⟨pre2, { prev.info with closed := false }, c.post⟩])
          (prev.children ++ shiftNode 1 c.node :: []) := by
      rw [plug_append]
      simp [plug]
    have hlt1 : locate (plug c.path (pre2 ++ Node.mk { prev.info with closed := false }
          (prev.children ++ [shiftNode 1 c.node]) :: c.post)) i =
        some ⟨c.path ++ [⟨pre2, { prev.info with closed := false }, c.post⟩],
          prev.children, shiftNode 1 c.node, []⟩ := by
      rw [ht1]
      have hc := locate_plug (c.path ++ [⟨pre2, { prev.info with closed := false }, c.post⟩])
        prev.children (shiftNode 1 c.node) []
        (by
          intro f hf
          rw [shiftNode_id, hxid]
          rcases List.mem_append.mp hf with hf | hf
          · exact conds_of_notmem c.path i (hxid ▸ hx_path) f hf
          · rw [List.mem_singleton] at hf
            rw [hf]
            constructor
            · intro he
              simp at he
              exact hx_prev (by rw [hxid]; exact he.symm)
            · rw [forestHasId_false_iff]
              simpa using hxid ▸ hx_pre2)
        (by
          rw [forestHasId_false_iff, shiftNode_id, hxid]
          exact hxid ▸ hx_prevch)
      rw [shiftNode_id, hxid] at hc
      exact hc
    rw [outdentNode, cloneTree_eq, hlt1]
    simp only [List.getLast?_concat, List.dropLast_concat]
    have hloc2 : locate (plug c.path (pre2 ++
        Node.mk { prev.info with closed := false } prev.children :: c.post))
        ({ prev.info with closed := false } : NodeInfo).id =
        some ⟨c.path, pre2, Node.mk { prev.info with closed := false } prev.children, c.post⟩ := by
      have hc := locate_plug c.path pre2
        (Node.mk { prev.info with closed := false } prev.children) c.post
        (by
          intro f hf
          have : (Node.mk { prev.info with closed := false } prev.children).id = prev.id := rfl
          rw [this]
          exact conds_of_notmem c.path prev.id hp_path f hf)
        (by
          rw [forestHasId_false_iff]
          simpa using hp_pre2)
      simpa using hc
    simp only [hloc2]
    have hmoved : shiftNode (-1) (Node.mk (shiftNode 1 c.node).info
        ((shiftNode 1 c.node).children ++ List.map (shiftNode 1) [])) = c.node := by
      simp only [List.map_nil, List.append_nil, Node.eta]
      rw [shiftNode_comp]
      rw [show (1 : Int) + (-1) = 0 by omega, shiftNode_zero]
    rw [hmoved]
  · -- locating the node in the restored tree
    have ht2 : plug c.path (pre2 ++ Node.mk { prev.info with closed := false } prev.children ::
        c.node :: c.post) =
        plug c.path ((pre2 ++ [Node.mk { prev.info with closed := false } prev.children]) ++
          c.node :: c.post) := by
      rw [List.append_assoc]
      rfl
    rw [ht2]
    have hc := locate_plug c.path
      (pre2 ++ [Node.mk { prev.info with closed := false } prev.children]) c.node c.post
      (by
        intro f hf
        exact conds_of_notmem c.path c.node.id hx_path f hf)
      (by
        rw [forestHasId_false_iff, idsF_append]
        intro hm
        rcases List.mem_append.mp hm with hm | hm
        · exact hx_pre2 hm
        · simp only [idsF, List.append_nil, List.mem_cons, List.mem_append,
            List.not_mem_nil, or_false] at hm
          rcases hm with hm | hm
          · exact hx_prev hm
          · exact hx_prevch hm)
    rw [hxid] at hc
    exact hc
  · simp [Ctx.index, hpre]

/-- Witness for C9 on the sample tree `r(1){a(2), b(2)}`: indent `b` under
`a`, outdent it again. -/
theorem C9_indent_outdent_witness :
    ∃ t1 t2 c2,
      indentNode
          [Node.mk ⟨1, ['r'], 1, false, false⟩
            [Node.mk ⟨2, ['a'], 2, false, false⟩ [], Node.mk ⟨3, ['b'], 2, false, false⟩ []]] 3 =
        some t1 ∧
      outdentNode t1 3 = some t2 ∧ locate t2 3 = some c2 ∧
      c2.path = [⟨[], ⟨1, ['r'], 1, false, false⟩, []⟩] ∧ c2.index = 1 ∧
      c2.node = Node.mk ⟨3, ['b'], 2, false, false⟩ [] := by
  exact C9_indent_outdent _ 3
    ⟨[⟨[], ⟨1, ['r'], 1, false, false⟩, []⟩], [Node.mk ⟨2, ['a'], 2, false, false⟩ []],
      Node.mk ⟨3, ['b'], 2, false, false⟩ [], []⟩
    (by simp only [idsF]; decide)
    (by simp [locate, extendPre, Node.id])
    (Node.mk ⟨2, ['a'], 2, false, false⟩ []) [] rfl

/-! ### Merging nodes (C4): removal and modification building blocks -/

/-- The removal step at the end of `mergeNodes` (`findParentContext` followed
by `siblings.splice(index, 1)`): delete the first node with the given id in
pre-order, together with its whole subtree. -/
def removeAtId : List Node → Nat → Option (List Node)
  | [], _ => none
  | .mk info cs :: ns, j =>
    if info.id = j then some ns
    else
      match removeAtId cs j with
      | some cs2 => some (.mk info cs2 :: ns)
      | none =>
        match removeAtId ns j with
        | some l2 => some (.mk info cs :: l2)
        | none => none

theorem removeAtId_eq : ∀ (l : List Node) (j : Nat),
    removeAtId l j = (locate l j).map (fun c => plug c.path (c.pre ++ c.post))
  | [], j => by simp [removeAtId, locate]
  | .mk info cs :: ns, j => by
    by_cases hid : info.id = j
    · simp [removeAtId, locate, hid, plug]
    · have h1 := removeAtId_eq cs j
      have h2 := removeAtId_eq ns j
      rcases hc : locate cs j with _ | c1
      · rcases hn : locate ns j with _ | c2
        · rw [hc] at h1; rw [hn] at h2
          simp at h1 h2
          simp [removeAtId, locate, hid, hc, hn, h1, h2]
        · rw [hc] at h1; rw [hn] at h2
          simp at h1 h2
          have hp := plug_extendPre_tail [Node.mk info cs] c2 c2.post
          simp [removeAtId, locate, hid, hc, hn, h1, h2, hp]
      · rw [hc] at h1
        simp at h1
        simp [removeAtId, locate, hid, hc, h1, plug]

theorem removeAtId_eq_none_iff (l : List Node) (j : Nat) :
    removeAtId l j = none ↔ forestHasId l j = false := by
  rw [removeAtId_eq]
  rcases hc : locate l j with _ | c
  · simp [(locate_eq_none_iff l j).mp hc]
  · have : ¬ forestHasId l j = false := by
      intro hf
      rw [(locate_eq_none_iff l j).mpr hf] at hc
      cases hc
    simp [this]

theorem removeAtId_append_left : ∀ (a : List Node) (b a2 : List Node) (j : Nat),
    removeAtId a j = some a2 → removeAtId (a ++ b) j = some (a2 ++ b)
  | [], b, a2, j => by intro h; simp [removeAtId] at h
  | .mk info cs :: as, b, a2, j => by
    intro h
    rw [removeAtId] at h
    rw [List.cons_append, removeAtId]
    by_cases hid : info.id = j
    · rw [if_pos hid] at h ⊢
      injection h with h
      rw [← h]
    · rw [if_neg hid] at h ⊢
      rcases hrc : removeAtId cs j with _ | cs2
      · simp only [hrc] at h ⊢
        rcases hra : removeAtId as j with _ | as2
        · simp only [hra] at h
          cases h
        · simp only [hra] at h
          injection h with h
          have ih := removeAtId_append_left as b as2 j hra
          simp only [ih, ← h, List.cons_append]
      · simp only [hrc] at h ⊢
        injection h with h
        rw [← h, List.cons_append]

theorem removeAtId_ids_sub (l l' : List Node) (j : Nat) (h : removeAtId l j = some l') :
    ∀ a, a ∈ idsF l' → a ∈ idsF l := by
  rw [removeAtId_eq] at h
  rcases hc : locate l j with _ | c
  · rw [hc] at h; cases h
  · rw [hc] at h
    simp only [Option.map_some'] at h
    injection h with h
    have hrec := locate_reconstruct l j c hc
    intro a ha
    rw [← hrec, idsF_plug]
    rw [← h, idsF_plug] at ha
    rw [idsF_append] at ha
    rw [idsF_append, idsF_cons]
    simp only [List.mem_append] at ha ⊢
    tauto

theorem findNode_mem_allNodes : ∀ (l : List Node) (i : Nat) (n : Node),
    findNode l i = some n → n ∈ allNodesF l
  | [], i, n => by intro h; simp [findNode] at h
  | .mk info cs :: ns, i, n => by
    intro h
    rw [findNode] at h
    rw [allNodesF]
    by_cases hid : info.id = i
    · rw [if_pos hid] at h
      injection h with h
      rw [← h]
      exact List.mem_cons_self _ _
    · rw [if_neg hid] at h
      rcases hc : findNode cs i with _ | m
      · simp only [hc] at h
        exact List.mem_cons_of_mem _
          (List.mem_append_right _ (findNode_mem_allNodes ns i n h))
      · simp only [hc] at h
        injection h with h
        rw [← h]
        exact List.mem_cons_of_mem _
          (List.mem_append_left _ (findNode_mem_allNodes cs i m hc))

/-- Rewriting the first node with id `i` leaves that node findable, with the
function applied, provided the function preserves the id. -/
theorem findNode_modify_self : ∀ (l : List Node) (i : Nat) (F : Node → Node),
    (∀ n, (F n).id = n.id) →
    ∀ l' n, modifyAtId l i F = some l' → findNode l i = some n →
    findNode l' i = some (F n)
  | [], i, F => by intro _ l' n h; simp [modifyAtId] at h
  | .mk info cs :: ns, i, F => by
    intro hF l' n hm hf
    rw [modifyAtId] at hm
    rw [findNode] at hf
    by_cases hid : info.id = i
    · rw [if_pos hid] at hm hf
      injection hm with hm
      injection hf with hf
      rcases hFn : F (Node.mk info cs) with ⟨fi, fcs⟩
      have hfid : fi.id = i := by
        have := hF (Node.mk info cs)
        rw [hFn] at this
        simp at this
        rw [this]
        exact hid
      rw [← hm, hFn, findNode, if_pos hfid, ← hf, hFn]
    · rw [if_neg hid] at hm hf
      rcases hmc : modifyAtId cs i F with _ | cs2
      · simp only [hmc] at hm
        rcases hmn : modifyAtId ns i F with _ | ns2
        · simp only [hmn] at hm
          cases hm
        · simp only [hmn] at hm
          injection hm with hm
          have hcs : findNode cs i = none := by
            rw [findNode_eq_locate,
              (locate_eq_none_iff cs i).mpr]
            · rfl
            · have := modifyAtId_eq cs i F
              rw [hmc] at this
              rcases hl : locate cs i with _ | c
              · exact (locate_eq_none_iff cs i).mp hl ▸ rfl
              · rw [hl] at this; cases this
          simp only [hcs] at hf
          have ih := findNode_modify_self ns i F hF ns2 n hmn hf
          rw [← hm, findNode, if_neg hid, hcs, ih]
      · simp only [hmc] at hm
        injection hm with hm
        have hsome : (locate cs i).isSome = true := by
          have := modifyAtId_eq cs i F
          rw [hmc] at this
          rcases hl : locate cs i with _ | c
          · rw [hl] at this; cases this
          · rfl
        rcases hfc : findNode cs i with _ | m
        · rw [findNode_eq_locate] at hfc
          rcases hl : locate cs i with _ | c
          · rw [hl] at hsome; cases hsome
          · rw [hl] at hfc; cases hfc
        · simp only [hfc] at hf
          injection hf with hf
          have ih := findNode_modify_self cs i F hF cs2 m hmc hfc
          rw [← hm, findNode, if_neg hid, ih, hf]

/-- Rewriting node `i` with a function that keeps both the id and the children
leaves every other lookup unchanged, provided no node named `j` has `i` in its
subtree. -/
theorem findNode_modify_other : ∀ (l : List Node) (i j : Nat) (F : Node → Node),
    (∀ n, (F n).id = n.id ∧ (F n).children = n.children) → ¬ j = i →
    (∀ n ∈ allNodesF l, n.id = j → forestHasId n.children i = false) →
    ∀ l', modifyAtId l i F = some l' → findNode l' j = findNode l j
  | [], i, j, F => by intro _ _ _ l' h; simp [modifyAtId] at h
  | .mk info cs :: ns, i, j, F => by
    intro hF hji hNU l' hm
    rw [modifyAtId] at hm
    by_cases hid : info.id = i
    · rw [if_pos hid] at hm
      injection hm with hm
      rcases hFn : F (Node.mk info cs) with ⟨fi, fcs⟩
      have hfid : fi.id = info.id := by
        have := (hF (Node.mk info cs)).1
        rw [hFn] at this
        simpa using this
      have hfcs : fcs = cs := by
        have := (hF (Node.mk info cs)).2
        rw [hFn] at this
        simpa using this
      have hij : ¬ fi.id = j := by
        rw [hfid, hid]
        intro he
        exact hji he.symm
      have hij2 : ¬ info.id = j := by
        rw [hid]
        intro he
        exact hji he.symm
      rw [← hm, hFn, findNode, findNode, if_neg hij, if_neg hij2, hfcs]
    · rw [if_neg hid] at hm
      rcases hmc : modifyAtId cs i F with _ | cs2
      · simp only [hmc] at hm
        rcases hmn : modifyAtId ns i F with _ | ns2
        · simp only [hmn] at hm
          cases hm
        · simp only [hmn] at hm
          injection hm with hm
          have ih := findNode_modify_other ns i j F hF hji
            (fun n hn => hNU n (by
              rw [allNodesF]
              exact List.mem_cons_of_mem _ (List.mem_append_right _ hn))) ns2 hmn
          rw [← hm, findNode, findNode, ih]
      · simp only [hmc] at hm
        injection hm with hm
        have hcs_has : forestHasId cs i = true := by
          have := modifyAtId_eq cs i F
          rw [hmc] at this
          rcases hl : locate cs i with _ | c
          · rw [hl] at this; cases this
          · have := locate_isSome cs i
            rw [hl] at this
            exact this.symm
        have hij2 : ¬ info.id = j := by
          intro he
          have := hNU (Node.mk info cs) (by rw [allNodesF]; exact List.mem_cons_self _ _)
            (by simpa using he)
          simp at this
          rw [this] at hcs_has
          cases hcs_has
        have ih := findNode_modify_other cs i j F hF hji
          (fun n hn => hNU n (by
            rw [allNodesF]
            exact List.mem_cons_of_mem _ (List.mem_append_left _ hn))) cs2 hmc
        rw [← hm, findNode, findNode, if_neg hij2, if_neg hij2, ih]

/-- A modification that keeps id and children keeps the id list. -/
theorem modify_idsF_eq (l : List Node) (i : Nat) (F : Node → Node)
    (hF : ∀ n, (F n).id = n.id ∧ (F n).children = n.children)
    (l' : List Node) (h : modifyAtId l i F = some l') : idsF l' = idsF l := by
  rw [modifyAtId_eq] at h
  rcases hc : locate l i with _ | c
  · rw [hc] at h; cases h
  · rw [hc] at h
    simp only [Option.map_some'] at h
    injection h with h
    rw [← locate_reconstruct l i c hc, ← h]
    rcases hx : c.node with ⟨xi, xcs⟩
    rcases hFn : F (Node.mk xi xcs) with ⟨fi, fcs⟩
    have h1 : fi.id = xi.id := by
      have := (hF (Node.mk xi xcs)).1
      rw [hFn] at this
      simpa using this
    have h2 : fcs = xcs := by
      have := (hF (Node.mk xi xcs)).2
      rw [hFn] at this
      simpa using this
    rw [idsF_plug, idsF_plug, idsF_append, idsF_append, idsF_cons, idsF_cons]
    simp [idsF, h1, h2]

/-- Ids after a modification that appends `extra` below the node: the old ids
plus the ids of `extra`, as far as membership goes. -/
theorem modify_mem_idsF (l : List Node) (i : Nat) (g : NodeInfo → NodeInfo)
    (extra : List Node) (hg : ∀ info, (g info).id = info.id) (l' : List Node)
    (h : modifyAtId l i (fun n => Node.mk (g n.info) (n.children ++ extra)) = some l') :
    ∀ a, a ∈ idsF l' ↔ a ∈ idsF l ∨ a ∈ idsF extra := by
  rw [modifyAtId_eq] at h
  rcases hc : locate l i with _ | c
  · rw [hc] at h; cases h
  · rw [hc] at h
    simp only [Option.map_some'] at h
    injection h with h
    intro a
    rw [← locate_reconstruct l i c hc, ← h]
    rcases hx : c.node with ⟨xi, xcs⟩
    simp only [Node.info_mk, Node.children_mk]
    rw [idsF_plug, idsF_plug, idsF_append, idsF_append, idsF_cons, idsF_cons]
    simp [idsF, idsF_append, hg xi, List.mem_append]
    tauto

/-- Per-child shifts keep the id list. -/
theorem idsF_mapShift (g : Node → Int) : ∀ l : List Node,
    idsF (List.map (fun ch => shiftNode (g ch) ch) l) = idsF l
  | [] => by simp [idsF]
  | .mk info cs :: ns => by
    rw [List.map_cons, shiftNode, idsF, idsF, idsF_shift, idsF_mapShift g ns]

/-- Under global id uniqueness the id of a located node appears nowhere else:
not among its children, its siblings, or the surrounding frames. -/
theorem nodup_ctx_self (t : List Node) (i : Nat) (c : Ctx)
    (hnd : (idsF t).Nodup) (hc : locate t i = some c) :
    i ∉ idsF c.node.children ∧ i ∉ idsF c.pre ∧ i ∉ idsF c.post ∧
    i ∉ pathPreIds c.path ∧ i ∉ pathPostIds c.path := by
  have hrec := locate_reconstruct t i c hc
  have hid := locate_node_id t i c hc
  have hnd' : (idsF (plug c.path (c.pre ++ c.node :: c.post))).Nodup := by
    rw [hrec]; exact hnd
  obtain ⟨hin, hout⟩ := nodup_plug_decomp _ _ hnd'
  have hiM : i ∈ idsF [c.node] := by
    rcases hx : c.node with ⟨xi, xcs⟩
    rw [hx] at hid
    simp only [Node.id_mk] at hid
    simp [idsF, hid]
  have hiL : i ∈ idsF (c.pre ++ c.node :: c.post) := by
    rw [idsF_append, idsF_cons]
    exact List.mem_append_right _ (List.mem_append_left _ hiM)
  have hinx := hin
  rw [idsF_append, idsF_cons] at hinx
  obtain ⟨hB, hMD, hdisjB⟩ := List.nodup_append.mp hinx
  obtain ⟨hMnd, hD, hdisjMD⟩ := List.nodup_append.mp hMD
  have hnotchild : i ∉ idsF c.node.children := by
    rcases hx : c.node with ⟨xi, xcs⟩
    rw [hx] at hid hMnd
    simp only [Node.id_mk] at hid
    have hM : idsF [Node.mk xi xcs] = xi.id :: idsF xcs := by simp [idsF]
    rw [hM] at hMnd
    simp only [Node.children_mk]
    rw [← hid]
    exact (List.nodup_cons.mp hMnd).1
  have htop := List.nodup_append.mp (by rw [idsF_plug] at hnd'; exact hnd')
  refine ⟨hnotchild, ?_, ?_, hout i hiL, ?_⟩
  · intro hiB
    exact hdisjB hiB (List.mem_append_left _ hiM)
  · exact hdisjMD hiM
  · intro hiS
    exact htop.2.2 (List.mem_append_right _ hiL) hiS

theorem forestHasId_append_false (a b : List Node) (j : Nat)
    (ha : forestHasId a j = false) (hb : forestHasId b j = false) :
    forestHasId (a ++ b) j = false := by
  rw [forestHasId_false_iff] at ha hb ⊢
  rw [idsF_append]
  intro hm
  rcases List.mem_append.mp hm with h | h
  exacts [ha h, hb h]

theorem modifyAtId_eq_none_iff (l : List Node) (i : Nat) (f : Node → Node) :
    modifyAtId l i f = none ↔ forestHasId l i = false := by
  rw [modifyAtId_eq]
  rcases hc : locate l i with _ | c
  · simp [(locate_eq_none_iff l i).mp hc]
  · have : ¬ forestHasId l i = false := by
      intro hf
      rw [(locate_eq_none_iff l i).mpr hf] at hc
      cases hc
    simp [this]

theorem notUnder_children (info : NodeInfo) (cs ns : List Node) (j i : Nat)
    (h : ∀ n ∈ allNodesF (Node.mk info cs :: ns), n.id = j → forestHasId n.children i = false) :
    (∀ n ∈ allNodesF cs, n.id = j → forestHasId n.children i = false) ∧
    (∀ n ∈ allNodesF ns, n.id = j → forestHasId n.children i = false) := by
  constructor
  · intro n hn
    exact h n (by rw [allNodesF]; exact List.mem_cons_of_mem _ (List.mem_append_left _ hn))
  · intro n hn
    exact h n (by rw [allNodesF]; exact List.mem_cons_of_mem _ (List.mem_append_right _ hn))

/-- Modifying node `i` (rewriting its scalar fields and appending `extra`
below it) commutes with removing node `j`: the removal succeeds on the
modified tree exactly when it succeeds on the original, and the results agree.
Requires that `i` does not sit inside a node named `j` and that `extra` does
not mention `j`. -/
theorem remove_modify_comm : ∀ (l : List Node) (i j : Nat) (g : NodeInfo → NodeInfo)
    (extra : List Node),
    (∀ info, (g info).id = info.id) → ¬ j = i → forestHasId extra j = false →
    (∀ n ∈ allNodesF l, n.id = j → forestHasId n.children i = false) →
    ∀ l1, modifyAtId l i (fun n => Node.mk (g n.info) (n.children ++ extra)) = some l1 →
    (removeAtId l1 j = none ↔ removeAtId l j = none) ∧
    (∀ l2, removeAtId l1 j = some l2 →
      ∃ l0, removeAtId l j = some l0 ∧
        modifyAtId l0 i (fun n => Node.mk (g n.info) (n.children ++ extra)) = some l2)
  | [], i, j, g, extra => by
    intro _ _ _ _ l1 h
    simp [modifyAtId] at h
  | .mk info cs :: ns, i, j, g, extra => by
    intro hg hji hex hNU l1 hm
    obtain ⟨hNUc, hNUn⟩ := notUnder_children info cs ns j i hNU
    rw [modifyAtId] at hm
    by_cases hid : info.id = i
    · rw [if_pos hid] at hm
      injection hm with hm
      simp only [Node.info_mk, Node.children_mk] at hm
      subst hm
      have hjhead : ¬ (g info).id = j := by
        rw [hg info, hid]; intro he; exact hji he.symm
      have hjhead0 : ¬ info.id = j := by
        rw [hid]; intro he; exact hji he.symm
      rcases hrc : removeAtId cs j with _ | cs2
      · have hca : removeAtId (cs ++ extra) j = none :=
          (removeAtId_eq_none_iff _ j).mpr
            (forestHasId_append_false cs extra j
              ((removeAtId_eq_none_iff cs j).mp hrc) hex)
        rcases hrn : removeAtId ns j with _ | ns2
        · have e1 : removeAtId (Node.mk (g info) (cs ++ extra) :: ns) j = none := by
            rw [removeAtId, if_neg hjhead]
            simp only [hca, hrn]
          have e0 : removeAtId (Node.mk info cs :: ns) j = none := by
            rw [removeAtId, if_neg hjhead0]
            simp only [hrc, hrn]
          refine ⟨by rw [e1, e0], ?_⟩
          intro l2 hl2
          rw [e1] at hl2
          cases hl2
        · have e1 : removeAtId (Node.mk (g info) (cs ++ extra) :: ns) j =
              some (Node.mk (g info) (cs ++ extra) :: ns2) := by
            rw [removeAtId, if_neg hjhead]
            simp only [hca, hrn]
          have e0 : removeAtId (Node.mk info cs :: ns) j =
              some (Node.mk info cs :: ns2) := by
            rw [removeAtId, if_neg hjhead0]
            simp only [hrc, hrn]
          refine ⟨by rw [e1, e0]; simp, ?_⟩
          intro l2 hl2
          rw [e1] at hl2
          injection hl2 with hl2
          refine ⟨Node.mk info cs :: ns2, e0, ?_⟩
          rw [modifyAtId, if_pos hid]
          simp only [Node.info_mk, Node.children_mk]
          rw [hl2]
      · have hca := removeAtId_append_left cs extra cs2 j hrc
        have e1 : removeAtId (Node.mk (g info) (cs ++ extra) :: ns) j =
            some (Node.mk (g info) (cs2 ++ extra) :: ns) := by
          rw [removeAtId, if_neg hjhead]
          simp only [hca]
        have e0 : removeAtId (Node.mk info cs :: ns) j =
            some (Node.mk info cs2 :: ns) := by
          rw [removeAtId, if_neg hjhead0]
          simp only [hrc]
        refine ⟨by rw [e1, e0]; simp, ?_⟩
        intro l2 hl2
        rw [e1] at hl2
        injection hl2 with hl2
        refine ⟨Node.mk info cs2 :: ns, e0, ?_⟩
        rw [modifyAtId, if_pos hid]
        simp only [Node.info_mk, Node.children_mk]
        rw [hl2]
    · rw [if_neg hid] at hm
      rcases hmc : modifyAtId cs i
          (fun n => Node.mk (g n.info) (n.children ++ extra)) with _ | cs'
      · simp only [hmc] at hm
        rcases hmn : modifyAtId ns i
            (fun n => Node.mk (g n.info) (n.children ++ extra)) with _ | ns'
        · simp only [hmn] at hm
          cases hm
        · simp only [hmn] at hm
          injection hm with hm
          subst hm
          have IHn := remove_modify_comm ns i j g extra hg hji hex hNUn ns' hmn
          by_cases hj : info.id = j
          · have e1 : removeAtId (Node.mk info cs :: ns') j = some ns' := by
              rw [removeAtId, if_pos hj]
            have e0 : removeAtId (Node.mk info cs :: ns) j = some ns := by
              rw [removeAtId, if_pos hj]
            refine ⟨by rw [e1, e0]; simp, ?_⟩
            intro l2 hl2
            rw [e1] at hl2
            injection hl2 with hl2
            exact ⟨ns, e0, by rw [← hl2]; exact hmn⟩
          · rcases hrc : removeAtId cs j with _ | cs2
            · rcases hr1 : removeAtId ns' j with _ | ns2'
              · have hr0 : removeAtId ns j = none := IHn.1.mp hr1
                have e1 : removeAtId (Node.mk info cs :: ns') j = none := by
                  rw [removeAtId, if_neg hj]
                  simp only [hrc, hr1]
                have e0 : removeAtId (Node.mk info cs :: ns) j = none := by
                  rw [removeAtId, if_neg hj]
                  simp only [hrc, hr0]
                refine ⟨by rw [e1, e0], ?_⟩
                intro l2 hl2
                rw [e1] at hl2
                cases hl2
              · obtain ⟨ns0, hns0, hmod0⟩ := IHn.2 ns2' hr1
                have e1 : removeAtId (Node.mk info cs :: ns') j =
                    some (Node.mk info cs :: ns2') := by
                  rw [removeAtId, if_neg hj]
                  simp only [hrc, hr1]
                have e0 : removeAtId (Node.mk info cs :: ns) j =
                    some (Node.mk info cs :: ns0) := by
                  rw [removeAtId, if_neg hj]
                  simp only [hrc, hns0]
                refine ⟨by rw [e1, e0]; simp, ?_⟩
                intro l2 hl2
                rw [e1] at hl2
                injection hl2 with hl2
                refine ⟨Node.mk info cs :: ns0, e0, ?_⟩
                rw [modifyAtId, if_neg hid]
                simp only [hmc, hmod0]
                rw [hl2]
            · have e1 : removeAtId (Node.mk info cs :: ns') j =
                  some (Node.mk info cs2 :: ns') := by
                rw [removeAtId, if_neg hj]
                simp only [hrc]
              have e0 : removeAtId (Node.mk info cs :: ns) j =
                  some (Node.mk info cs2 :: ns) := by
                rw [removeAtId, if_neg hj]
                simp only [hrc]
              refine ⟨by rw [e1, e0]; simp, ?_⟩
              intro l2 hl2
              rw [e1] at hl2
              injection hl2 with hl2
              refine ⟨Node.mk info cs2 :: ns, e0, ?_⟩
              have hcs2none : modifyAtId cs2 i
                  (fun n => Node.mk (g n.info) (n.children ++ extra)) = none := by
                rw [modifyAtId_eq_none_iff]
                rw [forestHasId_false_iff]
                intro hmem
                have hsub := removeAtId_ids_sub cs cs2 j hrc i hmem
                have := (modifyAtId_eq_none_iff cs i _).mp hmc
                rw [forestHasId_false_iff] at this
                exact this hsub
              rw [modifyAtId, if_neg hid]
              simp only [hcs2none, hmn]
              rw [hl2]
      · simp only [hmc] at hm
        injection hm with hm
        subst hm
        have IHc := remove_modify_comm cs i j g extra hg hji hex hNUc cs' hmc
        have hcs_has : forestHasId cs i = true := by
          rcases hb : forestHasId cs i with _ | _
          · rw [(modifyAtId_eq_none_iff cs i _).mpr hb] at hmc
            cases hmc
          · rfl
        have hj : ¬ info.id = j := by
          intro he
          have := hNU (Node.mk info cs)
            (by rw [allNodesF]; exact List.mem_cons_self _ _) (by simpa using he)
          simp only [Node.children_mk] at this
          rw [this] at hcs_has
          cases hcs_has
        rcases hr1 : removeAtId cs' j with _ | cs2'
        · have hr0 : removeAtId cs j = none := IHc.1.mp hr1
          rcases hrn : removeAtId ns j with _ | ns2
          · have e1 : removeAtId (Node.mk info cs' :: ns) j = none := by
              rw [removeAtId, if_neg hj]
              simp only [hr1, hrn]
            have e0 : removeAtId (Node.mk info cs :: ns) j = none := by
              rw [removeAtId, if_neg hj]
              simp only [hr0, hrn]
            refine ⟨by rw [e1, e0], ?_⟩
            intro l2 hl2
            rw [e1] at hl2
            cases hl2
          · have e1 : removeAtId (Node.mk info cs' :: ns) j =
                some (Node.mk info cs' :: ns2) := by
              rw [removeAtId, if_neg hj]
              simp only [hr1, hrn]
            have e0 : removeAtId (Node.mk info cs :: ns) j =
                some (Node.mk info cs :: ns2) := by
              rw [removeAtId, if_neg hj]
              simp only [hr0, hrn]
            refine ⟨by rw [e1, e0]; simp, ?_⟩
            intro l2 hl2
            rw [e1] at hl2
            injection hl2 with hl2
            refine ⟨Node.mk info cs :: ns2, e0, ?_⟩
            rw [modifyAtId, if_neg hid]
            simp only [hmc]
            rw [hl2]
        · obtain ⟨cs0, hcs0, hmod0⟩ := IHc.2 cs2' hr1
          have e1 : removeAtId (Node.mk info cs' :: ns) j =
              some (Node.mk info cs2' :: ns) := by
            rw [removeAtId, if_neg hj]
            simp only [hr1]
          have e0 : removeAtId (Node.mk info cs :: ns) j =
              some (Node.mk info cs0 :: ns) := by
            rw [removeAtId, if_neg hj]
            simp only [hcs0]
          refine ⟨by rw [e1, e0]; simp, ?_⟩
          intro l2 hl2
          rw [e1] at hl2
          injection hl2 with hl2
          refine ⟨Node.mk info cs0 :: ns, e0, ?_⟩
          rw [modifyAtId, if_neg hid]
          simp only [hmod0]
          rw [hl2]

/-- C4, FALSIFIED as stated: when targetId = sourceId both ids resolve, yet
mergeNodes deletes the node outright — here the whole tree empties, so no node
carries the concatenated text. -/
theorem C4_counterexample :
    (findNode [Node.mk ⟨1, ['a'], 1, false, false⟩ []] 1).isSome = true ∧
    mergeNodes [Node.mk ⟨1, ['a'], 1, false, false⟩ []] 1 1 ['a'] ['b'] =
      some ([], 1) := by
  constructor
  · simp [findNode]
  · simp [mergeNodes, cloneTree, cloneNode, findNode, modifyAtId, locate, plug]

/-- Removing the subtree of node `jj` leaves the scalar fields of every other
findable node unchanged, provided `jj` does not sit inside a node named `j`. -/
theorem findNode_remove_info : ∀ (l : List Node) (j jj : Nat), ¬ j = jj →
    (∀ n ∈ allNodesF l, n.id = jj → forestHasId n.children j = false) →
    ∀ l', removeAtId l jj = some l' →
    (findNode l' j).map Node.info = (findNode l j).map Node.info
  | [], j, jj => by intro _ _ l' h; simp [removeAtId] at h
  | .mk info cs :: ns, j, jj => by
    intro hne hNU l' h
    obtain ⟨hNUc, hNUn⟩ := notUnder_children info cs ns jj j hNU
    rw [removeAtId] at h
    by_cases hid : info.id = jj
    · rw [if_pos hid] at h
      injection h with h
      subst h
      have hj : ¬ info.id = j := by
        rw [hid]
        intro he
        exact hne he.symm
      have hcs : findNode cs j = none := by
        have hcl := hNU (Node.mk info cs)
          (by rw [allNodesF]; exact List.mem_cons_self _ _) (by simpa using hid)
        simp only [Node.children_mk] at hcl
        rw [findNode_eq_locate, (locate_eq_none_iff cs j).mpr hcl]
        rfl
      rw [findNode, if_neg hj, hcs]
    · rw [if_neg hid] at h
      rcases hrc : removeAtId cs jj with _ | cs2
      · simp only [hrc] at h
        rcases hrn : removeAtId ns jj with _ | ns2
        · simp only [hrn] at h
          cases h
        · simp only [hrn] at h
          injection h with h
          subst h
          have ih := findNode_remove_info ns j jj hne hNUn ns2 hrn
          rw [findNode, findNode]
          by_cases hj : info.id = j
          · rw [if_pos hj, if_pos hj]
          · rw [if_neg hj, if_neg hj]
            rcases hfc : findNode cs j with _ | m
            · simp only [hfc]
              exact ih
            · simp only [hfc]
      · simp only [hrc] at h
        injection h with h
        subst h
        have ih := findNode_remove_info cs j jj hne hNUc cs2 hrc
        rw [findNode, findNode]
        by_cases hj : info.id = j
        · rw [if_pos hj, if_pos hj]
          rfl
        · rw [if_neg hj, if_neg hj]
          rcases hfc : findNode cs j with _ | m
          · have hfc2 : findNode cs2 j = none := by
              rcases hx : findNode cs2 j with _ | m2
              · rfl
              · rw [hx, hfc] at ih
                simp at ih
            simp only [hfc, hfc2]
          · rcases hfc2 : findNode cs2 j with _ | m2
            · rw [hfc2, hfc] at ih
              simp at ih
            · rw [hfc2, hfc] at ih
              simp only [Option.map_some'] at ih
              simp only [hfc, hfc2, Option.map_some']
              exact ih

/-- The full successful pipeline of `mergeNodes` under unique ids, distinct
resolvable ids, and a target outside the source subtree: the tree is first
stripped of the source subtree, then the target's text is rewritten, and —
when the source had children — their rebased copies are appended below the
target. -/
theorem merge_chain (t : List Node) (targetId sourceId : Nat) (tt st : List Char)
    (tc sc : Ctx) (hnd : (idsF t).Nodup)
    (htc : locate t targetId = some tc) (hsc : locate t sourceId = some sc)
    (hne : ¬ targetId = sourceId)
    (hnotdesc : ¬ IsDescendantIn t sourceId targetId) :
    ∃ R0 c0 L1,
      removeAtId t sourceId = some R0 ∧
      plug sc.path (sc.pre ++ sc.post) = R0 ∧
      locate R0 targetId = some c0 ∧
      c0.node.info = tc.node.info ∧
      modifyAtId R0 targetId
        (fun n : Node => Node.mk { n.info with text := tt ++ st } n.children) = some L1 ∧
      sourceId ∉ idsF L1 ∧
      ((sc.node.children = [] ∧
          mergeNodes t targetId sourceId tt st = some (L1, tt.length)) ∨
        (¬ sc.node.children = [] ∧ ∃ L2,
          modifyAtId L1 targetId
            (fun n : Node => Node.mk ((fun info => { info with closed := false }) n.info)
              (n.children ++ sc.node.children.map
                (fun ch => shiftNode (tc.node.indent + 1 - ch.indent) ch))) = some L2 ∧
          mergeNodes t targetId sourceId tt st = some (L2, tt.length))) := by
  have hF1p : ∀ n : Node,
      ((fun n : Node => Node.mk { n.info with text := tt ++ st } n.children) n).id = n.id ∧
      ((fun n : Node => Node.mk { n.info with text := tt ++ st } n.children) n).children
        = n.children := by
    intro n
    cases n with
    | mk i c => simp
  have hndN : ∀ n ∈ allNodesF t, n.id = sourceId →
      forestHasId n.children targetId = false := by
    intro n hn hid2
    rcases hb : forestHasId n.children targetId with _ | _
    · rfl
    · exact absurd ⟨n, hn, hid2, (forestHasId_iff _ _).mp hb⟩ hnotdesc
  have hscid : sc.node.id = sourceId := locate_node_id t sourceId sc hsc
  have hfsrc0 : findNode t sourceId = some sc.node := by
    rw [findNode_eq_locate, hsc]; rfl
  have hftgt0 : findNode t targetId = some tc.node := by
    rw [findNode_eq_locate, htc]; rfl
  have hscnotd : forestHasId sc.node.children targetId = false :=
    hndN sc.node (findNode_mem_allNodes t sourceId sc.node hfsrc0) hscid
  obtain ⟨T1, hm1⟩ : ∃ T1, modifyAtId t targetId
      (fun n : Node => Node.mk { n.info with text := tt ++ st } n.children) = some T1 := by
    rw [modifyAtId_eq, htc]
    exact ⟨_, rfl⟩
  have hids1 : idsF T1 = idsF t := modify_idsF_eq t targetId _ hF1p T1 hm1
  have hnd1 : (idsF T1).Nodup := by rw [hids1]; exact hnd
  have hfsrc1 : findNode T1 sourceId = some sc.node := by
    rw [findNode_modify_other t targetId sourceId _ hF1p
      (fun he => hne he.symm) hndN T1 hm1]
    exact hfsrc0
  have hNU1 : ∀ n ∈ allNodesF T1, n.id = sourceId →
      forestHasId n.children targetId = false := by
    intro n hn hid2
    have hfm := findNode_of_mem T1 n hnd1 hn
    rw [hid2, hfsrc1] at hfm
    injection hfm with hfm
    rw [← hfm]
    exact hscnotd
  have hm1' : modifyAtId t targetId
      (fun n : Node => Node.mk ((fun info => { info with text := tt ++ st }) n.info)
        (n.children ++ ([] : List Node))) = some T1 := by
    have heq : (fun n : Node => Node.mk ((fun info => { info with text := tt ++ st }) n.info)
        (n.children ++ ([] : List Node))) =
        (fun n : Node => Node.mk { n.info with text := tt ++ st } n.children) := by
      funext n
      simp
    rw [heq]
    exact hm1
  have hCOMM1 := remove_modify_comm t targetId sourceId
    (fun info => { info with text := tt ++ st }) []
    (fun _ => rfl) (fun he => hne he.symm) (by simp [forestHasId]) hndN T1 hm1'
  have hrem0 : removeAtId t sourceId = some (plug sc.path (sc.pre ++ sc.post)) := by
    rw [removeAtId_eq, hsc]; rfl
  obtain ⟨L1, hrem1⟩ : ∃ L1, removeAtId T1 sourceId = some L1 := by
    rcases hr : removeAtId T1 sourceId with _ | L1
    · rw [hCOMM1.1.mp hr] at hrem0
      cases hrem0
    · exact ⟨L1, rfl⟩
  obtain ⟨R0, hR0, hmodR0⟩ := hCOMM1.2 L1 hrem1
  have hR0eq : plug sc.path (sc.pre ++ sc.post) = R0 := by
    rw [hrem0] at hR0
    injection hR0 with hR0
  have hctxf := nodup_ctx_self t sourceId sc hnd hsc
  have hsrc_not_R0 : sourceId ∉ idsF R0 := by
    rw [← hR0eq, idsF_plug, idsF_append]
    simp only [List.mem_append]
    rintro ((h | h | h) | h)
    exacts [hctxf.2.2.2.1 h, hctxf.2.1 h, hctxf.2.2.1 h, hctxf.2.2.2.2 h]
  have hF1'p : ∀ n : Node,
      ((fun n : Node => Node.mk ((fun info => { info with text := tt ++ st }) n.info)
        (n.children ++ ([] : List Node))) n).id = n.id ∧
      ((fun n : Node => Node.mk ((fun info => { info with text := tt ++ st }) n.info)
        (n.children ++ ([] : List Node))) n).children = n.children := by
    intro n
    cases n with
    | mk i c => simp
  have hmodP : modifyAtId R0 targetId
      (fun n : Node => Node.mk { n.info with text := tt ++ st } n.children) = some L1 := by
    have heq : (fun n : Node => Node.mk ((fun info => { info with text := tt ++ st }) n.info)
        (n.children ++ ([] : List Node))) =
        (fun n : Node => Node.mk { n.info with text := tt ++ st } n.children) := by
      funext n
      simp
    rw [← heq]
    exact hmodR0
  have hidsL1 : idsF L1 = idsF R0 := modify_idsF_eq R0 targetId _ hF1'p L1 hmodR0
  have hsrc_not_L1 : sourceId ∉ idsF L1 := by
    rw [hidsL1]
    exact hsrc_not_R0
  obtain ⟨c0, hlocR0⟩ : ∃ c0, locate R0 targetId = some c0 := by
    have hx := hmodR0
    rw [modifyAtId_eq] at hx
    rcases hl : locate R0 targetId with _ | c0
    · rw [hl] at hx
      cases hx
    · exact ⟨c0, rfl⟩
  have hfn0 : findNode R0 targetId = some c0.node := by
    rw [findNode_eq_locate, hlocR0]; rfl
  have hinfo : c0.node.info = tc.node.info := by
    have hri := findNode_remove_info t targetId sourceId hne hndN R0 hR0
    rw [hfn0, hftgt0] at hri
    simp only [Option.map_some'] at hri
    injection hri with hri
  refine ⟨R0, c0, L1, hR0, hR0eq, hlocR0, hinfo, hmodP, hsrc_not_L1, ?_⟩
  by_cases hchil : sc.node.children = []
  · -- no children move: step keeps T1, then the source is spliced out
    have hEmp : sc.node.children.isEmpty = true := by rw [hchil]; rfl
    obtain ⟨sc2, hloc1⟩ : ∃ sc2, locate T1 sourceId = some sc2 := by
      have hx := hrem1
      rw [removeAtId_eq] at hx
      rcases hl : locate T1 sourceId with _ | sc2
      · rw [hl] at hx
        cases hx
      · exact ⟨sc2, rfl⟩
    have hplugL1 : plug sc2.path (sc2.pre ++ sc2.post) = L1 := by
      have hx := hrem1
      rw [removeAtId_eq, hloc1] at hx
      simp only [Option.map_some'] at hx
      injection hx with h
    refine Or.inl ⟨hchil, ?_⟩
    rw [mergeNodes]
    simp only [cloneTree_eq, hftgt0, hm1, hfsrc1, hEmp, if_true, hloc1, hplugL1]
  · -- children move: second modification appends the rebased copies
    have hEmp : sc.node.children.isEmpty = false := by
      rcases hl : sc.node.children with _ | ⟨x, xs⟩
      · exact absurd hl hchil
      · rfl
    have htgt_has1 : forestHasId T1 targetId = true := by
      rw [forestHasId_iff, hids1, ← forestHasId_iff]
      have hx := locate_isSome t targetId
      rw [htc] at hx
      exact hx.symm
    obtain ⟨T2, hm2⟩ : ∃ T2, modifyAtId T1 targetId
        (fun n : Node => Node.mk ((fun info => { info with closed := false }) n.info)
          (n.children ++ sc.node.children.map
            (fun ch => shiftNode (tc.node.indent + 1 - ch.indent) ch))) = some T2 := by
      rcases hb : modifyAtId T1 targetId _ with _ | T2
      · rw [modifyAtId_eq_none_iff] at hb
        rw [hb] at htgt_has1
        cases htgt_has1
      · exact ⟨T2, rfl⟩
    have hexEX : forestHasId (sc.node.children.map
        (fun ch => shiftNode (tc.node.indent + 1 - ch.indent) ch)) sourceId = false := by
      rw [forestHasId_false_iff, idsF_mapShift]
      exact hctxf.1
    have hCOMM2 := remove_modify_comm T1 targetId sourceId
      (fun info => { info with closed := false })
      (sc.node.children.map (fun ch => shiftNode (tc.node.indent + 1 - ch.indent) ch))
      (fun _ => rfl) (fun he => hne he.symm) hexEX hNU1 T2 hm2
    obtain ⟨L2, hrem2⟩ : ∃ L2, removeAtId T2 sourceId = some L2 := by
      rcases hr : removeAtId T2 sourceId with _ | L2
      · rw [hCOMM2.1.mp hr] at hrem1
        cases hrem1
      · exact ⟨L2, rfl⟩
    obtain ⟨L1b, hL1b, hmod2⟩ := hCOMM2.2 L2 hrem2
    have hL1beq : L1 = L1b := by
      rw [hrem1] at hL1b
      injection hL1b with h
    rw [← hL1beq] at hmod2
    obtain ⟨sc2, hloc2⟩ : ∃ sc2, locate T2 sourceId = some sc2 := by
      have hx := hrem2
      rw [removeAtId_eq] at hx
      rcases hl : locate T2 sourceId with _ | sc2
      · rw [hl] at hx
        cases hx
      · exact ⟨sc2, rfl⟩
    have hplugL2 : plug sc2.path (sc2.pre ++ sc2.post) = L2 := by
      have hx := hrem2
      rw [removeAtId_eq, hloc2] at hx
      simp only [Option.map_some'] at hx
      injection hx with h
    refine Or.inr ⟨hchil, L2, hmod2, ?_⟩
    rw [mergeNodes]
    simp only [cloneTree_eq, hftgt0, hm1, hfsrc1, hEmp, Bool.false_eq_true,
      if_false, hm2, hloc2, hplugL2]

/-- C4 (amended): in a tree with unique ids in which both ids resolve, and with
targetId ≠ sourceId and the target not a descendant of the source, mergeNodes
returns join point targetText.length and a tree in which the target's text is
targetText ++ sourceText, the source's former children stand at the end of the
target's children rebased to target.indent + 1, the target is forced open when
children moved, and the source is gone.  On a tree where either id fails to
resolve (the `u` part) it returns none. -/
theorem C4_merge (t : List Node) (targetId sourceId : Nat) (tt st : List Char)
    (tc sc : Ctx) (hnd : (idsF t).Nodup)
    (htc : locate t targetId = some tc) (hsc : locate t sourceId = some sc)
    (hne : ¬ targetId = sourceId)
    (hnotdesc : ¬ IsDescendantIn t sourceId targetId)
    (u : List Node) (a b : Nat)
    (hu : findNode u a = none ∨ findNode u b = none) :
    (∃ t3 n3 pref,
      mergeNodes t targetId sourceId tt st = some (t3, tt.length) ∧
      findNode t3 targetId = some n3 ∧
      n3.text = tt ++ st ∧
      n3.children = pref ++ sc.node.children.map
        (fun ch => shiftNode (tc.node.indent + 1 - ch.indent) ch) ∧
      (¬ sc.node.children = [] → n3.closed = false) ∧
      findNode t3 sourceId = none) ∧
    mergeNodes u a b tt st = none := by
  have hF1p : ∀ n : Node,
      ((fun n : Node => Node.mk { n.info with text := tt ++ st } n.children) n).id = n.id ∧
      ((fun n : Node => Node.mk { n.info with text := tt ++ st } n.children) n).children
        = n.children := by
    intro n
    cases n with
    | mk i c => simp
  constructor
  · -- the successful merge
    obtain ⟨R0, c0, L1, hR0, hR0eq, hlocR0, hinfo, hmod, hsrcL1, hcases⟩ :=
      merge_chain t targetId sourceId tt st tc sc hnd htc hsc hne hnotdesc
    have hfn0 : findNode R0 targetId = some c0.node := by
      rw [findNode_eq_locate, hlocR0]; rfl
    have hfnL1 : findNode L1 targetId =
        some (Node.mk { c0.node.info with text := tt ++ st } c0.node.children) :=
      findNode_modify_self R0 targetId _ (fun n => (hF1p n).1) L1 c0.node hmod hfn0
    have hctxf := nodup_ctx_self t sourceId sc hnd hsc
    rcases hcases with ⟨hchil, hres⟩ | ⟨hchil, L2, hmod2, hres⟩
    · refine ⟨L1, _, c0.node.children, hres, hfnL1, by simp, ?_,
        fun h => absurd hchil h, ?_⟩
      · rw [hchil]
        simp
      · rw [findNode_eq_locate, (locate_eq_none_iff L1 sourceId).mpr]
        · rfl
        · rw [forestHasId_false_iff]
          exact hsrcL1
    · have hfnL2 := findNode_modify_self L1 targetId _
        (fun n => by cases n with | mk i c => simp) L2 _ hmod2 hfnL1
      refine ⟨L2, _, c0.node.children, hres, hfnL2, by simp, by simp,
        fun _ => by simp, ?_⟩
      have hmem := modify_mem_idsF L1 targetId
        (fun info => { info with closed := false })
        (sc.node.children.map (fun ch => shiftNode (tc.node.indent + 1 - ch.indent) ch))
        (fun _ => rfl) L2 hmod2 sourceId
      rw [findNode_eq_locate, (locate_eq_none_iff L2 sourceId).mpr]
      · rfl
      · rw [forestHasId_false_iff]
        intro hmm
        rcases hmem.mp hmm with h | h
        · exact hsrcL1 h
        · rw [idsF_mapShift] at h
          exact hctxf.1 h
  · -- unresolvable ids: none
    rcases hu with hu | hu
    · rw [mergeNodes]
      simp only [cloneTree_eq, hu]
    · rw [mergeNodes]
      simp only [cloneTree_eq]
      rcases hfa : findNode u a with _ | target0
      · rfl
      · rcases hm1 : modifyAtId u a
            (fun n : Node => Node.mk { n.info with text := tt ++ st } n.children) with _ | t1
        · simp only [hm1]
        · simp only [hm1]
          have hids := modify_idsF_eq u a _ hF1p t1 hm1
          have hfb : findNode t1 b = none := by
            rw [findNode_eq_locate, (locate_eq_none_iff t1 b).mpr]
            · rfl
            · rw [forestHasId_false_iff, hids, ← forestHasId_false_iff]
              rw [findNode_eq_locate] at hu
              rcases hl : locate u b with _ | c
              · exact (locate_eq_none_iff u b).mp hl
              · rw [hl] at hu
                cases hu
          simp only [hfb]
/-- Witness for C4 on r(1){s(2){c(3)}}: merge node 2 into the root node 1;
the failure side uses the empty tree. -/
theorem C4_merge_witness :
    (∃ t3 n3 pref,
      mergeNodes
          [Node.mk ⟨1, ['r'], 1, false, false⟩
            [Node.mk ⟨2, ['s'], 2, false, false⟩ [Node.mk ⟨3, ['c'], 3, false, false⟩ []]]]
          1 2 ['x'] ['y'] = some (t3, 1) ∧
      findNode t3 1 = some n3 ∧
      n3.text = ['x'] ++ ['y'] ∧
      n3.children = pref ++ [Node.mk ⟨3, ['c'], 3, false, false⟩ []].map
        (fun ch => shiftNode ((1 : Int) + 1 - ch.indent) ch) ∧
      (¬ [Node.mk ⟨3, ['c'], 3, false, false⟩ []] = ([] : List Node) → n3.closed = false) ∧
      findNode t3 2 = none) ∧
    mergeNodes [] 0 0 ['x'] ['y'] = none := by
  exact C4_merge _ 1 2 ['x'] ['y']
    ⟨[], [], Node.mk ⟨1, ['r'], 1, false, false⟩
      [Node.mk ⟨2, ['s'], 2, false, false⟩ [Node.mk ⟨3, ['c'], 3, false, false⟩ []]], []⟩
    ⟨[⟨[], ⟨1, ['r'], 1, false, false⟩, []⟩], [],
      Node.mk ⟨2, ['s'], 2, false, false⟩ [Node.mk ⟨3, ['c'], 3, false, false⟩ []], []⟩
    (by simp only [idsF]; decide)
    (by simp [locate])
    (by simp [locate, extendPre])
    (by decide)
    (by simp [IsDescendantIn, allNodesF, idsF])
    [] 0 0 (Or.inl (by simp [findNode]))

/-! ### C1: preservation of the full indent invariant -/

theorem getLast?_decomp {α : Type} : ∀ (l : List α) (x : α),
    l.getLast? = some x → l.dropLast ++ [x] = l
  | [], x => by intro h; simp at h
  | [a], x => by
    intro h
    simp [List.getLast?] at h
    simp [h]
  | a :: b :: l, x => by
    intro h
    rw [List.getLast?_cons_cons] at h
    have ih := getLast?_decomp (b :: l) x h
    rw [show (a :: b :: l).dropLast = a :: (b :: l).dropLast from rfl,
      List.cons_append, ih]

theorem lastReq_isSome : ∀ (p : List Frame) (r : Int), ∃ ρ, lastReq (some r) p = some ρ
  | [], r => ⟨r, rfl⟩
  | f :: fs, r => by
    rw [lastReq]
    exact lastReq_isSome fs (f.info.indent + 1)

theorem lastReq_snoc : ∀ (p : List Frame) (rOpt : Option Int) (f : Frame),
    lastReq rOpt (p ++ [f]) = some (f.info.indent + 1)
  | [], rOpt, f => by simp [lastReq]
  | g :: gs, rOpt, f => by
    rw [List.cons_append]
    simp only [lastReq]
    exact lastReq_snoc gs _ f

theorem pathOkR_snoc : ∀ (p : List Frame) (rOpt : Option Int) (f : Frame),
    pathOkR rOpt (p ++ [f]) = true ↔
      (pathOkR rOpt p = true ∧ okAt (lastReq rOpt p) f.pre = true ∧
        okAt (lastReq rOpt p) f.post = true ∧ infoAt (lastReq rOpt p) f.info = true)
  | [], rOpt, f => by
    rw [List.nil_append]
    simp [pathOkR, lastReq]
    tauto
  | g :: gs, rOpt, f => by
    rw [List.cons_append]
    have ih := pathOkR_snoc gs (some (g.info.indent + 1)) f
    simp only [pathOkR, lastReq, Bool.and_eq_true] at ih ⊢
    tauto

theorem okAt_cons' (rOpt : Option Int) (y : Node) (ys : List Node) :
    okAt rOpt (y :: ys) = true ↔
      (okAt (some (y.indent + 1)) y.children = true ∧ infoAt rOpt y.info = true ∧
        okAt rOpt ys = true) := by
  cases y with
  | mk info cs => exact okAt_cons rOpt info cs ys

theorem okAt_mem : ∀ (ρ : Int) (l : List Node) (x : Node), okAt (some ρ) l = true → x ∈ l →
    okAt (some (x.indent + 1)) x.children = true ∧ x.indent = ρ
  | ρ, [], x => by intro _ h; cases h
  | ρ, y :: ys, x => by
    intro hok hx
    obtain ⟨hy, hyi, hys⟩ := (okAt_cons' (some ρ) y ys).mp hok
    rcases List.mem_cons.mp hx with h | h
    · subst h
      refine ⟨hy, ?_⟩
      simpa [infoAt, Node.indent] using hyi
    · exact okAt_mem ρ ys x hys h

theorem okAt_single_iff (rOpt : Option Int) (y : Node) :
    okAt rOpt [y] = true ↔
      (okAt (some (y.indent + 1)) y.children = true ∧ infoAt rOpt y.info = true) := by
  rw [okAt_cons']
  simp [okAt_nil]

theorem shiftNode_indent (d : Int) (x : Node) : (shiftNode d x).indent = x.indent + d := by
  cases x with
  | mk info cs => rw [shiftNode]; simp

theorem okAt_shift_single (ρ : Int) (x : Node)
    (h : okAt (some (x.indent + 1)) x.children = true) :
    okAt (some ρ) [shiftNode (ρ - x.indent) x] = true := by
  rcases x with ⟨xi, xcs⟩
  simp only [Node.indent_mk, Node.children_mk] at h
  rw [shiftNode]
  apply (okAt_single_iff _ _).mpr
  constructor
  · simp only [Node.indent_mk, Node.children_mk]
    have hint : xi.indent + (ρ - xi.indent) + 1 = (xi.indent + 1) + (ρ - xi.indent) := by
      ring
    rw [hint]
    simp only [okAt, rootsReq, Bool.and_eq_true] at h ⊢
    exact ⟨by rw [forestInv_shift]; exact h.1, by rw [rootsAt_shift]; exact h.2⟩
  · simp only [Node.info_mk, Node.indent_mk, infoAt, beq_iff_eq]
    ring

theorem okAt_mapShift (ρ : Int) : ∀ l : List Node,
    (∀ x ∈ l, okAt (some (x.indent + 1)) x.children = true) →
    okAt (some ρ) (l.map (fun ch => shiftNode (ρ - ch.indent) ch)) = true
  | [] => by intro _; simpa using okAt_nil (some ρ)
  | y :: ys => by
    intro h
    rw [List.map_cons]
    have h1 := okAt_shift_single ρ y (h y (List.mem_cons_self _ _))
    have h2 := okAt_mapShift ρ ys (fun x hx => h x (List.mem_cons_of_mem _ hx))
    have h3 := (okAt_append (some ρ) [shiftNode (ρ - y.indent) y]
      (ys.map (fun ch => shiftNode (ρ - ch.indent) ch))).mpr ⟨h1, h2⟩
    simpa using h3

theorem okAt_modify_keep (l : List Node) (i : Nat) (F : Node → Node)
    (hF : ∀ n, (F n).indent = n.indent ∧ (F n).children = n.children)
    (rOpt : Option Int) (l' : List Node) (h : modifyAtId l i F = some l')
    (hok : okAt rOpt l = true) : okAt rOpt l' = true := by
  rw [modifyAtId_eq] at h
  rcases hc : locate l i with _ | c
  · rw [hc] at h; cases h
  · rw [hc] at h
    simp only [Option.map_some'] at h
    injection h with h
    rw [← locate_reconstruct l i c hc] at hok
    rw [← h]
    rw [okAt_plug] at hok ⊢
    refine ⟨hok.1, ?_⟩
    have h2 := hok.2
    rw [okAt_append] at h2 ⊢
    refine ⟨h2.1, ?_⟩
    have h3 := h2.2
    rw [okAt_cons'] at h3 ⊢
    obtain ⟨hch, hinf, hrest⟩ := h3
    refine ⟨?_, ?_, hrest⟩
    · rw [(hF c.node).1, (hF c.node).2]
      exact hch
    · rcases hR : lastReq rOpt c.path with _ | ρ2
      · rfl
      · rw [hR] at hinf
        simp only [infoAt] at hinf ⊢
        rw [show (F c.node).info.indent = c.node.info.indent from (hF c.node).1]
        exact hinf

/-- The indent shared by the top-level nodes (0 for the empty tree). -/
def rootIndent : List Node → Int
  | [] => 0
  | n :: _ => n.indent

theorem okAt_of_fullInv (t : List Node) (hfi : forestInv t = true)
    (htu : topUniform t = true) : okAt (some (rootIndent t)) t = true := by
  cases t with
  | nil => exact okAt_nil _
  | cons n ns =>
    rw [topUniform] at htu
    simp only [okAt, rootsReq, rootIndent, Bool.and_eq_true]
    refine ⟨hfi, ?_⟩
    simp only [rootsAt, List.all_cons, Bool.and_eq_true]
    exact ⟨by simp, htu⟩

theorem fullInv_of_okAt (t : List Node) (r : Int) (h : okAt (some r) t = true) :
    forestInv t = true ∧ topUniform t = true := by
  simp only [okAt, rootsReq, Bool.and_eq_true] at h
  refine ⟨h.1, ?_⟩
  cases t with
  | nil => rfl
  | cons n ns =>
    rw [topUniform]
    have h2 := h.2
    simp only [rootsAt, List.all_cons, Bool.and_eq_true, beq_iff_eq] at h2
    rw [show n.indent = r from h2.1]
    simp only [rootsAt]
    exact h2.2

theorem forestInv_single (y : Node) :
    forestInv [y] = okAt (some (y.indent + 1)) y.children := by
  cases y with
  | mk info cs => simp [forestInv, okAt, rootsReq, Bool.and_comm]

theorem rootsAt_cons (d : Int) (y : Node) (ys : List Node) :
    rootsAt d (y :: ys) = ((y.indent == d) && rootsAt d ys) := by
  simp [rootsAt]

theorem forestInv_cons (y : Node) (ys : List Node) :
    forestInv (y :: ys) = (forestInv [y] && forestInv ys) := by
  cases y with
  | mk info cs => simp [forestInv]

mutual

theorem reassignIds_pres : ∀ (n : Node) (k : Nat),
    (reassignIds n k).1.indent = n.indent ∧
    forestInv [(reassignIds n k).1] = forestInv [n]
  | .mk info cs, k => by
    have h := reassignForest_pres cs (k + 1)
    rw [reassignIds]
    constructor
    · simp
    · simp only [forestInv]
      rw [h.2, h.1 (info.indent + 1)]

theorem reassignForest_pres : ∀ (l : List Node) (k : Nat),
    (∀ d, rootsAt d (reassignForest l k).1 = rootsAt d l) ∧
    forestInv (reassignForest l k).1 = forestInv l
  | [], k => by
    rw [reassignForest]
    exact ⟨fun d => rfl, rfl⟩
  | n :: ns, k => by
    have h1 := reassignIds_pres n k
    have h2 := reassignForest_pres ns (reassignIds n k).2
    simp only [reassignForest]
    constructor
    · intro d
      rw [rootsAt_cons, rootsAt_cons, h1.1, h2.1 d]
    · rw [forestInv_cons, forestInv_cons, h1.2, h2.2]
      simp [forestInv]
      rw [← forestInv_cons]

end

theorem pasteClones_okAt (ρ : Int) : ∀ (l : List Node) (k : Nat),
    (∀ x ∈ l, okAt (some (x.indent + 1)) x.children = true) →
    okAt (some ρ) (pasteClones l ρ k).1 = true
  | [], k => by
    intro _
    rw [pasteClones]
    exact okAt_nil _
  | n :: ns, k => by
    intro h
    simp only [pasteClones]
    have hclone : okAt (some ρ) [shiftNode (ρ - n.indent) (cloneNode n)] = true := by
      rw [cloneNode_eq]
      exact okAt_shift_single ρ n (h n (List.mem_cons_self _ _))
    have hpr := reassignIds_pres (shiftNode (ρ - n.indent) (cloneNode n)) k
    have hhead : okAt (some ρ)
        [(reassignIds (shiftNode (ρ - n.indent) (cloneNode n)) k).1] = true := by
      rw [okAt_single_iff] at hclone ⊢
      constructor
      · rw [← forestInv_single, hpr.2, forestInv_single]
        exact hclone.1
      · have hind : (reassignIds (shiftNode (ρ - n.indent) (cloneNode n)) k).1.info.indent =
            (shiftNode (ρ - n.indent) (cloneNode n)).info.indent := hpr.1
        simp only [infoAt] at hclone ⊢
        rw [hind]
        exact hclone.2
    have hrest := pasteClones_okAt ρ ns
      (reassignIds (shiftNode (ρ - n.indent) (cloneNode n)) k).2
      (fun x hx => h x (List.mem_cons_of_mem _ hx))
    have hall := (okAt_append (some ρ)
      [(reassignIds (shiftNode (ρ - n.indent) (cloneNode n)) k).1]
      (pasteClones ns ρ (reassignIds (shiftNode (ρ - n.indent) (cloneNode n)) k).2).1).mpr
      ⟨hhead, hrest⟩
    simpa using hall

theorem indent_okAt (t : List Node) (r : Int) (hok : okAt (some r) t = true)
    (i : Nat) (t2 : List Node) (h : indentNode t i = some t2) :
    okAt (some r) t2 = true := by
  rw [indentNode, cloneTree_eq] at h
  rcases hl : locate t i with _ | c
  · rw [hl] at h; cases h
  · rw [hl] at h
    rcases hgl : c.pre.getLast? with _ | prev
    · simp only [hgl] at h; cases h
    · simp only [hgl] at h
      injection h with h
      have hpre := getLast?_decomp c.pre prev hgl
      rw [← locate_reconstruct t i c hl, okAt_plug] at hok
      obtain ⟨ρ, hltr⟩ := lastReq_isSome c.path r
      rw [hltr] at hok
      obtain ⟨hpath, hmid⟩ := hok
      rw [← hpre, List.append_assoc] at hmid
      rw [okAt_append] at hmid
      obtain ⟨hpre2, hmid2⟩ := hmid
      rw [List.singleton_append, okAt_cons'] at hmid2
      obtain ⟨hprevch, hprevinf, hmid3⟩ := hmid2
      rw [okAt_cons'] at hmid3
      obtain ⟨hnodech, hnodeinf, hpost⟩ := hmid3
      have hpi : prev.info.indent = ρ := by simpa [infoAt] using hprevinf
      have hni : c.node.info.indent = ρ := by simpa [infoAt] using hnodeinf
      rw [← h, okAt_plug, hltr]
      refine ⟨hpath, ?_⟩
      rw [okAt_append]
      refine ⟨hpre2, ?_⟩
      rw [okAt_cons']
      refine ⟨?_, ?_, hpost⟩
      · simp only [Node.children_mk, Node.indent_mk]
        rw [okAt_append]
        constructor
        · exact hprevch
        · have harg : (1 : Int) = { prev.info with closed := false }.indent + 1 -
              c.node.indent := by
            show (1 : Int) = prev.info.indent + 1 - c.node.info.indent
            rw [hpi, hni]
            omega
          rw [show shiftNode 1 c.node =
            shiftNode ({ prev.info with closed := false }.indent + 1 - c.node.indent) c.node
            from by rw [← harg]]
          exact okAt_shift_single _ c.node hnodech
      · simp only [Node.info_mk, infoAt, beq_iff_eq]
        show prev.info.indent = ρ
        exact hpi

theorem okAt_shiftForest (d x : Int) (l : List Node) :
    okAt (some (x + d)) (shiftForest d l) = okAt (some x) l := by
  simp only [okAt, rootsReq]
  rw [forestInv_shift, rootsAt_shift]

theorem outdent_okAt (t : List Node) (r : Int) (hnd : (idsF t).Nodup)
    (hok : okAt (some r) t = true)
    (i : Nat) (t2 : List Node) (h : outdentNode t i = some t2) :
    okAt (some r) t2 = true := by
  rcases hl : locate t i with _ | c
  · rw [outdentNode, cloneTree_eq, hl] at h; cases h
  · rcases hgl : c.path.getLast? with _ | pf
    · rw [outdentNode, cloneTree_eq, hl] at h
      simp only [hgl] at h
      cases h
    · have hpath := getLast?_decomp c.path pf hgl
      rw [outdentNode_eq t i c hl hnd pf c.path.dropLast hpath.symm] at h
      injection h with h
      rw [← locate_reconstruct t i c hl] at hok
      rw [← hpath, okAt_plug] at hok
      obtain ⟨hp1, hmid⟩ := hok
      rw [pathOkR_snoc] at hp1
      obtain ⟨hpath2, hpfpre, hpfpost, hpfinf⟩ := hp1
      rw [lastReq_snoc] at hmid
      rw [okAt_append, okAt_cons'] at hmid
      obtain ⟨hpreok, ⟨hnodech, hnodeinf, hpostok⟩⟩ := hmid
      obtain ⟨ρ2, hltr2⟩ := lastReq_isSome c.path.dropLast r
      rw [hltr2] at hpfpre hpfpost hpfinf
      have hpfi : pf.info.indent = ρ2 := by simpa [infoAt] using hpfinf
      have hni2 : c.node.info.indent = pf.info.indent + 1 := by
        simpa [infoAt] using hnodeinf
      rw [← h, okAt_plug, hltr2]
      refine ⟨hpath2, ?_⟩
      rw [okAt_append]
      refine ⟨hpfpre, ?_⟩
      rw [okAt_cons']
      refine ⟨?_, ?_, ?_⟩
      · simp only [Node.children_mk, Node.indent_mk]
        exact hpreok
      · simp only [Node.info_mk]
        exact hpfinf
      · rw [okAt_cons']
        refine ⟨?_, ?_, hpfpost⟩
        · simp only [Node.children_mk, Node.indent_mk]
          rw [okAt_append]
          constructor
          · rw [show c.node.indent - 1 + 1 = (c.node.indent + 1) + (-1) from by omega,
              okAt_shiftForest]
            exact hnodech
          · rw [show c.node.indent - 1 + 1 = pf.info.indent + 1 from by
              show c.node.info.indent - 1 + 1 = pf.info.indent + 1
              omega]
            exact hpostok
        · simp only [Node.info_mk, infoAt, beq_iff_eq]
          show c.node.info.indent - 1 = ρ2
          omega

theorem move_okAt (t : List Node) (r : Int) (hok : okAt (some r) t = true)
    (dragId targetId : Nat) (mode : Mode) (tiOpt : Option Int) (t2 : List Node)
    (h : moveNode t dragId targetId mode tiOpt = some t2) :
    okAt (some r) t2 = true := by
  rw [moveNode] at h
  by_cases he : dragId = targetId
  · rw [if_pos he] at h; cases h
  · rw [if_neg he] at h
    rcases ha : isAncestor t dragId targetId with _ | _
    · simp only [ha, Bool.false_eq_true, if_false, cloneTree_eq] at h
      rcases hdc : locate t dragId with _ | dc
      · rw [hdc] at h; cases h
      · simp only [hdc] at h
        rw [← locate_reconstruct t dragId dc hdc, okAt_plug] at hok
        obtain ⟨ρ, hltr⟩ := lastReq_isSome dc.path r
        rw [hltr] at hok
        obtain ⟨hpath, hmid⟩ := hok
        rw [okAt_append, okAt_cons'] at hmid
        obtain ⟨hpreok, hdragch, hdraginf, hpostok⟩ := hmid
        have hT1 : okAt (some r) (plug dc.path (dc.pre ++ dc.post)) = true := by
          rw [okAt_plug, hltr]
          exact ⟨hpath, (okAt_append _ _ _).mpr ⟨hpreok, hpostok⟩⟩
        generalize hgen : plug dc.path (dc.pre ++ dc.post) = T1 at h hT1
        rcases mode with _ | _ | _
        · -- before
          simp only [] at h
          rcases htc2 : locate T1 (resolveIndent T1 targetId tiOpt) with _ | tc
          · rw [htc2] at h; cases h
          · rw [htc2] at h
            injection h with h
            rw [← locate_reconstruct T1 _ tc htc2, okAt_plug] at hT1
            obtain ⟨ρ2, hltr2⟩ := lastReq_isSome tc.path r
            rw [hltr2] at hT1
            obtain ⟨hpath2, hmid2⟩ := hT1
            rw [okAt_append, okAt_cons'] at hmid2
            obtain ⟨hpreok2, hnodech2, hnodeinf2, hpostok2⟩ := hmid2
            have h5 : tc.node.info.indent = ρ2 := by simpa [infoAt] using hnodeinf2
            have hsingle := okAt_shift_single tc.node.indent dc.node hdragch
            obtain ⟨hshch, hshinf⟩ := (okAt_single_iff _ _).mp hsingle
            rw [← h, okAt_plug, hltr2]
            refine ⟨hpath2, ?_⟩
            rw [okAt_append]
            refine ⟨hpreok2, ?_⟩
            rw [okAt_cons']
            refine ⟨hshch, ?_, ?_⟩
            · simp only [infoAt, beq_iff_eq]
              show (shiftNode (tc.node.indent - dc.node.indent) dc.node).indent = ρ2
              rw [shiftNode_indent]
              show dc.node.info.indent + (tc.node.info.indent - dc.node.info.indent) = ρ2
              omega
            · rw [okAt_cons']
              exact ⟨hnodech2, hnodeinf2, hpostok2⟩
        · -- after
          simp only [] at h
          rcases htc2 : locate T1 (resolveIndent T1 targetId tiOpt) with _ | tc
          · rw [htc2] at h; cases h
          · rw [htc2] at h
            injection h with h
            rw [← locate_reconstruct T1 _ tc htc2, okAt_plug] at hT1
            obtain ⟨ρ2, hltr2⟩ := lastReq_isSome tc.path r
            rw [hltr2] at hT1
            obtain ⟨hpath2, hmid2⟩ := hT1
            rw [okAt_append, okAt_cons'] at hmid2
            obtain ⟨hpreok2, hnodech2, hnodeinf2, hpostok2⟩ := hmid2
            have h5 : tc.node.info.indent = ρ2 := by simpa [infoAt] using hnodeinf2
            have hsingle := okAt_shift_single tc.node.indent dc.node hdragch
            obtain ⟨hshch, hshinf⟩ := (okAt_single_iff _ _).mp hsingle
            rw [← h, okAt_plug, hltr2]
            refine ⟨hpath2, ?_⟩
            rw [okAt_append]
            refine ⟨hpreok2, ?_⟩
            rw [okAt_cons']
            refine ⟨hnodech2, hnodeinf2, ?_⟩
            rw [okAt_cons']
            refine ⟨hshch, ?_, hpostok2⟩
            simp only [infoAt, beq_iff_eq]
            show (shiftNode (tc.node.indent - dc.node.indent) dc.node).indent = ρ2
            rw [shiftNode_indent]
            show dc.node.info.indent + (tc.node.info.indent - dc.node.info.indent) = ρ2
            omega
        · -- child
          simp only [] at h
          rcases hft : findNode T1 targetId with _ | target
          · rw [hft] at h; cases h
          · simp only [hft] at h
            rcases hmc : locate T1 targetId with _ | mc
            · rw [modifyAtId_eq, hmc] at h; cases h
            · rw [modifyAtId_eq, hmc] at h
              simp only [Option.map_some'] at h
              injection h with h
              have htm : mc.node = target := by
                rw [findNode_eq_locate, hmc] at hft
                injection hft with hft
              rw [← locate_reconstruct T1 targetId mc hmc, okAt_plug] at hT1
              obtain ⟨ρ2, hltr2⟩ := lastReq_isSome mc.path r
              rw [hltr2] at hT1
              obtain ⟨hpath2, hmid2⟩ := hT1
              rw [okAt_append, okAt_cons'] at hmid2
              obtain ⟨hpreok2, hnodech2, hnodeinf2, hpostok2⟩ := hmid2
              rw [← h, okAt_plug, hltr2]
              refine ⟨hpath2, ?_⟩
              rw [okAt_append]
              refine ⟨hpreok2, ?_⟩
              rw [okAt_cons']
              refine ⟨?_, ?_, hpostok2⟩
              · simp only [Node.children_mk, Node.indent_mk]
                rw [okAt_append]
                constructor
                · exact hnodech2
                · rw [← htm]
                  exact okAt_shift_single _ dc.node hdragch
              · simp only [Node.info_mk, infoAt, beq_iff_eq]
                show mc.node.info.indent = ρ2
                simpa [infoAt] using hnodeinf2
    · rw [ha] at h
      simp at h

theorem paste_okAt (t : List Node) (r : Int) (hok : okAt (some r) t = true)
    (targetId : Nat) (copied : List Node) (startId : Nat)
    (hcop : ∀ x ∈ copied, okAt (some (x.indent + 1)) x.children = true) :
    okAt (some r) (pasteNodes t targetId copied startId) = true := by
  rw [pasteNodes]
  by_cases hemp : copied.isEmpty = true
  · rw [if_pos hemp]
    exact hok
  · rw [if_neg hemp]
    simp only [cloneTree_eq]
    rcases hc : locate t targetId with _ | c
    · exact hok
    · rw [← locate_reconstruct t targetId c hc, okAt_plug] at hok
      obtain ⟨ρ, hltr⟩ := lastReq_isSome c.path r
      rw [hltr] at hok
      obtain ⟨hpath, hmid⟩ := hok
      rw [okAt_append, okAt_cons'] at hmid
      obtain ⟨hnodech, hnodeinf, hpostok⟩ := hmid.2
      rw [okAt_plug, hltr]
      refine ⟨hpath, ?_⟩
      rw [okAt_append]
      refine ⟨hmid.1, ?_⟩
      rw [okAt_cons']
      refine ⟨hnodech, hnodeinf, ?_⟩
      rw [okAt_append]
      constructor
      · have hcl := pasteClones_okAt c.node.indent copied startId hcop
        have h5 : c.node.info.indent = ρ := by simpa [infoAt] using hnodeinf
        rw [← h5]
        exact hcl
      · exact hpostok

theorem merge_okAt (t : List Node) (r : Int) (hnd : (idsF t).Nodup)
    (hok : okAt (some r) t = true)
    (targetId sourceId : Nat) (tt st : List Char) (tc sc : Ctx)
    (htc : locate t targetId = some tc) (hsc : locate t sourceId = some sc)
    (hne : ¬ targetId = sourceId) (hnotdesc : ¬ IsDescendantIn t sourceId targetId)
    (t2 : List Node) (j : Nat) (h : mergeNodes t targetId sourceId tt st = some (t2, j)) :
    okAt (some r) t2 = true := by
  obtain ⟨R0, c0, L1, hR0, hR0eq, hlocR0, hinfo, hmod, hsrcL1, hcases⟩ :=
    merge_chain t targetId sourceId tt st tc sc hnd htc hsc hne hnotdesc
  have hsrcch : okAt (some (sc.node.indent + 1)) sc.node.children = true := by
    have hok2 := hok
    rw [← locate_reconstruct t sourceId sc hsc, okAt_plug] at hok2
    obtain ⟨ρ, hltr⟩ := lastReq_isSome sc.path r
    rw [hltr] at hok2
    have hmid := hok2.2
    rw [okAt_append, okAt_cons'] at hmid
    exact hmid.2.1
  have hokR0 : okAt (some r) R0 = true := by
    rw [← hR0eq]
    rw [← locate_reconstruct t sourceId sc hsc, okAt_plug] at hok
    obtain ⟨ρ, hltr⟩ := lastReq_isSome sc.path r
    rw [hltr] at hok
    obtain ⟨hpath, hmid⟩ := hok
    rw [okAt_append, okAt_cons'] at hmid
    rw [okAt_plug, hltr]
    exact ⟨hpath, (okAt_append _ _ _).mpr ⟨hmid.1, hmid.2.2.2⟩⟩
  have hokL1 : okAt (some r) L1 = true :=
    okAt_modify_keep R0 targetId _ (fun n => by cases n with | mk i c => simp)
      (some r) L1 hmod hokR0
  rcases hcases with ⟨hchil, hres⟩ | ⟨hchil, L2, hmod2, hres⟩
  · rw [hres] at h
    injection h with h
    injection h with h1 h2
    rw [← h1]
    exact hokL1
  · rw [hres] at h
    injection h with h
    injection h with h1 h2
    rw [← h1]
    rcases hc1 : locate L1 targetId with _ | c1
    · rw [modifyAtId_eq, hc1] at hmod2
      cases hmod2
    · rw [modifyAtId_eq, hc1] at hmod2
      simp only [Option.map_some'] at hmod2
      injection hmod2 with hmod2
      have hfnL1 : findNode L1 targetId =
          some (Node.mk { c0.node.info with text := tt ++ st } c0.node.children) :=
        findNode_modify_self R0 targetId _ (fun n => by cases n with | mk i c => simp)
          L1 c0.node hmod (by rw [findNode_eq_locate, hlocR0]; rfl)
      have hc1n : c1.node = Node.mk { c0.node.info with text := tt ++ st }
          c0.node.children := by
        rw [findNode_eq_locate, hc1] at hfnL1
        injection hfnL1
      have hlev : c1.node.info.indent = tc.node.info.indent := by
        rw [hc1n]
        show c0.node.info.indent = tc.node.info.indent
        rw [hinfo]
      rw [← locate_reconstruct L1 targetId c1 hc1, okAt_plug] at hokL1
      obtain ⟨ρ2, hltr2⟩ := lastReq_isSome c1.path r
      rw [hltr2] at hokL1
      obtain ⟨hpath2, hmid2⟩ := hokL1
      rw [okAt_append, okAt_cons'] at hmid2
      obtain ⟨hpreok2, hnodech2, hnodeinf2, hpostok2⟩ := hmid2
      rw [← hmod2, okAt_plug, hltr2]
      refine ⟨hpath2, ?_⟩
      rw [okAt_append]
      refine ⟨hpreok2, ?_⟩
      rw [okAt_cons']
      refine ⟨?_, ?_, hpostok2⟩
      · simp only [Node.children_mk, Node.indent_mk]
        rw [okAt_append]
        constructor
        · exact hnodech2
        · have hEX := okAt_mapShift (tc.node.indent + 1) sc.node.children
            (fun x hx => (okAt_mem _ _ x hsrcch hx).1)
          rw [show c1.node.info.indent = tc.node.info.indent from hlev]
          exact hEX
      · simp only [Node.info_mk, infoAt, beq_iff_eq] at hnodeinf2 ⊢
        show c1.node.info.indent = ρ2
        simpa [infoAt] using hnodeinf2

/-- C1, FALSIFIED as stated: the parent-child indent invariant alone is not
preserved.  This two-root tree satisfies it vacuously (no parent-child pair
exists), yet indenting node 2 under node 1 produces a child at indent 1 under
a parent at indent 5. -/
theorem C1_counterexample :
    forestInv [Node.mk ⟨1, ['a'], 5, false, false⟩ [],
      Node.mk ⟨2, ['b'], 0, false, false⟩ []] = true ∧
    indentNode [Node.mk ⟨1, ['a'], 5, false, false⟩ [],
      Node.mk ⟨2, ['b'], 0, false, false⟩ []] 2 =
      some [Node.mk ⟨1, ['a'], 5, false, false⟩
        [Node.mk ⟨2, ['b'], 1, false, false⟩ []]] ∧
    forestInv [Node.mk ⟨1, ['a'], 5, false, false⟩
      [Node.mk ⟨2, ['b'], 1, false, false⟩ []]] = false := by
  refine ⟨?_, ?_, ?_⟩
  · simp [forestInv, rootsAt]
  · simp [indentNode, cloneTree, cloneNode, locate, extendPre, plug, shiftNode, shiftForest]
  · simp [forestInv, rootsAt]

/-- C1 (amended): the full spec invariant — every child sits at its parent's
indent plus one AND all top-level nodes share one indent — is preserved by
indentNode, outdentNode, moveNode, by pasteNodes when every clipboard entry
satisfies the child invariant, and, for unique-id trees with distinct
resolvable ids whose target is not inside the source, by mergeNodes.  The
parent-child half alone is not preserved (see the counterexample). -/
theorem C1_invariant (t : List Node) (hnd : (idsF t).Nodup)
    (hfi : forestInv t = true) (htu : topUniform t = true) :
    (∀ i t2, indentNode t i = some t2 →
      forestInv t2 = true ∧ topUniform t2 = true) ∧
    (∀ i t2, outdentNode t i = some t2 →
      forestInv t2 = true ∧ topUniform t2 = true) ∧
    (∀ dragId targetId mode tiOpt t2, moveNode t dragId targetId mode tiOpt = some t2 →
      forestInv t2 = true ∧ topUniform t2 = true) ∧
    (∀ targetId copied startId,
      (∀ x ∈ copied, forestInv [x] = true) →
      forestInv (pasteNodes t targetId copied startId) = true ∧
      topUniform (pasteNodes t targetId copied startId) = true) ∧
    (∀ targetId sourceId tt2 st2 tc sc t2 j,
      locate t targetId = some tc → locate t sourceId = some sc →
      ¬ targetId = sourceId → ¬ IsDescendantIn t sourceId targetId →
      mergeNodes t targetId sourceId tt2 st2 = some (t2, j) →
      forestInv t2 = true ∧ topUniform t2 = true) := by
  have hok := okAt_of_fullInv t hfi htu
  refine ⟨?_, ?_, ?_, ?_, ?_⟩
  · intro i t2 h
    exact fullInv_of_okAt t2 _ (indent_okAt t _ hok i t2 h)
  · intro i t2 h
    exact fullInv_of_okAt t2 _ (outdent_okAt t _ hnd hok i t2 h)
  · intro dragId targetId mode tiOpt t2 h
    exact fullInv_of_okAt t2 _ (move_okAt t _ hok dragId targetId mode tiOpt t2 h)
  · intro targetId copied startId hcop
    exact fullInv_of_okAt _ _ (paste_okAt t _ hok targetId copied startId
      (fun x hx => by rw [← forestInv_single]; exact hcop x hx))
  · intro targetId sourceId tt2 st2 tc sc t2 j h1 h2 h3 h4 h5
    exact fullInv_of_okAt t2 _ (merge_okAt t _ hnd hok targetId sourceId tt2 st2 tc sc
      h1 h2 h3 h4 t2 j h5)

/-- Witness for C1 on the invariant tree r(1,ind 1){a(2,ind 2)}, b(3,ind 1). -/
theorem C1_invariant_witness :
    (∀ i t2, indentNode [Node.mk ⟨1, ['r'], 1, false, false⟩
        [Node.mk ⟨2, ['a'], 2, false, false⟩ []],
        Node.mk ⟨3, ['b'], 1, false, false⟩ []] i = some t2 →
      forestInv t2 = true ∧ topUniform t2 = true) ∧
    (∀ i t2, outdentNode [Node.mk ⟨1, ['r'], 1, false, false⟩
        [Node.mk ⟨2, ['a'], 2, false, false⟩ []],
        Node.mk ⟨3, ['b'], 1, false, false⟩ []] i = some t2 →
      forestInv t2 = true ∧ topUniform t2 = true) ∧
    (∀ dragId targetId mode tiOpt t2, moveNode [Node.mk ⟨1, ['r'], 1, false, false⟩
        [Node.mk ⟨2, ['a'], 2, false, false⟩ []],
        Node.mk ⟨3, ['b'], 1, false, false⟩ []] dragId targetId mode tiOpt = some t2 →
      forestInv t2 = true ∧ topUniform t2 = true) ∧
    (∀ targetId copied startId,
      (∀ x ∈ copied, forestInv [x] = true) →
      forestInv (pasteNodes [Node.mk ⟨1, ['r'], 1, false, false⟩
        [Node.mk ⟨2, ['a'], 2, false, false⟩ []],
        Node.mk ⟨3, ['b'], 1, false, false⟩ []] targetId copied startId) = true ∧
      topUniform (pasteNodes [Node.mk ⟨1, ['r'], 1, false, false⟩
        [Node.mk ⟨2, ['a'], 2, false, false⟩ []],
        Node.mk ⟨3, ['b'], 1, false, false⟩ []] targetId copied startId) = true) ∧
    (∀ targetId sourceId tt2 st2 tc sc t2 j,
      locate [Node.mk ⟨1, ['r'], 1, false, false⟩
        [Node.mk ⟨2, ['a'], 2, false, false⟩ []],
        Node.mk ⟨3, ['b'], 1, false, false⟩ []] targetId = some tc →
      locate [Node.mk ⟨1, ['r'], 1, false, false⟩
        [Node.mk ⟨2, ['a'], 2, false, false⟩ []],
        Node.mk ⟨3, ['b'], 1, false, false⟩ []] sourceId = some sc →
      ¬ targetId = sourceId →
      ¬ IsDescendantIn [Node.mk ⟨1, ['r'], 1, false, false⟩
        [Node.mk ⟨2, ['a'], 2, false, false⟩ []],
        Node.mk ⟨3, ['b'], 1, false, false⟩ []] sourceId targetId →
      mergeNodes [Node.mk ⟨1, ['r'], 1, false, false⟩
        [Node.mk ⟨2, ['a'], 2, false, false⟩ []],
        Node.mk ⟨3, ['b'], 1, false, false⟩ []] targetId sourceId tt2 st2 = some (t2, j) →
      forestInv t2 = true ∧ topUniform t2 = true) := by
  exact C1_invariant
    [Node.mk ⟨1, ['r'], 1, false, false⟩ [Node.mk ⟨2, ['a'], 2, false, false⟩ []],
      Node.mk ⟨3, ['b'], 1, false, false⟩ []]
    (by simp only [idsF]; decide)
    (by simp [forestInv, rootsAt])
    (by simp [topUniform, rootsAt])

/-! ### C2: the plain-text codec (treeToText / textToTree) -/

/-- `treeToText` from treeUtils.ts: two spaces per depth level before each
node's text, one line per node, children one level deeper (the source's
redundant non-empty check before recursing is kept). -/
def treeToText : List Node → Nat → List Char
  | [], _ => []
  | .mk info cs :: ns, d =>
    (List.replicate (2 * d) ' ' ++ info.text ++ ['\n']) ++
      ((if cs.isEmpty then [] else treeToText cs (d + 1)) ++ treeToText ns d)

/-- `line.trim()`: strip the whitespace class from both ends. -/
def trimWs (l : List Char) : List Char :=
  ((l.dropWhile isWsChar).reverse.dropWhile isWsChar).reverse

/-- The tab expansion `line.replace(/^\t+/, m => "  ".repeat(m.length))`. -/
def expandTabs (l : List Char) : List Char :=
  List.replicate (2 * (l.takeWhile (fun c => c = '\t')).length) ' ' ++
    l.dropWhile (fun c => c = '\t')

/-- One scanned line of `textToTree`: the trimmed payload and its depth, the
leading-whitespace length halved (rounding down). -/
def lineItem (line : List Char) : List Char × Int :=
  (trimWs (expandTabs line),
    (((expandTabs line).takeWhile isWsChar).length / 2 : Nat))

/-- The `buildLevel` loop of `textToTree`, fuelled.  `first` records whether
the index still equals the loop's `startIdx`; the result carries the built
level, the index after it, and the next fresh id.  The source's index grows
strictly, so fuel beyond the item count reproduces it exactly. -/
def buildLevel (items : List (List Char × Int)) :
    Nat → Bool → Nat → Int → Int → Nat → List Node × Nat × Nat
  | 0, _, i, _, _, k => ([], i, k)
  | fuel + 1, first, i, pd, ind, k =>
    match items.get? i with
    | none => ([], i, k)
    | some it =>
      if it.2 ≤ pd ∧ first = false then ([], i, k)
      else if it.2 < pd then ([], i, k)
      else
        match items.get? (i + 1) with
        | some nxt =>
          if it.2 < nxt.2 then
            let child := buildLevel items fuel true (i + 1) it.2 (ind + 1) (k + 1)
            let rest := buildLevel items fuel false child.2.1 pd ind child.2.2
            (Node.mk ⟨k, it.1, ind, false, false⟩ child.1 :: rest.1, rest.2.1, rest.2.2)
          else
            let rest := buildLevel items fuel false (i + 1) pd ind (k + 1)
            (Node.mk ⟨k, it.1, ind, false, false⟩ [] :: rest.1, rest.2.1, rest.2.2)
        | none =>
          let rest := buildLevel items fuel false (i + 1) pd ind (k + 1)
          (Node.mk ⟨k, it.1, ind, false, false⟩ [] :: rest.1, rest.2.1, rest.2.2)

/-- `textToTree` from treeUtils.ts: split into lines, drop blank ones, read
off depths, and rebuild the nesting with `buildLevel` starting one level above
the minimum depth, with fresh ids from `startId` and indents from 1. -/
def textToTree (text : List Char) (startId : Nat) : List Node × Nat :=
  let lines := (splitNl text).filter (fun l => !(trimWs l).isEmpty)
  if lines.isEmpty then ([], startId)
  else
    let flat := lines.map lineItem
    let minDepth := flat.foldl (fun m it => min m it.2) (flat.headD ([], 0)).2
    let r := buildLevel flat (flat.length + 1) true 0 (minDepth - 1) 1 startId
    (r.1, r.2.2)

/-- The pre-order (text, depth) items of a forest, as `treeToText` lays them
out on lines. -/
def itemsOf : List Node → Nat → List (List Char × Int)
  | [], _ => []
  | .mk info cs :: ns, d => (info.text, (d : Int)) :: (itemsOf cs (d + 1) ++ itemsOf ns d)

/-- The serialized line of one item. -/
def lineOfItem (it : List Char × Int) : List Char :=
  List.replicate (2 * it.2.toNat) ' ' ++ it.1

/-- A node text that the plain-text codec carries losslessly on one line:
non-empty, free of newlines, not starting or ending in whitespace. -/
def goodText (s : List Char) : Bool :=
  !s.isEmpty && s.all (fun c => !(c = '\n')) &&
    !(isWsChar (s.headD ' ')) && !(isWsChar (s.reverse.headD ' '))

/-- The id-, indent- and flag-free skeleton of a node: exactly what
`treeToText` reads. -/
inductive SNode where
  | mk (text : List Char) (children : List SNode)

mutual

/-- Skeleton of one node. -/
def stripN : Node → SNode
  | .mk info cs => .mk info.text (stripF cs)

/-- Skeleton of a forest. -/
def stripF : List Node → List SNode
  | [] => []
  | n :: ns => stripN n :: stripF ns

end

/-- C2, FALSIFIED as stated: a text with leading whitespace is re-read as
indentation and trimmed away, so the reserialization differs from the
original. -/
theorem C2_counterexample :
    treeToText [Node.mk ⟨1, [' ', 'x'], 1, false, false⟩ []] 0 = [' ', 'x', '\n'] ∧
    treeToText ((textToTree (treeToText
      [Node.mk ⟨1, [' ', 'x'], 1, false, false⟩ []] 0) 1).1) 0 = ['x', '\n'] ∧
    ¬ ([' ', 'x', '\n'] : List Char) = ['x', '\n'] := by
  refine ⟨?_, ?_, by decide⟩
  · simp [treeToText]
  · simp only [treeToText]
    simp [textToTree, splitNl, trimWs, isWsChar, expandTabs, lineItem, buildLevel,
      treeToText]

theorem splitNl_ne_nil : ∀ l : List Char, ¬ splitNl l = []
  | [] => by simp [splitNl]
  | c :: cs => by
    rw [splitNl]
    rcases h : splitNl cs with _ | ⟨l, ls⟩
    · simp
    · by_cases hc : c = '\n' <;> simp [hc]

theorem splitNl_line : ∀ (a b : List Char), (∀ c ∈ a, ¬ c = '\n') →
    splitNl (a ++ '\n' :: b) = a :: splitNl b
  | [], b => by
    intro _
    rw [List.nil_append, splitNl]
    rcases h : splitNl b with _ | ⟨l, ls⟩
    · exact absurd h (splitNl_ne_nil b)
    · simp only [h]
      simp
  | c :: a, b => by
    intro h
    have hc : ¬ c = '\n' := h c (List.mem_cons_self _ _)
    have ih := splitNl_line a b (fun x hx => h x (List.mem_cons_of_mem _ hx))
    rw [List.cons_append, splitNl, ih]
    simp [hc]

theorem dropWhile_replicate_space (m : Nat) (s : List Char) :
    (List.replicate m ' ' ++ s).dropWhile isWsChar = s.dropWhile isWsChar := by
  induction m with
  | zero => simp
  | succ n ih => simp [List.replicate_succ, List.dropWhile_cons, isWsChar, ih]

theorem dropWhile_of_head_not (s : List Char) (hne : s.isEmpty = false)
    (hh : isWsChar (s.headD ' ') = false) : s.dropWhile isWsChar = s := by
  cases s with
  | nil => simp at hne
  | cons c cs =>
    simp only [List.headD_cons] at hh
    simp [List.dropWhile_cons, hh]

theorem goodText_parts (s : List Char) (hg : goodText s = true) :
    s.isEmpty = false ∧ (∀ c ∈ s, ¬ c = '\n') ∧
      isWsChar (s.headD ' ') = false ∧ isWsChar (s.reverse.headD ' ') = false := by
  simp only [goodText, Bool.and_eq_true, Bool.not_eq_true'] at hg
  obtain ⟨⟨⟨hne, hnl⟩, hhead⟩, hlast⟩ := hg
  refine ⟨hne, ?_, hhead, hlast⟩
  intro c hc he
  have := List.all_eq_true.mp hnl c hc
  rw [he] at this
  simp at this

theorem trimWs_replicate (m : Nat) (s : List Char) (hg : goodText s = true) :
    trimWs (List.replicate m ' ' ++ s) = s := by
  obtain ⟨hne, _, hhead, hlast⟩ := goodText_parts s hg
  have hrne : s.reverse.isEmpty = false := by
    cases s with
    | nil => simp at hne
    | cons c cs => simp
  rw [trimWs, dropWhile_replicate_space, dropWhile_of_head_not s hne hhead,
    dropWhile_of_head_not s.reverse hrne hlast, List.reverse_reverse]

theorem takeWhile_replicate_space (m : Nat) (s : List Char)
    (hne : s.isEmpty = false) (hh : isWsChar (s.headD ' ') = false) :
    (List.replicate m ' ' ++ s).takeWhile isWsChar = List.replicate m ' ' := by
  induction m with
  | zero =>
    simp only [List.replicate, List.nil_append]
    cases s with
    | nil => simp at hne
    | cons c cs =>
      simp only [List.headD_cons] at hh
      simp [List.takeWhile_cons, hh]
  | succ n ih => simp [List.replicate_succ, List.takeWhile_cons, isWsChar, ih]

theorem takeWhile_tab_of_head (l : List Char)
    (hh : l.headD 'x' = '\t' → False) :
    l.takeWhile (fun c => c = '\t') = [] := by
  cases l with
  | nil => rfl
  | cons c cs =>
    simp only [List.headD_cons] at hh
    have hc : ¬ c = '\t' := hh
    simp [List.takeWhile_cons, hc]

theorem dropWhile_tab_of_head (l : List Char)
    (hh : l.headD 'x' = '\t' → False) :
    l.dropWhile (fun c => c = '\t') = l := by
  cases l with
  | nil => rfl
  | cons c cs =>
    simp only [List.headD_cons] at hh
    have hc : ¬ c = '\t' := hh
    simp [List.dropWhile_cons, hc]

theorem expandTabs_of_head (l : List Char) (hh : l.headD 'x' = '\t' → False) :
    expandTabs l = l := by
  rw [expandTabs, takeWhile_tab_of_head l hh, dropWhile_tab_of_head l hh]
  simp

theorem replicate_line_head (m : Nat) (s : List Char)
    (hne : s.isEmpty = false) (hh : isWsChar (s.headD ' ') = false) :
    (List.replicate m ' ' ++ s).headD 'x' = '\t' → False := by
  intro he
  cases m with
  | zero =>
    cases s with
    | nil => simp at hne
    | cons c cs =>
      simp only [List.replicate, List.nil_append, List.headD_cons] at he
      rw [he] at hh
      simp [isWsChar] at hh
  | succ n =>
    simp only [List.replicate_succ, List.cons_append, List.headD_cons] at he
    cases he

theorem lineItem_of_item (s : List Char) (d : Nat) (hg : goodText s = true) :
    lineItem (List.replicate (2 * d) ' ' ++ s) = (s, (d : Int)) := by
  obtain ⟨hne, _, hhead, _⟩ := goodText_parts s hg
  have hth := replicate_line_head (2 * d) s hne hhead
  rw [lineItem, expandTabs_of_head _ hth,
    trimWs_replicate _ s hg, takeWhile_replicate_space (2 * d) s hne hhead]
  have h2 : (List.replicate (2 * d) ' ').length / 2 = d := by
    simp only [List.length_replicate]
    omega
  rw [h2]

theorem treeToText_childsplit (cs : List Node) (d : Nat) :
    (if cs.isEmpty then ([] : List Char) else treeToText cs d) = treeToText cs d := by
  cases cs with
  | nil => rw [treeToText]; rfl
  | cons c cst => rfl

theorem textsF_cons_sub (info : NodeInfo) (cs ns : List Node)
    (hg : ∀ s ∈ textsF (Node.mk info cs :: ns), goodText s = true) :
    goodText info.text = true ∧ (∀ s ∈ textsF cs, goodText s = true) ∧
      (∀ s ∈ textsF ns, goodText s = true) := by
  refine ⟨hg info.text (by rw [textsF]; exact List.mem_cons_self _ _), ?_, ?_⟩
  · intro s hs
    exact hg s (by rw [textsF]; exact List.mem_cons_of_mem _ (List.mem_append_left _ hs))
  · intro s hs
    exact hg s (by rw [textsF]; exact List.mem_cons_of_mem _ (List.mem_append_right _ hs))

theorem treeToText_split : ∀ (T : List Node) (d : Nat) (X : List Char),
    (∀ s ∈ textsF T, goodText s = true) →
    splitNl (treeToText T d ++ X) = (itemsOf T d).map lineOfItem ++ splitNl X
  | [], d, X => by
    intro _
    rw [treeToText, itemsOf]
    simp
  | .mk info cs :: ns, d, X => by
    intro hg
    obtain ⟨hgt, hgcs, hgns⟩ := textsF_cons_sub info cs ns hg
    obtain ⟨hne, hnl, _, _⟩ := goodText_parts info.text hgt
    rw [treeToText, treeToText_childsplit]
    have hline : ∀ c ∈ List.replicate (2 * d) ' ' ++ info.text, ¬ c = '\n' := by
      intro c hc
      rcases List.mem_append.mp hc with h | h
      · rw [List.eq_of_mem_replicate h]; decide
      · exact hnl c h
    have hstep : (List.replicate (2 * d) ' ' ++ info.text ++ ['\n']) ++
        ((treeToText cs (d + 1) ++ treeToText ns d) ++ X) =
        (List.replicate (2 * d) ' ' ++ info.text) ++
          ('\n' :: (treeToText cs (d + 1) ++ (treeToText ns d ++ X))) := by
      simp [List.append_assoc]
    rw [List.append_assoc, hstep,
      splitNl_line _ _ hline,
      treeToText_split cs (d + 1) (treeToText ns d ++ X) hgcs,
      treeToText_split ns d X hgns]
    rw [itemsOf]
    simp only [List.map_cons, List.map_append, List.cons_append, List.append_assoc]
    rw [show lineOfItem (info.text, (d : Int)) =
      List.replicate (2 * d) ' ' ++ info.text from by
        rw [lineOfItem]
        simp]

theorem itemsOf_length : ∀ (T : List Node) (d : Nat),
    (itemsOf T d).length = countAllNodes T
  | [], d => by rw [itemsOf, countAllNodes]; rfl
  | .mk info cs :: ns, d => by
    rw [itemsOf, countAllNodes]
    simp only [List.length_cons, List.length_append,
      itemsOf_length cs (d + 1), itemsOf_length ns d]
    omega

theorem itemsOf_good : ∀ (T : List Node) (d : Nat),
    (∀ s ∈ textsF T, goodText s = true) →
    ∀ it ∈ itemsOf T d, goodText it.1 = true
  | [], d => by intro _ it h; rw [itemsOf] at h; cases h
  | .mk info cs :: ns, d => by
    intro hg it hit
    obtain ⟨hgt, hgcs, hgns⟩ := textsF_cons_sub info cs ns hg
    rw [itemsOf] at hit
    rcases List.mem_cons.mp hit with h | h
    · rw [h]
      exact hgt
    · rcases List.mem_append.mp h with h | h
      · exact itemsOf_good cs (d + 1) hgcs it h
      · exact itemsOf_good ns d hgns it h

theorem itemsOf_depth_ge : ∀ (T : List Node) (d : Nat),
    ∀ it ∈ itemsOf T d, (d : Int) ≤ it.2
  | [], d => by intro it h; rw [itemsOf] at h; cases h
  | .mk info cs :: ns, d => by
    intro it hit
    rw [itemsOf] at hit
    rcases List.mem_cons.mp hit with h | h
    · rw [h]
    · rcases List.mem_append.mp h with h | h
      · have := itemsOf_depth_ge cs (d + 1) it h
        have hc : ((d : Int) + 1) ≤ it.2 := by
          refine le_trans ?_ this
          push_cast
          omega
        omega
      · exact itemsOf_depth_ge ns d it h

theorem get?_append_len {α : Type} : ∀ (pre suf : List α) (n : Nat),
    (pre ++ suf).get? (pre.length + n) = suf.get? n
  | [], suf, n => by simp
  | a :: pre, suf, n => by
    rw [List.cons_append,
      show (a :: pre).length + n = (pre.length + n) + 1 from by simp; omega,
      List.get?_cons_succ]
    exact get?_append_len pre suf n

theorem filter_lines : ∀ (items : List (List Char × Int)),
    (∀ it ∈ items, goodText it.1 = true) →
    ((items.map lineOfItem) ++ [[]]).filter (fun l => !(trimWs l).isEmpty) =
      items.map lineOfItem
  | [] => by
    intro _
    simp [trimWs]
  | it :: rest => by
    intro hg
    obtain ⟨hne, _, _, _⟩ := goodText_parts it.1 (hg it (List.mem_cons_self _ _))
    have h1 : trimWs (lineOfItem it) = it.1 := by
      rw [lineOfItem]
      exact trimWs_replicate _ _ (hg it (List.mem_cons_self _ _))
    have ih := filter_lines rest (fun x hx => hg x (List.mem_cons_of_mem _ hx))
    simp only [List.map_cons, List.cons_append, List.filter_cons, h1, hne]
    rw [ih]
    simp

theorem map_lineItem : ∀ (items : List (List Char × Int)),
    (∀ it ∈ items, goodText it.1 = true) → (∀ it ∈ items, 0 ≤ it.2) →
    (items.map lineOfItem).map lineItem = items
  | [] => by intro _ _; rfl
  | it :: rest => by
    intro hg hnn
    have h1 : lineItem (lineOfItem it) = it := by
      rw [lineOfItem]
      rw [lineItem_of_item it.1 it.2.toNat (hg it (List.mem_cons_self _ _))]
      have : (it.2.toNat : Int) = it.2 := Int.toNat_of_nonneg (hnn it (List.mem_cons_self _ _))
      rw [this]
    simp only [List.map_cons, h1]
    rw [map_lineItem rest (fun x hx => hg x (List.mem_cons_of_mem _ hx))
      (fun x hx => hnn x (List.mem_cons_of_mem _ hx))]

theorem foldl_min_zero : ∀ (l : List (List Char × Int)),
    (∀ it ∈ l, 0 ≤ it.2) →
    l.foldl (fun m it => min m it.2) 0 = 0
  | [] => by intro _; rfl
  | it :: rest => by
    intro h
    rw [List.foldl_cons]
    rw [show min (0 : Int) it.2 = 0 from by
      have := h it (List.mem_cons_self _ _)
      omega]
    exact foldl_min_zero rest (fun x hx => h x (List.mem_cons_of_mem _ hx))

theorem itemsOf_head_of_ne : ∀ (l : List Node) (d : Nat), ¬ l = [] →
    ∃ s rest, itemsOf l d = (s, (d : Int)) :: rest
  | [], d => by intro h; exact absurd rfl h
  | .mk i cs :: ns, d => by
    intro _
    exact ⟨i.text, itemsOf cs (d + 1) ++ itemsOf ns d, by rw [itemsOf]⟩

/-- `buildLevel` on the serialized items of a forest placed at `pre.length`,
called one level above the forest's depth, rebuilds exactly that forest's
skeleton, consumes exactly its items, and uses exactly one id per node. -/
theorem buildLevel_spec : ∀ (T : List Node) (d : Nat) (pre suf : List (List Char × Int))
    (ind : Int) (k : Nat) (fuel : Nat) (first : Bool),
    (∀ it, suf.head? = some it → it.2 < (d : Int)) →
    (first = true → ¬ T = []) →
    countAllNodes T ≤ fuel →
    ∃ T', buildLevel (pre ++ itemsOf T d ++ suf) fuel first pre.length
        ((d : Int) - 1) ind k =
      (T', pre.length + countAllNodes T, k + countAllNodes T) ∧ stripF T' = stripF T
  | [], d, pre, suf, ind, k, fuel, first => by
    intro hstop hfirst hfuel
    refine ⟨[], ?_, rfl⟩
    rw [itemsOf, countAllNodes]
    have hfalse : first = false := by
      cases first with
      | false => rfl
      | true => exact absurd rfl (hfirst rfl)
    subst hfalse
    cases fuel with
    | zero =>
      rw [buildLevel]
      simp
    | succ f =>
      rw [buildLevel]
      have hget : (pre ++ [] ++ suf).get? pre.length = suf.head? := by
        rw [List.append_nil]
        have := get?_append_len pre suf 0
        rw [Nat.add_zero] at this
        rw [this, List.get?_zero]
      rcases hh : suf.head? with _ | it
      · rw [hh] at hget
        simp only [hget]
        simp
      · rw [hh] at hget
        simp only [hget]
        have hlt := hstop it hh
        rw [if_pos ⟨by omega, trivial⟩]
        simp
  | .mk info cs :: ns, d, pre, suf, ind, k, fuel, first => by
    intro hstop hfirst hfuel
    rw [countAllNodes] at hfuel
    cases fuel with
    | zero => omega
    | succ f =>
      rw [itemsOf, countAllNodes, buildLevel]
      have hgetx : (pre ++ ((info.text, (d : Int)) :: (itemsOf cs (d + 1) ++ itemsOf ns d))
          ++ suf).get? pre.length = some (info.text, (d : Int)) := by
        rw [List.append_assoc]
        have h0 := get?_append_len pre
          (((info.text, (d : Int)) :: (itemsOf cs (d + 1) ++ itemsOf ns d)) ++ suf) 0
        simp only [Nat.add_zero] at h0
        rw [h0]
        rfl
      simp only [hgetx]
      rw [if_neg (by rintro ⟨h1, _⟩; simp at h1),
        if_neg (by intro h1; omega)]
      by_cases hcs : cs = []
      · rw [hcs]
        simp only [itemsOf, List.nil_append]
        have hsplit : pre ++ ((info.text, (d : Int)) :: itemsOf ns d) ++ suf
            = (pre ++ [(info.text, (d : Int))]) ++ (itemsOf ns d ++ suf) := by
          simp [List.append_assoc]
        rw [hsplit]
        have hget2 : ((pre ++ [(info.text, (d : Int))]) ++ (itemsOf ns d ++ suf)).get?
            (pre.length + 1) = (itemsOf ns d ++ suf).get? 0 := by
          have h0 := get?_append_len (pre ++ [(info.text, (d : Int))]) (itemsOf ns d ++ suf) 0
          simp only [Nat.add_zero] at h0
          rw [show (pre ++ [(info.text, (d : Int))]).length = pre.length + 1 from by simp]
            at h0
          exact h0
        obtain ⟨N', hN, hNs⟩ := buildLevel_spec ns d (pre ++ [(info.text, (d : Int))]) suf
          ind (k + 1) f false hstop (by intro h; cases h) (by omega)
        rw [show (pre ++ [(info.text, (d : Int))]).length = pre.length + 1 from by simp,
          List.append_assoc] at hN
        rcases hnb : (itemsOf ns d ++ suf).get? 0 with _ | nxt
        · rw [hnb] at hget2
          simp only [hget2, hN]
          refine ⟨Node.mk ⟨k, info.text, ind, false, false⟩ [] :: N', ?_, ?_⟩
          · simp only [Prod.mk.injEq, countAllNodes]
            refine ⟨trivial, by omega, by omega⟩
          · rw [stripF, stripF, stripN, stripN, hNs]
        · rw [hnb] at hget2
          have hnlt : ¬ ((d : Int) < nxt.2) := by
            rcases hns : ns with _ | ⟨⟨i1, c1⟩, ns1⟩
            · rw [hns] at hnb
              simp only [itemsOf, List.nil_append] at hnb
              rw [List.get?_zero] at hnb
              have := hstop nxt hnb
              omega
            · rw [hns] at hnb
              simp only [itemsOf, List.cons_append] at hnb
              rw [List.get?_zero, List.head?_cons] at hnb
              injection hnb with hnb
              rw [← hnb]
              simp
          simp only [hget2]
          rw [if_neg hnlt]
          simp only [hN]
          refine ⟨Node.mk ⟨k, info.text, ind, false, false⟩ [] :: N', ?_, ?_⟩
          · simp only [Prod.mk.injEq, countAllNodes]
            refine ⟨trivial, by omega, by omega⟩
          · rw [stripF, stripF, stripN, stripN, hNs]
      · obtain ⟨s0, rest0, hitems0⟩ := itemsOf_head_of_ne cs (d + 1) hcs
        have hsplit : pre ++ ((info.text, (d : Int)) :: (itemsOf cs (d + 1) ++ itemsOf ns d))
            ++ suf = (pre ++ [(info.text, (d : Int))]) ++
              (itemsOf cs (d + 1) ++ (itemsOf ns d ++ suf)) := by
          simp [List.append_assoc]
        rw [hsplit]
        have hget2 : ((pre ++ [(info.text, (d : Int))]) ++
            (itemsOf cs (d + 1) ++ (itemsOf ns d ++ suf))).get? (pre.length + 1) =
            some (s0, ((d + 1 : Nat) : Int)) := by
          have h0 := get?_append_len (pre ++ [(info.text, (d : Int))])
            (itemsOf cs (d + 1) ++ (itemsOf ns d ++ suf)) 0
          simp only [Nat.add_zero] at h0
          rw [show (pre ++ [(info.text, (d : Int))]).length = pre.length + 1 from by simp]
            at h0
          rw [h0, hitems0]
          rfl
        simp only [hget2]
        rw [if_pos (by push_cast; omega)]
        have hstop2 : ∀ it, (itemsOf ns d ++ suf).head? = some it →
            it.2 < ((d + 1 : Nat) : Int) := by
          intro it hh
          rcases hns : ns with _ | ⟨⟨i1, c1⟩, ns1⟩
          · rw [hns] at hh
            simp only [itemsOf, List.nil_append] at hh
            have := hstop it hh
            push_cast
            omega
          · rw [hns] at hh
            simp only [itemsOf, List.cons_append, List.head?_cons] at hh
            injection hh with hh
            rw [← hh]
            show (d : Int) < ((d + 1 : Nat) : Int)
            push_cast
            omega
        obtain ⟨C', hC, hCs⟩ := buildLevel_spec cs (d + 1) (pre ++ [(info.text, (d : Int))])
          (itemsOf ns d ++ suf) (ind + 1) (k + 1) f true hstop2 (fun _ => hcs) (by omega)
        rw [show (pre ++ [(info.text, (d : Int))]).length = pre.length + 1 from by simp,
          show ((d + 1 : Nat) : Int) - 1 = (d : Int) from by push_cast; ring] at hC
        obtain ⟨N', hN, hNs⟩ := buildLevel_spec ns d
          (pre ++ [(info.text, (d : Int))] ++ itemsOf cs (d + 1)) suf ind
          (k + 1 + countAllNodes cs) f false hstop (by intro h; cases h) (by omega)
        rw [show (pre ++ [(info.text, (d : Int))] ++ itemsOf cs (d + 1)).length =
            pre.length + 1 + countAllNodes cs from by
          simp only [List.length_append, List.length_cons, List.length_nil,
            itemsOf_length]] at hN
        rw [show pre ++ [(info.text, (d : Int))] ++ itemsOf cs (d + 1) ++ itemsOf ns d ++ suf =
            (pre ++ [(info.text, (d : Int))]) ++
              (itemsOf cs (d + 1) ++ (itemsOf ns d ++ suf)) from by
          simp [List.append_assoc]] at hN
        rw [show pre ++ [(info.text, (d : Int))] ++ itemsOf cs (d + 1) ++
            (itemsOf ns d ++ suf) =
            pre ++ [(info.text, (d : Int))] ++ (itemsOf cs (d + 1) ++ (itemsOf ns d ++ suf))
            from by simp [List.append_assoc]] at hC
        rw [hC]
        simp only [hN]
        refine ⟨Node.mk ⟨k, info.text, ind, false, false⟩ C' :: N', ?_, ?_⟩
        · simp only [Prod.mk.injEq, countAllNodes]
          refine ⟨trivial, by omega, by omega⟩
        · rw [stripF, stripF, stripN, stripN, hCs, hNs]

theorem stripF_nil_iff : ∀ l : List Node, stripF l = [] ↔ l = []
  | [] => by rw [stripF]; simp
  | n :: ns => by rw [stripF]; simp

/-- `treeToText` only reads the skeleton. -/
theorem treeToText_congrF : ∀ (A B : List Node), stripF A = stripF B →
    ∀ d, treeToText A d = treeToText B d
  | [], B => by
    intro h d
    rw [stripF] at h
    have hB : B = [] := (stripF_nil_iff B).mp h.symm
    rw [hB]
  | a :: as, B => by
    intro h d
    cases B with
    | nil =>
      rw [stripF, stripF] at h
      cases h
    | cons b bs =>
      rw [stripF, stripF] at h
      injection h with h1 h2
      cases a with
      | mk ia ca =>
        cases b with
        | mk ib cb =>
          rw [stripN, stripN] at h1
          injection h1 with ht hc
          rw [treeToText, treeToText, treeToText_childsplit, treeToText_childsplit, ht,
            treeToText_congrF ca cb hc (d + 1), treeToText_congrF as bs h2 d]

/-- The reparse of a good serialization rebuilds the same skeleton, so the
second serialization is identical. -/
theorem codec_roundtrip (T : List Node) (sid : Nat)
    (hg : ∀ s ∈ textsF T, goodText s = true) :
    treeToText ((textToTree (treeToText T 0) sid).1) 0 = treeToText T 0 := by
  cases T with
  | nil =>
    rw [show treeToText [] 0 = [] from by rw [treeToText]]
    rw [show textToTree [] sid = ([], sid) from by
      rw [textToTree]
      simp [splitNl, trimWs]]
    rw [show treeToText ([] : List Node) 0 = [] from by rw [treeToText]]
  | cons t0 Ts =>
    cases t0 with
    | mk i0 cs0 =>
      have hsplit : splitNl (treeToText (Node.mk i0 cs0 :: Ts) 0) =
          (itemsOf (Node.mk i0 cs0 :: Ts) 0).map lineOfItem ++ [[]] := by
        have h0 := treeToText_split (Node.mk i0 cs0 :: Ts) 0 [] hg
        rw [List.append_nil] at h0
        rw [h0, show splitNl [] = [[]] from by rw [splitNl]]
      have hlines : (splitNl (treeToText (Node.mk i0 cs0 :: Ts) 0)).filter
          (fun l => !(trimWs l).isEmpty) = (itemsOf (Node.mk i0 cs0 :: Ts) 0).map
          lineOfItem := by
        rw [hsplit]
        exact filter_lines _ (itemsOf_good _ 0 hg)
      have hflat : ((itemsOf (Node.mk i0 cs0 :: Ts) 0).map lineOfItem).map lineItem =
          itemsOf (Node.mk i0 cs0 :: Ts) 0 := by
        refine map_lineItem _ (itemsOf_good _ 0 hg) ?_
        intro it hit
        have := itemsOf_depth_ge _ 0 it hit
        simpa using this
      rw [textToTree]
      simp only [hlines, hflat]
      rw [show itemsOf (Node.mk i0 cs0 :: Ts) 0 =
        (i0.text, (0 : Int)) :: (itemsOf cs0 1 ++ itemsOf Ts 0) from by
          rw [itemsOf]
          simp]
      simp only [List.map_cons, List.isEmpty_cons, Bool.false_eq_true, if_false,
        List.headD_cons]
      have hmin : ((i0.text, (0 : Int)) :: (itemsOf cs0 1 ++ itemsOf Ts 0)).foldl
          (fun m it => min m it.2) ((i0.text, (0 : Int)).2) = 0 := by
        rw [show ((i0.text, (0 : Int)).2) = (0 : Int) from rfl]
        refine foldl_min_zero _ ?_
        intro it hit
        rcases List.mem_cons.mp hit with h | h
        · rw [h]
        · rcases List.mem_append.mp h with h | h
          · have := itemsOf_depth_ge cs0 1 it h
            omega
          · have := itemsOf_depth_ge Ts 0 it h
            simpa using this
      rw [hmin]
      obtain ⟨T', hT', hTs⟩ := buildLevel_spec (Node.mk i0 cs0 :: Ts) 0 [] [] 1 sid
        (((i0.text, (0 : Int)) :: (itemsOf cs0 1 ++ itemsOf Ts 0)).length + 1) true
        (by intro it h; cases h)
        (by intro _; simp)
        (by
          simp only [List.length_cons, List.length_append, itemsOf_length, countAllNodes]
          omega)
      rw [show itemsOf (Node.mk i0 cs0 :: Ts) 0 =
        (i0.text, (0 : Int)) :: (itemsOf cs0 1 ++ itemsOf Ts 0) from by
          rw [itemsOf]
          simp] at hT'
      simp only [List.nil_append, List.append_nil, List.length_nil, Nat.cast_zero] at hT'
      rw [hT']
      exact treeToText_congrF T' (Node.mk i0 cs0 :: Ts) hTs 0

/-- C2, amended: the serialize-parse-serialize law
treeToText (textToTree (treeToText T)) = treeToText T holds for every tree
whose node texts are single-line, non-empty and free of leading and trailing
whitespace; it does NOT hold for arbitrary texts as the claim states
(see the counterexample, where a leading space is re-read as indentation). -/
theorem C2_codec (T : List Node) (sid : Nat)
    (hg : ∀ s ∈ textsF T, goodText s = true) :
    treeToText ((textToTree (treeToText T 0) sid).1) 0 = treeToText T 0 :=
  codec_roundtrip T sid hg

theorem C2_codec_witness :
    (∀ s ∈ textsF [Node.mk ⟨1, ['a'], 1, false, false⟩
        [Node.mk ⟨2, ['b'], 2, false, false⟩ []],
      Node.mk ⟨3, ['c'], 1, false, false⟩ []], goodText s = true) ∧
    treeToText ((textToTree (treeToText [Node.mk ⟨1, ['a'], 1, false, false⟩
        [Node.mk ⟨2, ['b'], 2, false, false⟩ []],
      Node.mk ⟨3, ['c'], 1, false, false⟩ []] 0) 10).1) 0 =
      treeToText [Node.mk ⟨1, ['a'], 1, false, false⟩
        [Node.mk ⟨2, ['b'], 2, false, false⟩ []],
      Node.mk ⟨3, ['c'], 1, false, false⟩ []] 0 := by
  have hgood : ∀ s ∈ textsF [Node.mk ⟨1, ['a'], 1, false, false⟩
      [Node.mk ⟨2, ['b'], 2, false, false⟩ []],
      Node.mk ⟨3, ['c'], 1, false, false⟩ []], goodText s = true := by
    intro s hs
    simp only [textsF] at hs
    simp at hs
    rcases hs with h | h | h <;> subst h <;> decide
  exact ⟨hgood, C2_codec _ 10 hgood⟩

end Locus